import Mathlib

/-!
# Order matcher (`orderMatcher/OrderMatcher.cpp`)

A shallow embedding of the matching engine: the order ledger (`orderBook`), the
per-stock resting queues (`buyMap`, `sellMap`), `enterOrder`, `matcher`, and the
producer/consumer handshake of `readerWriterProcess` and `matchingProcess`.

Conventions of the embedding.
* Quantities are mathematical integers.  In the source `Order::quantity` is filled by
  `stoi` (an `int`) and the running remainder `qty` is a `long`; every value `matcher`
  computes is a difference of two quantities or the negation of one, so no machine
  overflow can occur and `Int` is exact.
* `orderCount` and `nextOrder` are `unsigned long` counters that only count ledger
  entries; they are natural numbers here.
* `orderBook[i].status = Success` with `i` outside the vector is undefined behaviour in
  the source; the embedding leaves the ledger unchanged there.
* `unordered_map::operator[]` creates a default queue on first access; a map is a total
  function whose value at a key never touched is the default queue.
-/

namespace OrderMatching

/-! ## Data model -/

inductive TradeSide where
  | Buy
  | Sell
deriving DecidableEq, Repr

inductive OrderStatus where
  | Open
  | Success
deriving DecidableEq, Repr

/-- Modelled from the spec: the `Order` record is declared in `OrderMatcher.hpp`, which is
not part of the sources; its fields are the ones `OrderMatcher.cpp` reads and writes. -/
structure Order where
  orderId : Nat
  trader : String
  stock : String
  quantity : Int
  side : TradeSide
  status : OrderStatus
deriving DecidableEq, Repr

/-- Modelled from the spec: `QuantityTrader` (a resting entry: quantity and the id of the
order it belongs to) is declared in `OrderMatcher.hpp`; the constructor call
`QuantityTrader qt(qty, ord.orderId)` fixes the field order. -/
structure QuantityTrader where
  quantity : Int
  orderId : Nat
deriving DecidableEq, Repr

/-- Modelled from the spec: `ConcurrentStockQueue` is declared in `OrderMatcher.hpp`: a
FIFO `stockQueue` (front of the queue = head of the list), the flag `isLeftOver` and the
slot `leftOver`. -/
structure ConcurrentStockQueue where
  stockQueue : List QuantityTrader
  isLeftOver : Bool
  leftOver : QuantityTrader
deriving DecidableEq, Repr

/-- The queue `operator[]` creates for a stock seen for the first time. -/
def emptyQueue : ConcurrentStockQueue :=
  { stockQueue := [], isLeftOver := false, leftOver := { quantity := 0, orderId := 0 } }

/-- The globals of `OrderMatcher.cpp` that `enterOrder` and `matcher` use. -/
structure State where
  orderBook : List Order
  buyMap : String → ConcurrentStockQueue
  sellMap : String → ConcurrentStockQueue
  orderCount : Nat

/-- State at the start of a run: `orderBook.clear()`, empty maps, `orderCount{0}`. -/
def initState : State :=
  { orderBook := [], buyMap := fun _ => emptyQueue, sellMap := fun _ => emptyQueue,
    orderCount := 0 }

/-! ## Ledger operations -/

/-- `orderBook[i].status = OrderStatus::Success`. -/
def setSuccess : List Order → Nat → List Order
  | [], _ => []
  | o :: os, 0 => { o with status := OrderStatus.Success } :: os
  | o :: os, i + 1 => o :: setSuccess os i

/-- The ledger write lifted to the state. -/
def markSuccess (σ : State) (i : Nat) : State :=
  { σ with orderBook := setSuccess σ.orderBook i }

/-- `enterOrder` (lines 41-56): the id is the current `orderCount`, the order is appended,
the counter is incremented; always returns `true`. -/
def enterOrder (σ : State) (ord : Order) : Bool × State :=
  let ord1 := { ord with orderId := σ.orderCount }
  (true, { σ with orderBook := σ.orderBook ++ [ord1], orderCount := σ.orderCount + 1 })

/-! ## Queue access -/

/-- `cs_que` (line 175): a Buy order goes to `sellMap`, a Sell order to `buyMap`. -/
def oppQueue (σ : State) (ord : Order) : ConcurrentStockQueue :=
  if ord.side = TradeSide.Buy then σ.sellMap ord.stock else σ.buyMap ord.stock

/-- Writing through the reference `cs_que`. -/
def setOppQueue (σ : State) (ord : Order) (q : ConcurrentStockQueue) : State :=
  if ord.side = TradeSide.Buy then { σ with sellMap := Function.update σ.sellMap ord.stock q }
  else { σ with buyMap := Function.update σ.buyMap ord.stock q }

/-- `_que` (lines 241 and 257): the queue of the incoming order's own side. -/
def ownQueue (σ : State) (ord : Order) : ConcurrentStockQueue :=
  if ord.side = TradeSide.Buy then σ.buyMap ord.stock else σ.sellMap ord.stock

/-- Writing through the reference `_que`. -/
def setOwnQueue (σ : State) (ord : Order) (q : ConcurrentStockQueue) : State :=
  if ord.side = TradeSide.Buy then { σ with buyMap := Function.update σ.buyMap ord.stock q }
  else { σ with sellMap := Function.update σ.sellMap ord.stock q }

/-- `_que.stockQueue.push(qt)`: append at the back of the own-side FIFO. -/
def pushOwn (σ : State) (ord : Order) (qt : QuantityTrader) : State :=
  let q := ownQueue σ ord
  setOwnQueue σ ord { q with stockQueue := q.stockQueue ++ [qt] }

/-! ## The matcher -/

/-- The `while (qty > 0)` loop of `matcher` (lines 212-251).  The list argument is the
content of `cs_que.stockQueue` when the iteration starts.  `pop` is the queue's
non-blocking pop (spec 4.2, `popFront`): it takes the head and returns `true`, or returns
`false` on the empty queue. -/
def matcherLoop (ord : Order) : List QuantityTrader → Int → State → Bool × State
  | [], qty, σ =>
    if 0 < qty then
      -- pop fails: the remainder rests on the own-side queue
      (false, pushOwn σ ord { quantity := qty, orderId := ord.orderId })
    else (false, σ)
  | e :: rest, qty, σ =>
    if 0 < qty then
      let σ1 := setOppQueue σ ord { oppQueue σ ord with stockQueue := rest }
      let qty1 := qty - e.quantity
      if 0 ≤ qty1 then
        let σ2 := markSuccess σ1 e.orderId
        let σ3 := setOppQueue σ2 ord { oppQueue σ2 ord with isLeftOver := false }
        if qty1 = 0 then (true, markSuccess σ3 ord.orderId)
        else matcherLoop ord rest qty1 σ3
      else
        let σ2 := markSuccess σ1 ord.orderId
        (true, setOppQueue σ2 ord
          { oppQueue σ2 ord with
            leftOver := { quantity := qty1 * (-1), orderId := e.orderId }
            isLeftOver := true })
    else (false, σ)

/-- `matcher` (lines 169-265).  Returns the function's result and the state after it. -/
def matcher (σ : State) (ord : Order) : Bool × State :=
  let cs := oppQueue σ ord
  let qty : Int := ord.quantity
  if !cs.stockQueue.isEmpty || cs.isLeftOver then
    if cs.isLeftOver then
      let qty1 := qty - cs.leftOver.quantity
      if 0 ≤ qty1 then
        let σ1 := markSuccess σ cs.leftOver.orderId
        let σ2 := setOppQueue σ1 ord { oppQueue σ1 ord with isLeftOver := false }
        if qty1 = 0 then (true, markSuccess σ2 ord.orderId)
        else (false, σ2)
      else
        let σ1 := markSuccess σ ord.orderId
        (true, setOppQueue σ1 ord
          { oppQueue σ1 ord with
            leftOver := { quantity := qty1 * (-1), orderId := cs.leftOver.orderId }
            isLeftOver := true })
    else matcherLoop ord cs.stockQueue qty σ
  else
    (false, pushOwn σ ord { quantity := ord.quantity, orderId := ord.orderId })

/-! ## Sequential processing -/

/-- One round of the pipeline with the consumer caught up: `enterOrder(ord)` appends the
order, then `matchingProcess` calls `matcher(orderBook[nextOrder])` on the entry just
appended (its index is the ledger length before the append). -/
def processOrder (σ : State) (ord : Order) : State :=
  let σ1 := (enterOrder σ ord).2
  match σ1.orderBook[σ.orderBook.length]? with
  | some o => (matcher σ1 o).2
  | none => σ1

/-- Orders appended and matched one after the other, in append order. -/
def processAll (σ : State) (ords : List Order) : State :=
  ords.foldl processOrder σ

/-! ## Ingestion and the matching process -/

/-- Modelled from the spec: one record of the feed as `CSVIterator` (not part of the
sources) yields it: the four text fields `(*loop)[0]` .. `(*loop)[3]`. -/
structure Record where
  trader : String
  stock : String
  quantity : String
  side : String
deriving DecidableEq, Repr

/-- The characters `strtol` skips in front of a number (`isspace` in the C locale). -/
def isSpaceChar (c : Char) : Bool :=
  c = ' ' || c = '\t' || c = '\n' || c = '\r' || c.toNat = 11 || c.toNat = 12

/-- The function `std::stoi` of the C++ standard library, base 10: leading white space, an
optional sign, then decimal digits; text after the digits is ignored.  `none` stands for
the two exceptions it throws: `invalid_argument` (no digit) and `out_of_range` (the value
does not fit an `int`). -/
def stoi (s : String) : Option Int :=
  let cs := s.toList.dropWhile isSpaceChar
  let body : Bool × List Char :=
    match cs with
    | '-' :: r => (true, r)
    | '+' :: r => (false, r)
    | r => (false, r)
  let digs := body.2.takeWhile Char.isDigit
  if digs.isEmpty then none
  else
    let n : Nat := digs.foldl (fun a c => 10 * a + (c.toNat - 48)) 0
    let v : Int := if body.1 then -(n : Int) else (n : Int)
    if -2147483648 ≤ v ∧ v ≤ 2147483647 then some v else none

/-- The body of the reader's `try` block up to the call of `enterOrder` (lines 71-78).
The argument `gen` is the value of `OrderIdGenerator`; `none` when `stoi` throws. -/
def parseRecord (gen : Nat) (r : Record) : Option Order :=
  match stoi r.quantity with
  | none => none
  | some q =>
    some { orderId := gen, trader := r.trader, stock := r.stock, quantity := q,
           side := if r.side.toList.head? = some 'B' then TradeSide.Buy else TradeSide.Sell,
           status := OrderStatus.Open }

/-- Where `readerWriterProcess` is: still in its loop over the feed, or past
`dataExausted.test_and_set()` and the final `notify_one` (lines 100-101). -/
inductive ReaderPc where
  | Reading
  | Ended
deriving DecidableEq, Repr

/-- Where `matchingProcess` is: blocked in `orderSyncCond.wait` (line 130), in the inner
`while (nextOrder < orderCount)` loop (lines 132-137), at the test of `dataExausted`
(line 142), or past the `break`. -/
inductive MatcherPc where
  | Waiting
  | Draining
  | Checking
  | Terminated
deriving DecidableEq, Repr

/-- The shared globals together with the position of the two threads. -/
structure Sys where
  st : State
  nextOrder : Nat
  dataExausted : Bool
  feed : List Record
  idGen : Nat
  reader : ReaderPc
  matcherPc : MatcherPc

/-- Both threads just started, on the feed given. -/
def initSys (feed : List Record) : Sys :=
  { st := initState, nextOrder := 0, dataExausted := false, feed := feed, idGen := 0,
    reader := ReaderPc.Reading, matcherPc := MatcherPc.Waiting }

/-- The atomic steps of the two threads. -/
inductive Action where
  | readRecord
  | readerEnd
  | wake
  | drainOne
  | drainEnd
  | checkFlag
deriving DecidableEq, Repr

/-- One step of the interleaving; `none` when the step is not enabled.
* `readRecord`: one iteration of the reader's loop: parse, `enterOrder` unless `stoi`
  threw; `OrderIdGenerator` advances either way.
* `readerEnd`: the feed is at its end: `dataExausted.test_and_set()` and `notify_one`.
* `wake`: `orderSyncCond.wait(lk, pred)` returns; it can do so only when
  `pred = nextOrder < orderCount` holds.
* `drainOne`: one iteration of the inner loop: `matcher(orderBook[nextOrder])`, then
  `nextOrder.fetch_add(1)`.
* `drainEnd`: the inner loop's condition is false.
* `checkFlag`: `if (dataExausted.test_and_set()) break;`: the flag is set whatever its
  value was, and the loop is left when it was set before. -/
def step (a : Action) (s : Sys) : Option Sys :=
  match a with
  | Action.readRecord =>
    match s.reader, s.feed with
    | ReaderPc.Reading, r :: rest =>
      match parseRecord s.idGen r with
      | some ord => some { s with st := (enterOrder s.st ord).2, feed := rest, idGen := s.idGen + 1 }
      | none => some { s with feed := rest, idGen := s.idGen + 1 }
    | _, _ => none
  | Action.readerEnd =>
    match s.reader, s.feed with
    | ReaderPc.Reading, [] => some { s with dataExausted := true, reader := ReaderPc.Ended }
    | _, _ => none
  | Action.wake =>
    if s.matcherPc = MatcherPc.Waiting ∧ s.nextOrder < s.st.orderCount then
      some { s with matcherPc := MatcherPc.Draining }
    else none
  | Action.drainOne =>
    if s.matcherPc = MatcherPc.Draining ∧ s.nextOrder < s.st.orderCount then
      match s.st.orderBook[s.nextOrder]? with
      | some ord => some { s with st := (matcher s.st ord).2, nextOrder := s.nextOrder + 1 }
      | none => none
    else none
  | Action.drainEnd =>
    if s.matcherPc = MatcherPc.Draining ∧ ¬ s.nextOrder < s.st.orderCount then
      some { s with matcherPc := MatcherPc.Checking }
    else none
  | Action.checkFlag =>
    if s.matcherPc = MatcherPc.Checking then
      some { s with dataExausted := true,
                    matcherPc := if s.dataExausted then MatcherPc.Terminated
                                 else MatcherPc.Waiting }
    else none

/-- A schedule run from a state: `none` as soon as a step is not enabled. -/
def exec : List Action → Sys → Option Sys
  | [], s => some s
  | a :: as, s =>
    match step a s with
    | some s1 => exec as s1
    | none => none

/-- The states some interleaving reaches on the feed given. -/
def Reachable (feed : List Record) (s : Sys) : Prop :=
  ∃ acts : List Action, exec acts (initSys feed) = some s

/-! ## Observations used in the statements -/

/-- The queue of stock `s` on side `d`. -/
def queueAt (σ : State) (s : String) (d : TradeSide) : ConcurrentStockQueue :=
  match d with
  | TradeSide.Buy => σ.buyMap s
  | TradeSide.Sell => σ.sellMap s

/-- The other side. -/
def TradeSide.flip : TradeSide → TradeSide
  | TradeSide.Buy => TradeSide.Sell
  | TradeSide.Sell => TradeSide.Buy

/-- Status of the ledger entry at index `i`, if there is one. -/
def statusAt (book : List Order) (i : Nat) : Option OrderStatus :=
  (book[i]?).map (fun o => o.status)

/-- Total quantity of a list of resting entries. -/
def totalQty (es : List QuantityTrader) : Int :=
  (es.map (fun e => e.quantity)).sum

/-- The ledger after marking, in turn, the order of every entry of the list. -/
def markAll (book : List Order) (es : List QuantityTrader) : List Order :=
  es.foldl (fun b e => setSuccess b e.orderId) book


/-! ## Concrete runs -/

/-- An order as the reader builds it: `Open`, the id still to be assigned by `enterOrder`. -/
def newOrder (trader stock : String) (quantity : Int) (side : TradeSide) : Order :=
  { orderId := 0, trader := trader, stock := stock, quantity := quantity, side := side,
    status := OrderStatus.Open }

/-- The call `matcher(orderBook[nextOrder])` for the last order of a feed: the state after
the earlier orders were appended and matched and the last one appended, and the ledger
entry passed to `matcher`. -/
def arriving (earlier : List Order) (last : Order) : State × Order :=
  let σ := (enterOrder (processAll initState earlier) last).2
  (σ, (σ.orderBook[earlier.length]?).getD last)


/-- The entries resting on a queue: the leftover, when present, ahead of the FIFO. -/
def resting (q : ConcurrentStockQueue) : List QuantityTrader :=
  (if q.isLeftOver then [q.leftOver] else []) ++ q.stockQueue

/-- A state no run produces: the Buy-side leftover of `X` refers to order `0`, which is a
Sell order (the one about to be matched). -/
def selfReferringState : State :=
  { orderBook := [{ orderId := 0, trader := "T1", stock := "X", quantity := 5,
                    side := TradeSide.Sell, status := OrderStatus.Open }],
    buyMap := fun s =>
      if s = "X" then
        { stockQueue := [], isLeftOver := true, leftOver := { quantity := 3, orderId := 0 } }
      else emptyQueue,
    sellMap := fun _ => emptyQueue,
    orderCount := 1 }

/-- A feed of three well-formed records. -/
def threeRecords : List Record :=
  [{ trader := "T1", stock := "X", quantity := "10", side := "Buy" },
   { trader := "T2", stock := "X", quantity := "4", side := "Sell" },
   { trader := "T3", stock := "X", quantity := "6", side := "Sell" }]

/-- An interleaving on `threeRecords`: the matching thread handles each of the first two
orders as soon as it is appended and tests `dataExausted` after each. -/
def earlyExitSchedule : List Action :=
  [Action.readRecord, Action.wake, Action.drainOne, Action.drainEnd, Action.checkFlag,
   Action.readRecord, Action.wake, Action.drainOne, Action.drainEnd, Action.checkFlag]

/-- What the statements about the interleaving look at: the position of both threads, the
flag, the cursor, the counter and the ledger length. -/
structure View where
  reader : ReaderPc
  matcherPc : MatcherPc
  dataExausted : Bool
  nextOrder : Nat
  orderCount : Nat
  ledgerLength : Nat
deriving DecidableEq, Repr

/-- The view of a state of the two threads. -/
def Sys.view (s : Sys) : View :=
  { reader := s.reader, matcherPc := s.matcherPc, dataExausted := s.dataExausted,
    nextOrder := s.nextOrder, orderCount := s.st.orderCount,
    ledgerLength := s.st.orderBook.length }


/-! ## Quantities summed over the ledger and over a queue -/

/-- Sum of the quantities of the orders of stock `s` and side `d` marked Success. -/
def successQty (book : List Order) (s : String) (d : TradeSide) : Int :=
  (book.map (fun o =>
    if o.stock = s ∧ o.side = d ∧ o.status = OrderStatus.Success then o.quantity else 0)).sum

/-- Sum of the quantities of all orders of stock `s` and side `d` in a list of orders. -/
def arrivedQty (ords : List Order) (s : String) (d : TradeSide) : Int :=
  (ords.map (fun o => if o.stock = s ∧ o.side = d then o.quantity else 0)).sum

/-- Quantity of the ledger entry at index `i` (0 when there is none). -/
def qtyAt (book : List Order) (i : Nat) : Int :=
  ((book[i]?).map (fun o => o.quantity)).getD 0

/-- What the orders behind a list of resting entries have had filled so far: for each
entry, its order's quantity minus the quantity still resting. -/
def filledQty (book : List Order) (es : List QuantityTrader) : Int :=
  (es.map (fun e => qtyAt book e.orderId - e.quantity)).sum

/-- The resting entries of every queue of a state. -/
def restingAt (σ : State) (s : String) (d : TradeSide) : List QuantityTrader :=
  resting (queueAt σ s d)

/-- Replace the entries of one queue. -/
def setResting (rs : String → TradeSide → List QuantityTrader) (s0 : String) (d0 : TradeSide)
    (es : List QuantityTrader) : String → TradeSide → List QuantityTrader :=
  fun s d => if s = s0 ∧ d = d0 then es else rs s d

/-- Every resting entry of the queue `(s, d)` refers to a ledger entry of stock `s` and
side `d`, and rests a positive quantity not above that order's quantity. -/
def RestingOk (book : List Order) (rs : String → TradeSide → List QuantityTrader) : Prop :=
  ∀ s d, ∀ e ∈ rs s d, ∃ o, book[e.orderId]? = some o ∧ o.stock = s ∧ o.side = d ∧
    0 < e.quantity ∧ e.quantity ≤ o.quantity

/-- The accounting behind "no over-fill": for every stock and side, what is marked Success
plus what resting orders of that side have had filled, plus what still rests on the other
side, plus an allowance `x`, is covered by what arrived on the other side. -/
def Covered (book : List Order) (rs : String → TradeSide → List QuantityTrader)
    (x : String → TradeSide → Int) : Prop :=
  ∀ s d, successQty book s d + filledQty book (rs s d) + totalQty (rs s d.flip) + x s d ≤
    arrivedQty book s d.flip

/-- The allowance while an order of stock `s0`, side `d0` and quantity `q` is being
matched with `qty` still to fill: `q - qty` on its own side (filled, not yet marked), `qty`
on the other side (arrived, neither matched nor resting yet). -/
def allowance (s0 : String) (d0 : TradeSide) (q qty : Int) : String → TradeSide → Int :=
  fun s d => if s = s0 then (if d = d0 then q - qty else qty) else 0

/-- The ledger holds, at index `i`, an order of stock `s0`, side `d0` and quantity `q`. -/
def HasOrder (book : List Order) (i : Nat) (s0 : String) (d0 : TradeSide) (q : Int) : Prop :=
  ∃ o, book[i]? = some o ∧ o.stock = s0 ∧ o.side = d0 ∧ o.quantity = q

/-- The state invariant of a run: the counter is the ledger length, the resting entries
are well-formed, and the accounting holds with no allowance. -/
def RunInv (σ : State) : Prop :=
  σ.orderCount = σ.orderBook.length ∧
  RestingOk σ.orderBook (restingAt σ) ∧
  Covered σ.orderBook (restingAt σ) (fun _ _ => 0)

/-- The ledger with every status reset: what `matcher` never changes. -/
def identities (book : List Order) : List Order :=
  book.map (fun o => { o with status := OrderStatus.Open })


/-! ## The ledger writes of a call, and sequences of calls -/

/-- The ledger indices the loop of `matcher` writes (`orderBook[..].status = Success` at
lines 217, 222 and 229), in the order of the writes; the control flow is that of
`matcherLoop`. -/
def matcherLoopMarks (ord : Order) : List QuantityTrader → Int → List Nat
  | [], _ => []
  | e :: rest, qty =>
    if 0 < qty then
      if 0 ≤ qty - e.quantity then
        if qty - e.quantity = 0 then [e.orderId, ord.orderId]
        else e.orderId :: matcherLoopMarks ord rest (qty - e.quantity)
      else [ord.orderId]
    else []

/-- The ledger indices `matcher` writes (lines 185, 191, 198 and those of the loop), in the
order of the writes; the control flow is that of `matcher`. -/
def matcherMarks (σ : State) (ord : Order) : List Nat :=
  let cs := oppQueue σ ord
  if !cs.stockQueue.isEmpty || cs.isLeftOver then
    if cs.isLeftOver then
      if 0 ≤ ord.quantity - cs.leftOver.quantity then
        if ord.quantity - cs.leftOver.quantity = 0 then [cs.leftOver.orderId, ord.orderId]
        else [cs.leftOver.orderId]
      else [ord.orderId]
    else matcherLoopMarks ord cs.stockQueue ord.quantity
  else []

/-- The ledger after the writes at the indices given, in turn. -/
def markIds (book : List Order) (ids : List Nat) : List Order :=
  ids.foldl setSuccess book

/-- A call on the shared state: `enterOrder(ord)` or `matcher(ord)`. -/
inductive Call where
  | enter (ord : Order)
  | matching (ord : Order)

/-- The state after a call. -/
def applyCall (σ : State) : Call → State
  | Call.enter ord => (enterOrder σ ord).2
  | Call.matching ord => (matcher σ ord).2

/-- The state after a sequence of calls. -/
def applyCalls (σ : State) (cs : List Call) : State :=
  cs.foldl applyCall σ

/-- The orders handed to `enterOrder`, in call order. -/
def enteredOrders : List Call → List Order
  | [] => []
  | Call.enter ord :: cs => ord :: enteredOrders cs
  | Call.matching _ :: cs => enteredOrders cs

/-- The orders of a list given the ids `n`, `n + 1`, ... by position. -/
def numberFrom (n : Nat) : List Order → List Order
  | [] => []
  | o :: os => { o with orderId := n } :: numberFrom (n + 1) os


/-! ## Observations on the interleaving -/

/-- The ledger index to which a step applies `matcher`: `drainOne` calls
`matcher(orderBook[nextOrder])`, the other steps do not call it. -/
def matchedAt (a : Action) (s : Sys) : List Nat :=
  match a with
  | Action.drainOne => [s.nextOrder]
  | _ => []

/-- The ledger indices to which `matchingProcess` applies `matcher` along a schedule, in
the order of the calls. -/
def matchedIndices : List Action → Sys → List Nat
  | [], _ => []
  | a :: as, s =>
    match step a s with
    | some s1 => matchedAt a s ++ matchedIndices as s1
    | none => []

/-- The orders the reader builds from the records whose quantity text `stoi` converts, in
feed order. -/
def parsedOrders (rs : List Record) : List Order :=
  rs.filterMap (parseRecord 0)

/-- The ledger that ingesting the records gives: the parsed orders, numbered by position. -/
def ingested (rs : List Record) : List Order :=
  numberFrom 0 (parsedOrders rs)

/-- A feed whose only record has a quantity text that is a number followed by letters. -/
def trailingTextFeed : List Record :=
  [{ trader := "T1", stock := "X", quantity := "12abc", side := "Buy" }]

/-- A feed whose only record has a negative quantity. -/
def negativeFeed : List Record :=
  [{ trader := "T1", stock := "X", quantity := "-3", side := "Sell" }]

/-- A feed with a record that `stoi` rejects between two records it converts. -/
def feedWithBadRecord : List Record :=
  [{ trader := "T1", stock := "X", quantity := "10", side := "Buy" },
   { trader := "T2", stock := "X", quantity := "abc", side := "Sell" },
   { trader := "T3", stock := "X", quantity := "4", side := "Sell" }]


/-! ## Resting entries along a run -/

/-- The order ids a list of resting entries refers to. -/
def entryIds (es : List QuantityTrader) : List Nat :=
  es.map (fun e => e.orderId)

/-- Every resting entry refers to an order that is Open. -/
def RestingOpen (book : List Order) (rs : String → TradeSide → List QuantityTrader) : Prop :=
  ∀ s d, ∀ e ∈ rs s d, statusAt book e.orderId = some OrderStatus.Open

/-- No two resting entries of a queue refer to the same order. -/
def RestingDistinct (rs : String → TradeSide → List QuantityTrader) : Prop :=
  ∀ s d, (entryIds (rs s d)).Nodup

/-- For every stock, at most one side has resting entries. -/
def Uncrossed (rs : String → TradeSide → List QuantityTrader) : Prop :=
  ∀ s, rs s TradeSide.Buy = [] ∨ rs s TradeSide.Sell = []

/-- What a call of `matcher` for an order of stock `s0`, side `d0` and id `i` does to the
resting entries, quantities aside: it takes entries `consumed` off the front of the
opposing queue, keeps the others (possibly with the front one reduced), writes the
ledger at the ids of the consumed entries and, when it returns `true`, at `i`; and it
either pushes nothing, the opposing queue having been non-empty, or pushes an entry for
`i` at the back of the own side after emptying the opposing queue, returning `false`. -/
def CallEffect (rs rs1 : String → TradeSide → List QuantityTrader) (s0 : String)
    (d0 : TradeSide) (i : Nat) (res : Bool) (marks : List Nat) : Prop :=
  ∃ consumed keep keep1 pushed,
    rs s0 d0.flip = consumed ++ keep ∧ entryIds keep1 = entryIds keep ∧
    rs1 = setResting (setResting rs s0 d0.flip keep1) s0 d0 (rs s0 d0 ++ pushed) ∧
    marks = entryIds consumed ++ (if res then [i] else []) ∧
    ((pushed = [] ∧ rs s0 d0.flip ≠ []) ∨ (entryIds pushed = [i] ∧ keep = [] ∧ res = false))

/-- The invariant of a run of Open orders with positive quantities, beyond `RunInv`:
resting entries refer to Open orders, no order is referred to twice, and the book is not
crossed. -/
def RestInv (σ : State) : Prop :=
  RunInv σ ∧ RestingOpen σ.orderBook (restingAt σ) ∧ RestingDistinct (restingAt σ) ∧
    Uncrossed (restingAt σ)

/-- The id of the order appended in a round, when the round pushed it on the FIFO of the
queue `(s, d)`: the order has stock `s` and side `d` and the FIFO is longer after
`matcher` than before. -/
def restedNow (σ : State) (ord : Order) (s : String) (d : TradeSide) : List Nat :=
  if ord.stock = s ∧ ord.side = d ∧
      (queueAt (enterOrder σ ord).2 s d).stockQueue.length <
        (queueAt (processOrder σ ord) s d).stockQueue.length
  then [σ.orderCount] else []

/-- The ids of the orders pushed on the FIFO of the queue `(s, d)` during a run, in the
order of the pushes. -/
def restedIds (s : String) (d : TradeSide) : State → List Order → List Nat
  | _, [] => []
  | σ, ord :: rest => restedNow σ ord s d ++ restedIds s d (processOrder σ ord) rest

/-- The orders pushed on a queue are either done, and then marked Success, or still
resting, in the order of the pushes. -/
def HistoryOk (book : List Order) (rs : String → TradeSide → List QuantityTrader)
    (hist : String → TradeSide → List Nat) : Prop :=
  ∀ s d, ∃ done, hist s d = done ++ entryIds (rs s d) ∧
    ∀ i ∈ done, statusAt book i = some OrderStatus.Success


/-! ## The interleaving seen from the caught-up run -/

/-- The state of the caught-up run on the orders parsed from the records given, after the
first `n` of them were appended and matched in append order. -/
def caughtUp (consumed : List Record) (n : Nat) : State :=
  processAll initState ((parsedOrders consumed).take n)

/-- A state of the interleaving, against the caught-up run: the reader has read `consumed`
and appended the orders parsed from it; the matching thread has matched the first
`nextOrder` of them; the queues are those of the caught-up run at `nextOrder`, and the
ledger is the ledger of that run followed by the orders appended but not yet matched. -/
def Simulates (feed : List Record) (s : Sys) (consumed : List Record) : Prop :=
  feed = consumed ++ s.feed ∧
  s.nextOrder ≤ s.st.orderCount ∧
  s.st.orderCount = (ingested consumed).length ∧
  s.st.buyMap = (caughtUp consumed s.nextOrder).buyMap ∧
  s.st.sellMap = (caughtUp consumed s.nextOrder).sellMap ∧
  s.st.orderBook =
    (caughtUp consumed s.nextOrder).orderBook ++ (ingested consumed).drop s.nextOrder

/-- Every quantity text of the feed that `stoi` converts is a positive number. -/
def PositiveFeed (feed : List Record) : Prop :=
  ∀ r ∈ feed, ∀ q, stoi r.quantity = some q → 0 < q

/-- The book of stock `s` is crossed: both its Buy queue and its Sell queue have resting
interest, a non-empty FIFO or a present leftover. -/
def Crossed (σ : State) (s : String) : Prop :=
  ((queueAt σ s TradeSide.Buy).stockQueue ≠ [] ∨
    (queueAt σ s TradeSide.Buy).isLeftOver = true) ∧
  ((queueAt σ s TradeSide.Sell).stockQueue ≠ [] ∨
    (queueAt σ s TradeSide.Sell).isLeftOver = true)

/-- Every resting entry (FIFO entry or present leftover) of the queue `(s, d)` has an
orderId below the ledger length and refers to an Open order of stock `s` and side `d`,
resting a quantity `q` with `0 < q ≤` that order's quantity; no two entries of one queue
refer to the same order, and entries referring to the same order are in the same queue. -/
def EntriesWellFormed (σ : State) : Prop :=
  (∀ s d, ∀ e ∈ restingAt σ s d,
    e.orderId < σ.orderBook.length ∧
    ∃ o, σ.orderBook[e.orderId]? = some o ∧ o.status = OrderStatus.Open ∧
      o.stock = s ∧ o.side = d ∧ 0 < e.quantity ∧ e.quantity ≤ o.quantity) ∧
  (∀ s d, (entryIds (restingAt σ s d)).Nodup) ∧
  (∀ s d s1 d1, ∀ e ∈ restingAt σ s d, ∀ e1 ∈ restingAt σ s1 d1,
    e.orderId = e1.orderId → s = s1 ∧ d = d1)

/-- The ledger writes of the call `matcher(ord)` in the state `σ`: the ledger after the
call is the ledger before it with the indices `matcherMarks` written; every index written
is in bounds and is that of an order Open before the call, and none is written twice. -/
def CallWritesOpen (σ : State) (ord : Order) : Prop :=
  (matcher σ ord).2.orderBook = markIds σ.orderBook (matcherMarks σ ord) ∧
  (matcherMarks σ ord).Nodup ∧
  ∀ m ∈ matcherMarks σ ord,
    m < σ.orderBook.length ∧ statusAt σ.orderBook m = some OrderStatus.Open

/-- No record of the feed has a quantity text that `stoi` converts to a number below 1. -/
def positiveFeedCheck (feed : List Record) : Bool :=
  feed.all (fun r => match stoi r.quantity with
    | some q => decide (0 < q)
    | none => true)

/-- The schedule in which the reader reads three records before the matching thread wakes
up and matches the first order. -/
def readerAheadSchedule : List Action :=
  [Action.readRecord, Action.readRecord, Action.readRecord, Action.wake, Action.drainOne]


/-! ## The calls a schedule makes -/

/-- The call on the shared state that a step makes, if it makes one: `readRecord` calls
`enterOrder(ord)` on the order parsed (line 80), `drainOne` calls
`matcher(orderBook[nextOrder])` (line 134); the other steps call neither. -/
def callAt (a : Action) (s : Sys) : List Call :=
  match a with
  | Action.readRecord =>
    match s.reader, s.feed with
    | ReaderPc.Reading, r :: _ =>
      match parseRecord s.idGen r with
      | some ord => [Call.enter ord]
      | none => []
    | _, _ => []
  | Action.drainOne =>
    if s.matcherPc = MatcherPc.Draining ∧ s.nextOrder < s.st.orderCount then
      match s.st.orderBook[s.nextOrder]? with
      | some ord => [Call.matching ord]
      | none => []
    else []
  | _ => []

/-- The calls made along a schedule, in the order they are made. -/
def callsOf : List Action → Sys → List Call
  | [], _ => []
  | a :: as, s =>
    match step a s with
    | some s1 => callAt a s ++ callsOf as s1
    | none => []

/-- The orders handed to `matcher`, in call order. -/
def matchedOrders : List Call → List Order
  | [] => []
  | Call.enter _ :: cs => matchedOrders cs
  | Call.matching ord :: cs => ord :: matchedOrders cs

/-! ## What resting entries refer to, in any run -/

/-- Every resting entry of the queue `(s, d)` refers to a ledger entry of stock `s` and
side `d`. -/
def RestingRefers (book : List Order) (rs : String → TradeSide → List QuantityTrader) : Prop :=
  ∀ s d, ∀ e ∈ rs s d, ∃ o, book[e.orderId]? = some o ∧ o.stock = s ∧ o.side = d

/-- Every ledger entry has its index as `orderId`. -/
def LedgerNumbered (book : List Order) : Prop :=
  ∀ (k : Nat) (o : Order), book[k]? = some o → o.orderId = k

/-- What every state of a run satisfies, whatever the quantities: the counter is the ledger
length, ledger entries are numbered by position, and resting entries refer to ledger
entries of their queue's stock and side. -/
def RefInv (σ : State) : Prop :=
  σ.orderCount = σ.orderBook.length ∧ LedgerNumbered σ.orderBook ∧
  RestingRefers σ.orderBook (restingAt σ)

/-- `matcher` returns `true` exactly when the order `ord` is Success in the ledger after
the call, and after a `false` the order is still Open. -/
def ResultIsFillStatus (σ : State) (ord : Order) : Prop :=
  ((matcher σ ord).1 = true ↔
    statusAt (matcher σ ord).2.orderBook ord.orderId = some OrderStatus.Success) ∧
  ((matcher σ ord).1 = false →
    statusAt (matcher σ ord).2.orderBook ord.orderId = some OrderStatus.Open)

/-- A feed with negative and zero quantities among positive ones. -/
def mixedSignFeed : List Record :=
  [{ trader := "T1", stock := "X", quantity := "-3", side := "Sell" },
   { trader := "T2", stock := "X", quantity := "5", side := "Buy" },
   { trader := "T3", stock := "X", quantity := "0", side := "Sell" }]

/-- On three records: the reader reads two, the matching thread wakes up and matches both,
then the reader reads the third. -/
def twoMatchedSchedule : List Action :=
  [Action.readRecord, Action.readRecord, Action.wake, Action.drainOne, Action.drainOne,
   Action.readRecord]


/-! ## Basic facts about the ledger write -/

@[simp] theorem length_setSuccess (book : List Order) (i : Nat) :
    (setSuccess book i).length = book.length := by
  induction book generalizing i with
  | nil => rfl
  | cons o os ih =>
    cases i with
    | zero => rfl
    | succ n => simp [setSuccess, ih]

theorem getElem?_setSuccess (book : List Order) (i j : Nat) :
    (setSuccess book i)[j]? =
      if j = i then (book[j]?).map (fun o => { o with status := OrderStatus.Success })
      else book[j]? := by
  induction book generalizing i j with
  | nil => simp [setSuccess]
  | cons o os ih =>
    cases i with
    | zero =>
      cases j with
      | zero => simp [setSuccess]
      | succ m => simp [setSuccess]
    | succ n =>
      cases j with
      | zero => simp [setSuccess]
      | succ m => simp [setSuccess, ih]

theorem statusAt_setSuccess (book : List Order) (i j : Nat) :
    statusAt (setSuccess book i) j =
      if j = i then (statusAt book j).map (fun _ => OrderStatus.Success)
      else statusAt book j := by
  unfold statusAt
  rw [getElem?_setSuccess]
  split
  · cases book[j]? <;> rfl
  · rfl

theorem statusAt_setSuccess_self (book : List Order) (i : Nat) (h : i < book.length) :
    statusAt (setSuccess book i) i = some OrderStatus.Success := by
  rw [statusAt_setSuccess]
  simp [statusAt, List.getElem?_eq_getElem h]

theorem statusAt_setSuccess_of_ne (book : List Order) {i j : Nat} (h : j ≠ i) :
    statusAt (setSuccess book i) j = statusAt book j := by
  rw [statusAt_setSuccess]; simp [h]

theorem statusAt_setSuccess_of_success (book : List Order) (i j : Nat)
    (h : statusAt book j = some OrderStatus.Success) :
    statusAt (setSuccess book i) j = some OrderStatus.Success := by
  rw [statusAt_setSuccess]
  split
  · simp [h]
  · exact h

@[simp] theorem markAll_nil (book : List Order) : markAll book [] = book := rfl

@[simp] theorem markAll_cons (book : List Order) (e : QuantityTrader) (es : List QuantityTrader) :
    markAll book (e :: es) = markAll (setSuccess book e.orderId) es := rfl

theorem markAll_append (book : List Order) (es fs : List QuantityTrader) :
    markAll book (es ++ fs) = markAll (markAll book es) fs := by
  simp [markAll, List.foldl_append]

@[simp] theorem length_markAll (book : List Order) (es : List QuantityTrader) :
    (markAll book es).length = book.length := by
  induction es generalizing book with
  | nil => rfl
  | cons e es ih => simp [ih]

theorem statusAt_markAll_of_not_mem (es : List QuantityTrader) (book : List Order) (j : Nat)
    (h : ∀ e ∈ es, e.orderId ≠ j) : statusAt (markAll book es) j = statusAt book j := by
  induction es generalizing book with
  | nil => rfl
  | cons e es ih =>
    rw [markAll_cons, ih _ (fun x hx => h x (List.mem_cons_of_mem _ hx))]
    exact statusAt_setSuccess_of_ne _ (fun hj => h e (List.mem_cons_self _ _) hj.symm)

theorem statusAt_markAll_of_success (es : List QuantityTrader) (book : List Order) (j : Nat)
    (h : statusAt book j = some OrderStatus.Success) :
    statusAt (markAll book es) j = some OrderStatus.Success := by
  induction es generalizing book with
  | nil => exact h
  | cons e es ih => exact ih _ (statusAt_setSuccess_of_success _ _ _ h)

theorem statusAt_markAll_of_mem (es : List QuantityTrader) (book : List Order)
    (e : QuantityTrader) (he : e ∈ es) (hlt : e.orderId < book.length) :
    statusAt (markAll book es) e.orderId = some OrderStatus.Success := by
  induction es generalizing book with
  | nil => cases he
  | cons x xs ih =>
    rw [markAll_cons]
    rcases List.mem_cons.mp he with h | h
    · subst h
      exact statusAt_markAll_of_success _ _ _ (statusAt_setSuccess_self _ _ hlt)
    · exact ih _ h (by simpa using hlt)

@[simp] theorem totalQty_nil : totalQty [] = 0 := rfl

@[simp] theorem totalQty_cons (e : QuantityTrader) (es : List QuantityTrader) :
    totalQty (e :: es) = e.quantity + totalQty es := by
  simp [totalQty]

/-! ## Queue access after a write -/

@[simp] theorem orderBook_markSuccess (σ : State) (i : Nat) :
    (markSuccess σ i).orderBook = setSuccess σ.orderBook i := rfl

@[simp] theorem orderCount_markSuccess (σ : State) (i : Nat) :
    (markSuccess σ i).orderCount = σ.orderCount := rfl

@[simp] theorem oppQueue_markSuccess (σ : State) (i : Nat) (ord : Order) :
    oppQueue (markSuccess σ i) ord = oppQueue σ ord := rfl

@[simp] theorem ownQueue_markSuccess (σ : State) (i : Nat) (ord : Order) :
    ownQueue (markSuccess σ i) ord = ownQueue σ ord := rfl

@[simp] theorem orderBook_setOppQueue (σ : State) (ord : Order) (q : ConcurrentStockQueue) :
    (setOppQueue σ ord q).orderBook = σ.orderBook := by
  unfold setOppQueue; split <;> rfl

@[simp] theorem orderCount_setOppQueue (σ : State) (ord : Order) (q : ConcurrentStockQueue) :
    (setOppQueue σ ord q).orderCount = σ.orderCount := by
  unfold setOppQueue; split <;> rfl

@[simp] theorem orderBook_setOwnQueue (σ : State) (ord : Order) (q : ConcurrentStockQueue) :
    (setOwnQueue σ ord q).orderBook = σ.orderBook := by
  unfold setOwnQueue; split <;> rfl

@[simp] theorem orderCount_setOwnQueue (σ : State) (ord : Order) (q : ConcurrentStockQueue) :
    (setOwnQueue σ ord q).orderCount = σ.orderCount := by
  unfold setOwnQueue; split <;> rfl

@[simp] theorem oppQueue_setOppQueue (σ : State) (ord : Order) (q : ConcurrentStockQueue) :
    oppQueue (setOppQueue σ ord q) ord = q := by
  unfold oppQueue setOppQueue; split <;> simp [*]

@[simp] theorem ownQueue_setOppQueue (σ : State) (ord : Order) (q : ConcurrentStockQueue) :
    ownQueue (setOppQueue σ ord q) ord = ownQueue σ ord := by
  unfold ownQueue setOppQueue; split <;> simp [*]

@[simp] theorem ownQueue_setOwnQueue (σ : State) (ord : Order) (q : ConcurrentStockQueue) :
    ownQueue (setOwnQueue σ ord q) ord = q := by
  unfold ownQueue setOwnQueue; split <;> simp [*]

@[simp] theorem oppQueue_setOwnQueue (σ : State) (ord : Order) (q : ConcurrentStockQueue) :
    oppQueue (setOwnQueue σ ord q) ord = oppQueue σ ord := by
  unfold oppQueue setOwnQueue; split <;> simp [*]

@[simp] theorem orderBook_pushOwn (σ : State) (ord : Order) (qt : QuantityTrader) :
    (pushOwn σ ord qt).orderBook = σ.orderBook := by
  simp [pushOwn]

@[simp] theorem orderCount_pushOwn (σ : State) (ord : Order) (qt : QuantityTrader) :
    (pushOwn σ ord qt).orderCount = σ.orderCount := by
  simp [pushOwn]

@[simp] theorem oppQueue_pushOwn (σ : State) (ord : Order) (qt : QuantityTrader) :
    oppQueue (pushOwn σ ord qt) ord = oppQueue σ ord := by
  simp [pushOwn]

@[simp] theorem ownQueue_pushOwn (σ : State) (ord : Order) (qt : QuantityTrader) :
    ownQueue (pushOwn σ ord qt) ord =
      { ownQueue σ ord with stockQueue := (ownQueue σ ord).stockQueue ++ [qt] } := by
  simp [pushOwn]


/-! ## The three ways out of `matcher` when a leftover is present -/

theorem matcher_of_leftover (σ : State) (ord : Order)
    (hlo : (oppQueue σ ord).isLeftOver = true) :
    matcher σ ord =
      if 0 ≤ ord.quantity - (oppQueue σ ord).leftOver.quantity then
        if ord.quantity - (oppQueue σ ord).leftOver.quantity = 0 then
          (true, markSuccess (setOppQueue (markSuccess σ (oppQueue σ ord).leftOver.orderId) ord
            { oppQueue σ ord with isLeftOver := false }) ord.orderId)
        else
          (false, setOppQueue (markSuccess σ (oppQueue σ ord).leftOver.orderId) ord
            { oppQueue σ ord with isLeftOver := false })
      else
        (true, setOppQueue (markSuccess σ ord.orderId) ord
          { oppQueue σ ord with
            leftOver := { quantity := (ord.quantity - (oppQueue σ ord).leftOver.quantity) * (-1),
                          orderId := (oppQueue σ ord).leftOver.orderId }
            isLeftOver := true }) := by
  simp [matcher, hlo]

theorem matcher_of_no_leftover (σ : State) (ord : Order) (hQ : 0 < ord.quantity)
    (hlo : (oppQueue σ ord).isLeftOver = false) :
    matcher σ ord = matcherLoop ord (oppQueue σ ord).stockQueue ord.quantity σ := by
  unfold matcher
  cases hq : (oppQueue σ ord).stockQueue with
  | nil => simp [hlo, hq, matcherLoop, hQ]
  | cons e rest => simp [hlo, hq]

theorem matcher_of_no_leftover_general (σ : State) (ord : Order)
    (hlo : (oppQueue σ ord).isLeftOver = false) :
    matcher σ ord =
      if (oppQueue σ ord).stockQueue = [] then
        (false, pushOwn σ ord { quantity := ord.quantity, orderId := ord.orderId })
      else matcherLoop ord (oppQueue σ ord).stockQueue ord.quantity σ := by
  unfold matcher
  cases hq : (oppQueue σ ord).stockQueue with
  | nil => simp [hlo, hq]
  | cons e rest => simp [hlo, hq]


/-! ## One iteration of the loop -/

theorem setOppQueue_setOppQueue (σ : State) (ord : Order) (a b : ConcurrentStockQueue) :
    setOppQueue (setOppQueue σ ord a) ord b = setOppQueue σ ord b := by
  unfold setOppQueue; split <;> simp

theorem markSuccess_setOppQueue (σ : State) (ord : Order) (q : ConcurrentStockQueue) (i : Nat) :
    markSuccess (setOppQueue σ ord q) i = setOppQueue (markSuccess σ i) ord q := by
  unfold setOppQueue markSuccess; split <;> rfl

theorem matcherLoop_nil (ord : Order) (qty : Int) (σ : State) (hq : 0 < qty) :
    matcherLoop ord [] qty σ =
      (false, pushOwn σ ord { quantity := qty, orderId := ord.orderId }) := by
  simp [matcherLoop, hq]

theorem matcherLoop_of_nonpos (ord : Order) (fifo : List QuantityTrader) (qty : Int) (σ : State)
    (hq : ¬ 0 < qty) : matcherLoop ord fifo qty σ = (false, σ) := by
  cases fifo <;> simp [matcherLoop, hq]

theorem matcherLoop_cons_continue (ord : Order) (e : QuantityTrader)
    (rest : List QuantityTrader) (qty : Int) (σ : State)
    (hq : 0 < qty) (h1 : 0 < qty - e.quantity) :
    matcherLoop ord (e :: rest) qty σ =
      matcherLoop ord rest (qty - e.quantity)
        (setOppQueue (markSuccess σ e.orderId) ord
          { oppQueue σ ord with stockQueue := rest, isLeftOver := false }) := by
  have h2 : 0 ≤ qty - e.quantity := le_of_lt h1
  have h3 : ¬ qty - e.quantity = 0 := ne_of_gt h1
  simp [matcherLoop, hq, h2, h3, markSuccess_setOppQueue, setOppQueue_setOppQueue]

theorem matcherLoop_cons_exact (ord : Order) (e : QuantityTrader)
    (rest : List QuantityTrader) (qty : Int) (σ : State)
    (hq : 0 < qty) (h1 : qty - e.quantity = 0) :
    matcherLoop ord (e :: rest) qty σ =
      (true, setOppQueue (markSuccess (markSuccess σ e.orderId) ord.orderId) ord
          { oppQueue σ ord with stockQueue := rest, isLeftOver := false }) := by
  simp [matcherLoop, hq, h1, markSuccess_setOppQueue, setOppQueue_setOppQueue]

theorem matcherLoop_cons_over (ord : Order) (e : QuantityTrader)
    (rest : List QuantityTrader) (qty : Int) (σ : State)
    (hq : 0 < qty) (h1 : qty - e.quantity < 0) :
    matcherLoop ord (e :: rest) qty σ =
      (true, setOppQueue (markSuccess σ ord.orderId) ord
          { stockQueue := rest, isLeftOver := true,
            leftOver := { quantity := e.quantity - qty, orderId := e.orderId } }) := by
  have h2 : ¬ 0 ≤ qty - e.quantity := not_le.mpr h1
  have h3 : (qty - e.quantity) * (-1) = e.quantity - qty := by ring
  simp [matcherLoop, hq, h2, h3, markSuccess_setOppQueue, setOppQueue_setOppQueue]

/-! ## The loop when the FIFO runs out, and when it suffices -/

theorem totalQty_take_succ_cons (e : QuantityTrader) (rest : List QuantityTrader) (j : Nat) :
    totalQty ((e :: rest).take (j + 1)) = e.quantity + totalQty (rest.take j) := by
  simp

theorem matcherLoop_under (ord : Order) :
    ∀ (fifo : List QuantityTrader) (qty : Int) (σ : State),
      (oppQueue σ ord).stockQueue = fifo →
      (oppQueue σ ord).isLeftOver = false →
      (∀ j, j ≤ fifo.length → totalQty (fifo.take j) < qty) →
      (matcherLoop ord fifo qty σ).1 = false ∧
      (matcherLoop ord fifo qty σ).2.orderBook = markAll σ.orderBook fifo ∧
      (oppQueue (matcherLoop ord fifo qty σ).2 ord).stockQueue = [] ∧
      (oppQueue (matcherLoop ord fifo qty σ).2 ord).isLeftOver = false ∧
      ownQueue (matcherLoop ord fifo qty σ).2 ord =
        { ownQueue σ ord with
          stockQueue := (ownQueue σ ord).stockQueue ++
            [{ quantity := qty - totalQty fifo, orderId := ord.orderId }] } := by
  intro fifo
  induction fifo with
  | nil =>
    intro qty σ hq hlo h
    have h0 : 0 < qty := by simpa using h 0 (Nat.le_refl _)
    rw [matcherLoop_nil ord qty σ h0]
    simp [hq, hlo]
  | cons e rest ih =>
    intro qty σ hq hlo h
    have h0 : 0 < qty := by simpa using h 0 (Nat.zero_le _)
    have h1 : 0 < qty - e.quantity := by
      have := h 1 (by simp)
      simp at this
      linarith
    rw [matcherLoop_cons_continue ord e rest qty σ h0 h1]
    have hrec := ih (qty - e.quantity)
      (setOppQueue (markSuccess σ e.orderId) ord
        { oppQueue σ ord with stockQueue := rest, isLeftOver := false })
      (by simp) (by simp)
      (by
        intro j hj
        have := h (j + 1) (by simpa using hj)
        rw [totalQty_take_succ_cons] at this
        linarith)
    obtain ⟨r1, r2, r3, r4, r5⟩ := hrec
    refine ⟨r1, ?_, r3, r4, ?_⟩
    · rw [r2]; simp
    · rw [r5]; simp; ring

theorem matcherLoop_fill (ord : Order) :
    ∀ (fifo : List QuantityTrader) (qty : Int) (σ : State) (k : Nat),
      (oppQueue σ ord).stockQueue = fifo →
      k < fifo.length →
      (∀ j, j ≤ k → totalQty (fifo.take j) < qty) →
      qty ≤ totalQty (fifo.take (k + 1)) →
      (matcherLoop ord fifo qty σ).1 = true ∧
      (oppQueue (matcherLoop ord fifo qty σ).2 ord).stockQueue = fifo.drop (k + 1) ∧
      ownQueue (matcherLoop ord fifo qty σ).2 ord = ownQueue σ ord ∧
      (totalQty (fifo.take (k + 1)) = qty →
        (matcherLoop ord fifo qty σ).2.orderBook =
          setSuccess (markAll σ.orderBook (fifo.take (k + 1))) ord.orderId ∧
        (oppQueue (matcherLoop ord fifo qty σ).2 ord).isLeftOver = false) ∧
      (qty < totalQty (fifo.take (k + 1)) →
        (matcherLoop ord fifo qty σ).2.orderBook =
          setSuccess (markAll σ.orderBook (fifo.take k)) ord.orderId ∧
        (oppQueue (matcherLoop ord fifo qty σ).2 ord).isLeftOver = true ∧
        ∀ ek, fifo[k]? = some ek →
          (oppQueue (matcherLoop ord fifo qty σ).2 ord).leftOver =
            { quantity := totalQty (fifo.take (k + 1)) - qty, orderId := ek.orderId }) := by
  intro fifo
  induction fifo with
  | nil => intro qty σ k _ hk; simp at hk
  | cons e rest ih =>
    intro qty σ k hq hk h hge
    have h0 : 0 < qty := by simpa using h 0 (Nat.zero_le _)
    cases k with
    | zero =>
      have hge1 : qty ≤ e.quantity := by simpa using hge
      rcases lt_or_eq_of_le hge1 with hlt | heq
      · rw [matcherLoop_cons_over ord e rest qty σ h0 (by linarith)]
        refine ⟨rfl, by simp, by simp, ?_, ?_⟩
        · intro hc; simp at hc; omega
        · intro _
          refine ⟨by simp, by simp, ?_⟩
          intro ek hek
          simp at hek
          subst hek
          simp
      · rw [matcherLoop_cons_exact ord e rest qty σ h0 (by linarith)]
        refine ⟨rfl, by simp, by simp, ?_, ?_⟩
        · intro _; simp
        · intro hc; simp at hc; omega
    | succ k1 =>
      have h1 : 0 < qty - e.quantity := by
        have := h 1 (by omega)
        simp at this
        linarith
      rw [matcherLoop_cons_continue ord e rest qty σ h0 h1]
      have hrec := ih (qty - e.quantity)
        (setOppQueue (markSuccess σ e.orderId) ord
          { oppQueue σ ord with stockQueue := rest, isLeftOver := false }) k1
        (by simp) (by simpa using hk)
        (by
          intro j hj
          have := h (j + 1) (by omega)
          rw [totalQty_take_succ_cons] at this
          linarith)
        (by
          rw [totalQty_take_succ_cons] at hge
          linarith)
      obtain ⟨r1, r2, r3, r4, r5⟩ := hrec
      refine ⟨r1, by simpa using r2, by simpa using r3, ?_, ?_⟩
      · intro hc
        rw [totalQty_take_succ_cons] at hc
        have := r4 (by linarith)
        simpa using this
      · intro hc
        rw [totalQty_take_succ_cons] at hc
        obtain ⟨a, b, c⟩ := r5 (by linarith)
        refine ⟨by simpa using a, b, ?_⟩
        intro ek hek
        have := c ek (by simpa using hek)
        rw [this, totalQty_take_succ_cons]
        congr 1
        ring


/-! ## The matcher case by case -/

/-- C7: when the opposing leftover has exactly the incoming quantity, `matcher` marks the
leftover's order and the incoming order Success, clears the leftover, leaves the opposing
FIFO and the own-side queue as they were, and returns `true` (whatever the sign of the quantity); and the feed
`(T1,X,10,Buy), (T2,X,4,Sell), (T3,X,6,Sell)` ends with all three orders Success, no
leftover and no FIFO entry for `X`. -/
theorem matcher_leftover_exact (σ : State) (ord : Order)
    (hlo : (oppQueue σ ord).isLeftOver = true)
    (hL : (oppQueue σ ord).leftOver.quantity = ord.quantity) :
    ((matcher σ ord).1 = true ∧
      (matcher σ ord).2.orderBook =
        setSuccess (setSuccess σ.orderBook (oppQueue σ ord).leftOver.orderId) ord.orderId ∧
      (∀ i, i = (oppQueue σ ord).leftOver.orderId ∨ i = ord.orderId → i < σ.orderBook.length →
        statusAt (matcher σ ord).2.orderBook i = some OrderStatus.Success) ∧
      (oppQueue (matcher σ ord).2 ord).isLeftOver = false ∧
      (oppQueue (matcher σ ord).2 ord).stockQueue = (oppQueue σ ord).stockQueue ∧
      ownQueue (matcher σ ord).2 ord = ownQueue σ ord) ∧
    ((processAll initState
        [newOrder "T1" "X" 10 TradeSide.Buy, newOrder "T2" "X" 4 TradeSide.Sell,
         newOrder "T3" "X" 6 TradeSide.Sell]).orderBook.map (fun o => o.status) =
        [OrderStatus.Success, OrderStatus.Success, OrderStatus.Success] ∧
      ∀ d, (queueAt (processAll initState
        [newOrder "T1" "X" 10 TradeSide.Buy, newOrder "T2" "X" 4 TradeSide.Sell,
         newOrder "T3" "X" 6 TradeSide.Sell]) "X" d).isLeftOver = false ∧
        (queueAt (processAll initState
        [newOrder "T1" "X" 10 TradeSide.Buy, newOrder "T2" "X" 4 TradeSide.Sell,
         newOrder "T3" "X" 6 TradeSide.Sell]) "X" d).stockQueue = []) := by
  constructor
  · rw [matcher_of_leftover σ ord hlo]
    have h0 : ord.quantity - (oppQueue σ ord).leftOver.quantity = 0 := by rw [hL]; ring
    simp only [h0, le_refl, if_true]
    refine ⟨trivial, by simp, ?_, by simp, by simp, by simp⟩
    intro i hi hlt
    simp only [orderBook_markSuccess, orderBook_setOppQueue]
    rcases hi with hi | hi
    · subst hi
      exact statusAt_setSuccess_of_success _ _ _ (statusAt_setSuccess_self _ _ hlt)
    · subst hi
      exact statusAt_setSuccess_self _ _ (by simpa using hlt)
  · refine ⟨by decide, ?_⟩
    intro d
    cases d <;> decide

theorem matcher_leftover_exact_witness :
    (oppQueue
        (arriving [newOrder "T1" "X" 10 TradeSide.Buy, newOrder "T2" "X" 4 TradeSide.Sell]
          (newOrder "T3" "X" 6 TradeSide.Sell)).1
        (arriving [newOrder "T1" "X" 10 TradeSide.Buy, newOrder "T2" "X" 4 TradeSide.Sell]
          (newOrder "T3" "X" 6 TradeSide.Sell)).2).leftOver.quantity = 6 ∧
    (matcher
        (arriving [newOrder "T1" "X" 10 TradeSide.Buy, newOrder "T2" "X" 4 TradeSide.Sell]
          (newOrder "T3" "X" 6 TradeSide.Sell)).1
        (arriving [newOrder "T1" "X" 10 TradeSide.Buy, newOrder "T2" "X" 4 TradeSide.Sell]
          (newOrder "T3" "X" 6 TradeSide.Sell)).2).1 = true :=
  ⟨by decide,
   (matcher_leftover_exact
      (arriving [newOrder "T1" "X" 10 TradeSide.Buy, newOrder "T2" "X" 4 TradeSide.Sell]
        (newOrder "T3" "X" 6 TradeSide.Sell)).1
      (arriving [newOrder "T1" "X" 10 TradeSide.Buy, newOrder "T2" "X" 4 TradeSide.Sell]
        (newOrder "T3" "X" 6 TradeSide.Sell)).2
      (by decide) (by decide)).1.1⟩

/-- C6: when the opposing leftover `(L, r)` is larger than the incoming quantity `Q`,
`matcher` marks the incoming order Success and returns `true`; the leftover stays, with
quantity `L - Q` and the same order id `r`; the status of order `r` (another order than the
incoming one) is not touched; the opposing FIFO and the own-side queue are unchanged. -/
theorem matcher_leftover_larger (σ : State) (ord : Order)
    (hlo : (oppQueue σ ord).isLeftOver = true)
    (hL : ord.quantity < (oppQueue σ ord).leftOver.quantity) :
    (matcher σ ord).1 = true ∧
    (matcher σ ord).2.orderBook = setSuccess σ.orderBook ord.orderId ∧
    (ord.orderId < σ.orderBook.length →
      statusAt (matcher σ ord).2.orderBook ord.orderId = some OrderStatus.Success) ∧
    (oppQueue (matcher σ ord).2 ord).isLeftOver = true ∧
    (oppQueue (matcher σ ord).2 ord).leftOver =
      { quantity := (oppQueue σ ord).leftOver.quantity - ord.quantity,
        orderId := (oppQueue σ ord).leftOver.orderId } ∧
    ((oppQueue σ ord).leftOver.orderId ≠ ord.orderId →
      statusAt (matcher σ ord).2.orderBook (oppQueue σ ord).leftOver.orderId =
        statusAt σ.orderBook (oppQueue σ ord).leftOver.orderId) ∧
    (oppQueue (matcher σ ord).2 ord).stockQueue = (oppQueue σ ord).stockQueue ∧
    ownQueue (matcher σ ord).2 ord = ownQueue σ ord := by
  rw [matcher_of_leftover σ ord hlo]
  have h0 : ¬ 0 ≤ ord.quantity - (oppQueue σ ord).leftOver.quantity := by
    intro h; linarith
  simp only [h0, if_false]
  refine ⟨trivial, by simp, ?_, by simp, ?_, ?_, by simp, by simp⟩
  · intro hlt
    simpa using statusAt_setSuccess_self _ _ hlt
  · simp only [oppQueue_setOppQueue]
    congr 1
    ring
  · intro hne
    simpa using statusAt_setSuccess_of_ne σ.orderBook hne

theorem matcher_leftover_larger_witness :
    (oppQueue
        (arriving [newOrder "T1" "X" 10 TradeSide.Buy, newOrder "T2" "X" 4 TradeSide.Sell]
          (newOrder "T3" "X" 2 TradeSide.Sell)).1
        (arriving [newOrder "T1" "X" 10 TradeSide.Buy, newOrder "T2" "X" 4 TradeSide.Sell]
          (newOrder "T3" "X" 2 TradeSide.Sell)).2).leftOver.quantity = 6 ∧
    (matcher
        (arriving [newOrder "T1" "X" 10 TradeSide.Buy, newOrder "T2" "X" 4 TradeSide.Sell]
          (newOrder "T3" "X" 2 TradeSide.Sell)).1
        (arriving [newOrder "T1" "X" 10 TradeSide.Buy, newOrder "T2" "X" 4 TradeSide.Sell]
          (newOrder "T3" "X" 2 TradeSide.Sell)).2).1 = true :=
  ⟨by decide,
   (matcher_leftover_larger
      (arriving [newOrder "T1" "X" 10 TradeSide.Buy, newOrder "T2" "X" 4 TradeSide.Sell]
        (newOrder "T3" "X" 2 TradeSide.Sell)).1
      (arriving [newOrder "T1" "X" 10 TradeSide.Buy, newOrder "T2" "X" 4 TradeSide.Sell]
        (newOrder "T3" "X" 2 TradeSide.Sell)).2
      (by decide) (by decide)).1⟩


theorem totalQty_take_lt_of_nonneg (fifo : List QuantityTrader) (q : Int)
    (hnn : ∀ e ∈ fifo, 0 ≤ e.quantity) (hT : totalQty fifo < q) :
    ∀ j, j ≤ fifo.length → totalQty (fifo.take j) < q := by
  induction fifo generalizing q with
  | nil => intro j _; simpa using hT
  | cons e rest ih =>
    intro j hj
    have he : 0 ≤ e.quantity := hnn e (List.mem_cons_self _ _)
    have hrest : ∀ x ∈ rest, 0 ≤ x.quantity := fun x hx => hnn x (List.mem_cons_of_mem _ hx)
    rw [totalQty_cons] at hT
    cases j with
    | zero =>
      have := ih (q - e.quantity) hrest (by linarith) 0 (Nat.zero_le _)
      simp at this
      simp
      linarith
    | succ n =>
      rw [totalQty_take_succ_cons]
      have := ih (q - e.quantity) hrest (by linarith) n (by simpa using hj)
      linarith

/-- C4: with no leftover and an opposing FIFO that totals at least the incoming quantity
`Q > 0`, let `k` be the least index whose running total `S_k` reaches `Q`.  `matcher`
returns `true`, takes exactly the first `k` entries off the opposing FIFO, leaves the
own-side queue unchanged, and marks the incoming order Success.  If `S_k = Q` the orders
of the first `k` entries are marked and no leftover is present; if `S_k > Q` only the
orders of the first `k - 1` entries are marked, entry `k` becomes the leftover with
quantity `S_k - Q` and its own order id, and the status of its order is not touched. -/
theorem matcher_fifo_fill (σ : State) (ord : Order)
    (hQ : 0 < ord.quantity)
    (hlo : (oppQueue σ ord).isLeftOver = false)
    (htot : ord.quantity ≤ totalQty (oppQueue σ ord).stockQueue) :
    ∃ k, 1 ≤ k ∧ k ≤ (oppQueue σ ord).stockQueue.length ∧
      ord.quantity ≤ totalQty ((oppQueue σ ord).stockQueue.take k) ∧
      (∀ j, j < k → totalQty ((oppQueue σ ord).stockQueue.take j) < ord.quantity) ∧
      (matcher σ ord).1 = true ∧
      (oppQueue (matcher σ ord).2 ord).stockQueue = (oppQueue σ ord).stockQueue.drop k ∧
      ownQueue (matcher σ ord).2 ord = ownQueue σ ord ∧
      (ord.orderId < σ.orderBook.length →
        statusAt (matcher σ ord).2.orderBook ord.orderId = some OrderStatus.Success) ∧
      (∀ e ∈ (oppQueue σ ord).stockQueue.take (k - 1), e.orderId < σ.orderBook.length →
        statusAt (matcher σ ord).2.orderBook e.orderId = some OrderStatus.Success) ∧
      (totalQty ((oppQueue σ ord).stockQueue.take k) = ord.quantity →
        (matcher σ ord).2.orderBook =
          setSuccess (markAll σ.orderBook ((oppQueue σ ord).stockQueue.take k)) ord.orderId ∧
        (∀ e ∈ (oppQueue σ ord).stockQueue.take k, e.orderId < σ.orderBook.length →
          statusAt (matcher σ ord).2.orderBook e.orderId = some OrderStatus.Success) ∧
        (oppQueue (matcher σ ord).2 ord).isLeftOver = false) ∧
      (ord.quantity < totalQty ((oppQueue σ ord).stockQueue.take k) →
        (matcher σ ord).2.orderBook =
          setSuccess (markAll σ.orderBook ((oppQueue σ ord).stockQueue.take (k - 1)))
            ord.orderId ∧
        (oppQueue (matcher σ ord).2 ord).isLeftOver = true ∧
        ∀ ek, (oppQueue σ ord).stockQueue[k - 1]? = some ek →
          (oppQueue (matcher σ ord).2 ord).leftOver =
            { quantity := totalQty ((oppQueue σ ord).stockQueue.take k) - ord.quantity,
              orderId := ek.orderId } ∧
          (ek.orderId ≠ ord.orderId →
            (∀ e ∈ (oppQueue σ ord).stockQueue.take (k - 1), e.orderId ≠ ek.orderId) →
            statusAt (matcher σ ord).2.orderBook ek.orderId =
              statusAt σ.orderBook ek.orderId)) := by
  have hex : ∃ n, ord.quantity ≤ totalQty ((oppQueue σ ord).stockQueue.take n) :=
    ⟨(oppQueue σ ord).stockQueue.length, by simpa using htot⟩
  have hfind := Nat.find_spec hex
  have hmin : ∀ j, j < Nat.find hex →
      totalQty ((oppQueue σ ord).stockQueue.take j) < ord.quantity := by
    intro j hj
    exact not_le.mp (Nat.find_min hex hj)
  have hk1 : 1 ≤ Nat.find hex := by
    rcases Nat.eq_zero_or_pos (Nat.find hex) with h0 | h0
    · rw [h0] at hfind
      simp at hfind
      omega
    · exact h0
  have hkn : Nat.find hex ≤ (oppQueue σ ord).stockQueue.length :=
    Nat.find_min' hex (by simpa using htot)
  obtain ⟨m, hm⟩ : ∃ m, Nat.find hex = m + 1 := ⟨Nat.find hex - 1, by omega⟩
  rw [hm] at hfind hmin hk1 hkn
  have hloop := matcherLoop_fill ord (oppQueue σ ord).stockQueue ord.quantity σ m rfl
    (by omega) (fun j hj => hmin j (by omega)) hfind
  rw [← matcher_of_no_leftover σ ord hQ hlo] at hloop
  obtain ⟨r1, r2, r3, r4, r5⟩ := hloop
  have hstat : ∀ (es : List QuantityTrader),
      (matcher σ ord).2.orderBook = setSuccess (markAll σ.orderBook es) ord.orderId →
      (ord.orderId < σ.orderBook.length →
        statusAt (matcher σ ord).2.orderBook ord.orderId = some OrderStatus.Success) ∧
      (∀ e ∈ es, e.orderId < σ.orderBook.length →
        statusAt (matcher σ ord).2.orderBook e.orderId = some OrderStatus.Success) := by
    intro es hes
    rw [hes]
    refine ⟨fun hlt => statusAt_setSuccess_self _ _ (by simpa using hlt), ?_⟩
    intro e he hlt
    exact statusAt_setSuccess_of_success _ _ _ (statusAt_markAll_of_mem es _ e he hlt)
  have hsub : ∀ e ∈ (oppQueue σ ord).stockQueue.take m,
      e ∈ (oppQueue σ ord).stockQueue.take (m + 1) := by
    intro e he
    rw [List.take_succ]
    exact List.mem_append_left _ he
  refine ⟨m + 1, hk1, hkn, hfind, hmin, r1, r2, r3, ?_, ?_, ?_, ?_⟩
  · rcases lt_or_eq_of_le hfind with hlt | heq
    · exact (hstat _ (r5 hlt).1).1
    · exact (hstat _ (r4 heq.symm).1).1
  · simp only [Nat.add_sub_cancel]
    rcases lt_or_eq_of_le hfind with hlt | heq
    · exact (hstat _ (r5 hlt).1).2
    · intro e he
      exact (hstat _ (r4 heq.symm).1).2 e (hsub e he)
  · intro heq
    exact ⟨(r4 heq).1, (hstat _ (r4 heq).1).2, (r4 heq).2⟩
  · intro hlt
    simp only [Nat.add_sub_cancel]
    refine ⟨(r5 hlt).1, (r5 hlt).2.1, ?_⟩
    intro ek hek
    refine ⟨(r5 hlt).2.2 ek hek, ?_⟩
    intro hne hnot
    rw [(r5 hlt).1, statusAt_setSuccess_of_ne _ hne]
    exact statusAt_markAll_of_not_mem _ _ _ hnot

theorem matcher_fifo_fill_witness :
    (0 < (arriving [newOrder "T1" "X" 10 TradeSide.Buy]
          (newOrder "T2" "X" 4 TradeSide.Sell)).2.quantity ∧
      totalQty (oppQueue
        (arriving [newOrder "T1" "X" 10 TradeSide.Buy] (newOrder "T2" "X" 4 TradeSide.Sell)).1
        (arriving [newOrder "T1" "X" 10 TradeSide.Buy]
          (newOrder "T2" "X" 4 TradeSide.Sell)).2).stockQueue = 10) ∧
    ∃ k, 1 ≤ k ∧
      (matcher
        (arriving [newOrder "T1" "X" 10 TradeSide.Buy] (newOrder "T2" "X" 4 TradeSide.Sell)).1
        (arriving [newOrder "T1" "X" 10 TradeSide.Buy]
          (newOrder "T2" "X" 4 TradeSide.Sell)).2).1 = true :=
  ⟨⟨by decide, by decide⟩,
   (matcher_fifo_fill
      (arriving [newOrder "T1" "X" 10 TradeSide.Buy] (newOrder "T2" "X" 4 TradeSide.Sell)).1
      (arriving [newOrder "T1" "X" 10 TradeSide.Buy] (newOrder "T2" "X" 4 TradeSide.Sell)).2
      (by decide) (by decide) (by decide)).imp
     (fun _ h => ⟨h.1, h.2.2.2.2.1⟩)⟩

/-- C5 (as the code has it): with no leftover and an opposing FIFO whose running totals
`q1 + .. + qj` all stay below the incoming quantity `Q` (so `Q > 0`; this is the case when
the entries are non-negative and total `T < Q`), `matcher` marks the order of every
opposing entry Success, leaves the opposing FIFO empty and without leftover, appends the
single entry `(Q - T, incoming id)` at the back of the own-side FIFO, does not mark the
incoming order, and returns `false`. -/
theorem matcher_fifo_exhausted (σ : State) (ord : Order)
    (hlo : (oppQueue σ ord).isLeftOver = false)
    (hpre : ∀ j, j ≤ (oppQueue σ ord).stockQueue.length →
      totalQty ((oppQueue σ ord).stockQueue.take j) < ord.quantity) :
    (matcher σ ord).1 = false ∧
    (matcher σ ord).2.orderBook = markAll σ.orderBook (oppQueue σ ord).stockQueue ∧
    (∀ e ∈ (oppQueue σ ord).stockQueue, e.orderId < σ.orderBook.length →
      statusAt (matcher σ ord).2.orderBook e.orderId = some OrderStatus.Success) ∧
    (oppQueue (matcher σ ord).2 ord).stockQueue = [] ∧
    (oppQueue (matcher σ ord).2 ord).isLeftOver = false ∧
    ownQueue (matcher σ ord).2 ord =
      { ownQueue σ ord with
        stockQueue := (ownQueue σ ord).stockQueue ++
          [{ quantity := ord.quantity - totalQty (oppQueue σ ord).stockQueue,
             orderId := ord.orderId }] } ∧
    ((∀ e ∈ (oppQueue σ ord).stockQueue, e.orderId ≠ ord.orderId) →
      statusAt (matcher σ ord).2.orderBook ord.orderId = statusAt σ.orderBook ord.orderId) := by
  have hQ : 0 < ord.quantity := by simpa using hpre 0 (Nat.zero_le _)
  have hloop := matcherLoop_under ord (oppQueue σ ord).stockQueue ord.quantity σ rfl hlo hpre
  rw [← matcher_of_no_leftover σ ord hQ hlo] at hloop
  obtain ⟨r1, r2, r3, r4, r5⟩ := hloop
  refine ⟨r1, r2, ?_, r3, r4, r5, ?_⟩
  · intro e he hlt
    rw [r2]
    exact statusAt_markAll_of_mem _ _ e he hlt
  · intro hne
    rw [r2]
    exact statusAt_markAll_of_not_mem _ _ _ hne

theorem matcher_fifo_exhausted_witness :
    totalQty (oppQueue
        (arriving [newOrder "T1" "X" 5 TradeSide.Buy] (newOrder "T2" "X" 8 TradeSide.Sell)).1
        (arriving [newOrder "T1" "X" 5 TradeSide.Buy]
          (newOrder "T2" "X" 8 TradeSide.Sell)).2).stockQueue = 5 ∧
    (matcher
        (arriving [newOrder "T1" "X" 5 TradeSide.Buy] (newOrder "T2" "X" 8 TradeSide.Sell)).1
        (arriving [newOrder "T1" "X" 5 TradeSide.Buy]
          (newOrder "T2" "X" 8 TradeSide.Sell)).2).1 = false :=
  ⟨by decide,
   (matcher_fifo_exhausted
      (arriving [newOrder "T1" "X" 5 TradeSide.Buy] (newOrder "T2" "X" 8 TradeSide.Sell)).1
      (arriving [newOrder "T1" "X" 5 TradeSide.Buy] (newOrder "T2" "X" 8 TradeSide.Sell)).2
      (by decide) (by decide)).1⟩

/-- C5 as stated fails: after `(T1,X,5,Sell), (T2,X,-3,Sell)` the Sell FIFO of `X` holds
`5, -3`, total `2`; the order `(T3,X,3,Buy)` finds no leftover and a total below its
quantity, yet `matcher` returns `true`, marks it Success, and leaves a leftover and a
non-empty opposing FIFO. -/
theorem matcher_fifo_exhausted_fails_with_negative_entry :
    0 < (arriving [newOrder "T1" "X" 5 TradeSide.Sell, newOrder "T2" "X" (-3) TradeSide.Sell]
          (newOrder "T3" "X" 3 TradeSide.Buy)).2.quantity ∧
    (oppQueue
        (arriving [newOrder "T1" "X" 5 TradeSide.Sell, newOrder "T2" "X" (-3) TradeSide.Sell]
          (newOrder "T3" "X" 3 TradeSide.Buy)).1
        (arriving [newOrder "T1" "X" 5 TradeSide.Sell, newOrder "T2" "X" (-3) TradeSide.Sell]
          (newOrder "T3" "X" 3 TradeSide.Buy)).2).isLeftOver = false ∧
    totalQty (oppQueue
        (arriving [newOrder "T1" "X" 5 TradeSide.Sell, newOrder "T2" "X" (-3) TradeSide.Sell]
          (newOrder "T3" "X" 3 TradeSide.Buy)).1
        (arriving [newOrder "T1" "X" 5 TradeSide.Sell, newOrder "T2" "X" (-3) TradeSide.Sell]
          (newOrder "T3" "X" 3 TradeSide.Buy)).2).stockQueue = 2 ∧
    (matcher
        (arriving [newOrder "T1" "X" 5 TradeSide.Sell, newOrder "T2" "X" (-3) TradeSide.Sell]
          (newOrder "T3" "X" 3 TradeSide.Buy)).1
        (arriving [newOrder "T1" "X" 5 TradeSide.Sell, newOrder "T2" "X" (-3) TradeSide.Sell]
          (newOrder "T3" "X" 3 TradeSide.Buy)).2).1 = true ∧
    (processAll initState
        [newOrder "T1" "X" 5 TradeSide.Sell, newOrder "T2" "X" (-3) TradeSide.Sell,
         newOrder "T3" "X" 3 TradeSide.Buy]).orderBook.map (fun o => o.status) =
      [OrderStatus.Open, OrderStatus.Open, OrderStatus.Success] ∧
    (queueAt (processAll initState
        [newOrder "T1" "X" 5 TradeSide.Sell, newOrder "T2" "X" (-3) TradeSide.Sell,
         newOrder "T3" "X" 3 TradeSide.Buy]) "X" TradeSide.Sell) =
      { stockQueue := [{ quantity := -3, orderId := 1 }], isLeftOver := true,
        leftOver := { quantity := 2, orderId := 0 } } ∧
    (queueAt (processAll initState
        [newOrder "T1" "X" 5 TradeSide.Sell, newOrder "T2" "X" (-3) TradeSide.Sell,
         newOrder "T3" "X" 3 TradeSide.Buy]) "X" TradeSide.Buy).stockQueue = [] := by
  decide


/-! ## A leftover smaller than the incoming order -/

theorem matcher_leftover_smaller (σ : State) (ord : Order)
    (hlo : (oppQueue σ ord).isLeftOver = true)
    (hL : (oppQueue σ ord).leftOver.quantity < ord.quantity) :
    (matcher σ ord).1 = false ∧
    (matcher σ ord).2.orderBook = setSuccess σ.orderBook (oppQueue σ ord).leftOver.orderId ∧
    oppQueue (matcher σ ord).2 ord = { oppQueue σ ord with isLeftOver := false } ∧
    ownQueue (matcher σ ord).2 ord = ownQueue σ ord := by
  rw [matcher_of_leftover σ ord hlo]
  have h0 : 0 ≤ ord.quantity - (oppQueue σ ord).leftOver.quantity := by linarith
  have h1 : ¬ ord.quantity - (oppQueue σ ord).leftOver.quantity = 0 := by
    intro h; linarith
  simp [h0, h1]

/-- C1, the code at a failing input: after `(T1,X,10,Buy), (T2,X,5,Buy), (T3,X,4,Sell)` the
Buy queue of `X` holds the leftover `(6, order 0)` and the FIFO entry `(5, order 1)`.  For
`(T4,X,8,Sell)` `matcher` marks order 0, clears the leftover and returns `false`: the FIFO
entry is not consumed, the remaining 2 are not put on the Sell queue, and T4 stays Open.
Matching a quantity of 2 against the same queue without the leftover returns `true`, marks
T4 and leaves the leftover `(3, order 1)`. -/
theorem matcher_drops_remainder_after_leftover :
    (oppQueue
        (arriving [newOrder "T1" "X" 10 TradeSide.Buy, newOrder "T2" "X" 5 TradeSide.Buy,
          newOrder "T3" "X" 4 TradeSide.Sell] (newOrder "T4" "X" 8 TradeSide.Sell)).1
        (arriving [newOrder "T1" "X" 10 TradeSide.Buy, newOrder "T2" "X" 5 TradeSide.Buy,
          newOrder "T3" "X" 4 TradeSide.Sell] (newOrder "T4" "X" 8 TradeSide.Sell)).2 =
      { stockQueue := [{ quantity := 5, orderId := 1 }], isLeftOver := true,
        leftOver := { quantity := 6, orderId := 0 } }) ∧
    (matcher
        (arriving [newOrder "T1" "X" 10 TradeSide.Buy, newOrder "T2" "X" 5 TradeSide.Buy,
          newOrder "T3" "X" 4 TradeSide.Sell] (newOrder "T4" "X" 8 TradeSide.Sell)).1
        (arriving [newOrder "T1" "X" 10 TradeSide.Buy, newOrder "T2" "X" 5 TradeSide.Buy,
          newOrder "T3" "X" 4 TradeSide.Sell] (newOrder "T4" "X" 8 TradeSide.Sell)).2).1 = false ∧
    ((matcher
        (arriving [newOrder "T1" "X" 10 TradeSide.Buy, newOrder "T2" "X" 5 TradeSide.Buy,
          newOrder "T3" "X" 4 TradeSide.Sell] (newOrder "T4" "X" 8 TradeSide.Sell)).1
        (arriving [newOrder "T1" "X" 10 TradeSide.Buy, newOrder "T2" "X" 5 TradeSide.Buy,
          newOrder "T3" "X" 4 TradeSide.Sell]
          (newOrder "T4" "X" 8 TradeSide.Sell)).2).2.orderBook.map (fun o => o.status) =
      [OrderStatus.Success, OrderStatus.Open, OrderStatus.Success, OrderStatus.Open]) ∧
    (queueAt (matcher
        (arriving [newOrder "T1" "X" 10 TradeSide.Buy, newOrder "T2" "X" 5 TradeSide.Buy,
          newOrder "T3" "X" 4 TradeSide.Sell] (newOrder "T4" "X" 8 TradeSide.Sell)).1
        (arriving [newOrder "T1" "X" 10 TradeSide.Buy, newOrder "T2" "X" 5 TradeSide.Buy,
          newOrder "T3" "X" 4 TradeSide.Sell]
          (newOrder "T4" "X" 8 TradeSide.Sell)).2).2 "X" TradeSide.Buy =
      { stockQueue := [{ quantity := 5, orderId := 1 }], isLeftOver := false,
        leftOver := { quantity := 6, orderId := 0 } }) ∧
    ((queueAt (matcher
        (arriving [newOrder "T1" "X" 10 TradeSide.Buy, newOrder "T2" "X" 5 TradeSide.Buy,
          newOrder "T3" "X" 4 TradeSide.Sell] (newOrder "T4" "X" 8 TradeSide.Sell)).1
        (arriving [newOrder "T1" "X" 10 TradeSide.Buy, newOrder "T2" "X" 5 TradeSide.Buy,
          newOrder "T3" "X" 4 TradeSide.Sell]
          (newOrder "T4" "X" 8 TradeSide.Sell)).2).2 "X" TradeSide.Sell).stockQueue = []) ∧
    (matcher
        (setOppQueue
          (markSuccess (arriving [newOrder "T1" "X" 10 TradeSide.Buy,
            newOrder "T2" "X" 5 TradeSide.Buy, newOrder "T3" "X" 4 TradeSide.Sell]
            (newOrder "T4" "X" 8 TradeSide.Sell)).1 0)
          (newOrder "T4" "X" 8 TradeSide.Sell)
          { stockQueue := [{ quantity := 5, orderId := 1 }], isLeftOver := false,
            leftOver := { quantity := 6, orderId := 0 } })
        { orderId := 3, trader := "T4", stock := "X", quantity := 8 - 6,
          side := TradeSide.Sell, status := OrderStatus.Open }).1 = true ∧
    ((matcher
        (setOppQueue
          (markSuccess (arriving [newOrder "T1" "X" 10 TradeSide.Buy,
            newOrder "T2" "X" 5 TradeSide.Buy, newOrder "T3" "X" 4 TradeSide.Sell]
            (newOrder "T4" "X" 8 TradeSide.Sell)).1 0)
          (newOrder "T4" "X" 8 TradeSide.Sell)
          { stockQueue := [{ quantity := 5, orderId := 1 }], isLeftOver := false,
            leftOver := { quantity := 6, orderId := 0 } })
        { orderId := 3, trader := "T4", stock := "X", quantity := 8 - 6,
          side := TradeSide.Sell, status := OrderStatus.Open }).2.orderBook.map
        (fun o => o.status) =
      [OrderStatus.Success, OrderStatus.Open, OrderStatus.Success, OrderStatus.Success]) ∧
    (queueAt (matcher
        (setOppQueue
          (markSuccess (arriving [newOrder "T1" "X" 10 TradeSide.Buy,
            newOrder "T2" "X" 5 TradeSide.Buy, newOrder "T3" "X" 4 TradeSide.Sell]
            (newOrder "T4" "X" 8 TradeSide.Sell)).1 0)
          (newOrder "T4" "X" 8 TradeSide.Sell)
          { stockQueue := [{ quantity := 5, orderId := 1 }], isLeftOver := false,
            leftOver := { quantity := 6, orderId := 0 } })
        { orderId := 3, trader := "T4", stock := "X", quantity := 8 - 6,
          side := TradeSide.Sell, status := OrderStatus.Open }).2 "X" TradeSide.Buy =
      { stockQueue := [], isLeftOver := true, leftOver := { quantity := 3, orderId := 1 } }) := by
  decide

/-- C2, the code at a failing input: after `(T1,X,10,Buy), (T2,X,7,Buy), (T3,X,4,Sell)`
the Buy queue of `X` rests `6 + 7 = 13`; for `(T4,X,9,Sell)` the other side has enough
stock, yet `matcher` returns `false`. -/
theorem matcher_false_despite_enough_stock :
    0 < (arriving [newOrder "T1" "X" 10 TradeSide.Buy, newOrder "T2" "X" 7 TradeSide.Buy,
          newOrder "T3" "X" 4 TradeSide.Sell] (newOrder "T4" "X" 9 TradeSide.Sell)).2.quantity ∧
    (arriving [newOrder "T1" "X" 10 TradeSide.Buy, newOrder "T2" "X" 7 TradeSide.Buy,
          newOrder "T3" "X" 4 TradeSide.Sell] (newOrder "T4" "X" 9 TradeSide.Sell)).2.quantity ≤
      totalQty (resting (oppQueue
        (arriving [newOrder "T1" "X" 10 TradeSide.Buy, newOrder "T2" "X" 7 TradeSide.Buy,
          newOrder "T3" "X" 4 TradeSide.Sell] (newOrder "T4" "X" 9 TradeSide.Sell)).1
        (arriving [newOrder "T1" "X" 10 TradeSide.Buy, newOrder "T2" "X" 7 TradeSide.Buy,
          newOrder "T3" "X" 4 TradeSide.Sell] (newOrder "T4" "X" 9 TradeSide.Sell)).2)) ∧
    totalQty (resting (oppQueue
        (arriving [newOrder "T1" "X" 10 TradeSide.Buy, newOrder "T2" "X" 7 TradeSide.Buy,
          newOrder "T3" "X" 4 TradeSide.Sell] (newOrder "T4" "X" 9 TradeSide.Sell)).1
        (arriving [newOrder "T1" "X" 10 TradeSide.Buy, newOrder "T2" "X" 7 TradeSide.Buy,
          newOrder "T3" "X" 4 TradeSide.Sell] (newOrder "T4" "X" 9 TradeSide.Sell)).2)) = 13 ∧
    (matcher
        (arriving [newOrder "T1" "X" 10 TradeSide.Buy, newOrder "T2" "X" 7 TradeSide.Buy,
          newOrder "T3" "X" 4 TradeSide.Sell] (newOrder "T4" "X" 9 TradeSide.Sell)).1
        (arriving [newOrder "T1" "X" 10 TradeSide.Buy, newOrder "T2" "X" 7 TradeSide.Buy,
          newOrder "T3" "X" 4 TradeSide.Sell] (newOrder "T4" "X" 9 TradeSide.Sell)).2).1 = false := by
  decide

/-! ## The two threads -/

/-- C9, the code at a failing input: on a feed of three records, the interleaving
`earlyExitSchedule` ends with the matching thread past its loop while the reader is still
reading and has not touched the flag (the thread's own first `test_and_set` set it); the
reader then appends the third order and finishes, and the cursor stays at 2 with 3 orders
appended. -/
theorem matchingProcess_exits_early :
    (exec earlyExitSchedule (initSys threeRecords)).map Sys.view =
      some { reader := ReaderPc.Reading, matcherPc := MatcherPc.Terminated,
             dataExausted := true, nextOrder := 2, orderCount := 2, ledgerLength := 2 } ∧
    (exec (earlyExitSchedule ++ [Action.readRecord, Action.readerEnd])
        (initSys threeRecords)).map Sys.view =
      some { reader := ReaderPc.Ended, matcherPc := MatcherPc.Terminated,
             dataExausted := true, nextOrder := 2, orderCount := 3, ledgerLength := 3 } := by
  decide

/-- A waiting matching thread that has caught up is blocked for good once the reader has
ended: no step of either thread is enabled, whatever the flag holds. -/
theorem waiting_caught_up_is_stuck (s : Sys) (h1 : s.reader = ReaderPc.Ended)
    (h2 : s.matcherPc = MatcherPc.Waiting) (h3 : ¬ s.nextOrder < s.st.orderCount) :
    ∀ a, step a s = none := by
  intro a
  cases a <;> simp [step, h1, h2, h3]

/-- C10, the code at a failing input: on the empty feed, once the reader has set the flag
and signalled, the matching thread is in `wait` with the predicate `nextOrder < orderCount`
false, and no step of either thread is enabled any more. -/
theorem matchingProcess_blocks_on_empty_feed :
    ∃ s, exec [Action.readerEnd] (initSys []) = some s ∧
      Reachable [] s ∧
      s.reader = ReaderPc.Ended ∧ s.dataExausted = true ∧
      s.nextOrder = s.st.orderCount ∧ s.matcherPc = MatcherPc.Waiting ∧
      ¬ s.nextOrder < s.st.orderCount ∧
      ∀ a, step a s = none :=
  ⟨_, rfl, ⟨[Action.readerEnd], rfl⟩, rfl, rfl, rfl, rfl, by decide,
    fun a => by cases a <;> rfl⟩


/-! ## The result and the incoming order's status -/

theorem matcherLoop_status (ord : Order) :
    ∀ (fifo : List QuantityTrader) (qty : Int) (σ : State),
      (∀ e ∈ fifo, e.orderId ≠ ord.orderId) →
      ord.orderId < σ.orderBook.length →
      ((matcherLoop ord fifo qty σ).1 = true →
        statusAt (matcherLoop ord fifo qty σ).2.orderBook ord.orderId =
          some OrderStatus.Success) ∧
      ((matcherLoop ord fifo qty σ).1 = false →
        statusAt (matcherLoop ord fifo qty σ).2.orderBook ord.orderId =
          statusAt σ.orderBook ord.orderId) := by
  intro fifo
  induction fifo with
  | nil =>
    intro qty σ _ _
    by_cases hq : 0 < qty
    · rw [matcherLoop_nil ord qty σ hq]; simp
    · rw [matcherLoop_of_nonpos ord [] qty σ hq]; simp
  | cons e rest ih =>
    intro qty σ hne hlt
    have he : ord.orderId ≠ e.orderId := fun h => hne e (List.mem_cons_self _ _) h.symm
    by_cases hq : 0 < qty
    · rcases lt_trichotomy (qty - e.quantity) 0 with h1 | h1 | h1
      · rw [matcherLoop_cons_over ord e rest qty σ hq h1]
        simpa using statusAt_setSuccess_self _ _ hlt
      · rw [matcherLoop_cons_exact ord e rest qty σ hq h1]
        simpa using statusAt_setSuccess_self (setSuccess σ.orderBook e.orderId) ord.orderId
          (by simpa using hlt)
      · rw [matcherLoop_cons_continue ord e rest qty σ hq h1]
        have hrec := ih (qty - e.quantity)
          (setOppQueue (markSuccess σ e.orderId) ord
            { oppQueue σ ord with stockQueue := rest, isLeftOver := false })
          (fun x hx => hne x (List.mem_cons_of_mem _ hx)) (by simpa using hlt)
        refine ⟨hrec.1, fun hf => ?_⟩
        rw [hrec.2 hf]
        simpa using statusAt_setSuccess_of_ne σ.orderBook he
    · rw [matcherLoop_of_nonpos ord (e :: rest) qty σ hq]; simp

theorem matcher_status (σ : State) (ord : Order)
    (hlt : ord.orderId < σ.orderBook.length)
    (hfresh : ∀ e ∈ resting (oppQueue σ ord), e.orderId ≠ ord.orderId) :
    ((matcher σ ord).1 = true →
      statusAt (matcher σ ord).2.orderBook ord.orderId = some OrderStatus.Success) ∧
    ((matcher σ ord).1 = false →
      statusAt (matcher σ ord).2.orderBook ord.orderId = statusAt σ.orderBook ord.orderId) := by
  cases hlo : (oppQueue σ ord).isLeftOver with
  | true =>
    have hr : ord.orderId ≠ (oppQueue σ ord).leftOver.orderId := by
      intro h
      exact hfresh (oppQueue σ ord).leftOver (by simp [resting, hlo]) h.symm
    rw [matcher_of_leftover σ ord hlo]
    by_cases h0 : 0 ≤ ord.quantity - (oppQueue σ ord).leftOver.quantity
    · by_cases h1 : ord.quantity - (oppQueue σ ord).leftOver.quantity = 0
      · simp only [h1, le_refl, if_true]
        simpa using statusAt_setSuccess_self
          (setSuccess σ.orderBook (oppQueue σ ord).leftOver.orderId) ord.orderId
          (by simpa using hlt)
      · simp only [h0, h1, if_true, if_false]
        simpa using statusAt_setSuccess_of_ne σ.orderBook hr
    · simp only [h0, if_false]
      simpa using statusAt_setSuccess_self _ _ hlt
  | false =>
    rw [matcher_of_no_leftover_general σ ord hlo]
    by_cases hq : (oppQueue σ ord).stockQueue = []
    · simp [hq]
    · simp only [hq, if_false]
      exact matcherLoop_status ord _ _ σ
        (fun e he => hfresh e (by simp [resting, hlo, he])) hlt

/-- The result and the status in any state: when the incoming order is the Open ledger
entry at its own id and no resting entry of the opposing queue refers to it, `matcher`
returns `true` exactly when the incoming order's ledger status is Success after the call,
and after a `false` the incoming order is still Open. -/
theorem matcher_true_iff_success (σ : State) (ord : Order)
    (hin : σ.orderBook[ord.orderId]? = some ord)
    (hopen : ord.status = OrderStatus.Open)
    (hfresh : ∀ e ∈ resting (oppQueue σ ord), e.orderId ≠ ord.orderId) :
    ((matcher σ ord).1 = true ↔
      statusAt (matcher σ ord).2.orderBook ord.orderId = some OrderStatus.Success) ∧
    ((matcher σ ord).1 = false →
      statusAt (matcher σ ord).2.orderBook ord.orderId = some OrderStatus.Open) := by
  have hlt : ord.orderId < σ.orderBook.length := by
    rcases Nat.lt_or_ge ord.orderId σ.orderBook.length with h | h
    · exact h
    · rw [List.getElem?_eq_none h] at hin
      cases hin
  have hbefore : statusAt σ.orderBook ord.orderId = some OrderStatus.Open := by
    simp [statusAt, hin, hopen]
  obtain ⟨h1, h2⟩ := matcher_status σ ord hlt hfresh
  refine ⟨⟨h1, fun hs => ?_⟩, fun hf => by rw [h2 hf, hbefore]⟩
  cases hres : (matcher σ ord).1 with
  | true => rfl
  | false =>
    rw [h2 hres, hbefore] at hs
    cases hs

theorem matcher_true_iff_success_witness :
    (arriving [newOrder "T1" "X" 10 TradeSide.Buy] (newOrder "T2" "X" 4 TradeSide.Sell)).2.status =
      OrderStatus.Open ∧
    statusAt (matcher
        (arriving [newOrder "T1" "X" 10 TradeSide.Buy] (newOrder "T2" "X" 4 TradeSide.Sell)).1
        (arriving [newOrder "T1" "X" 10 TradeSide.Buy]
          (newOrder "T2" "X" 4 TradeSide.Sell)).2).2.orderBook 1 = some OrderStatus.Success :=
  ⟨by decide,
   (matcher_true_iff_success
      (arriving [newOrder "T1" "X" 10 TradeSide.Buy] (newOrder "T2" "X" 4 TradeSide.Sell)).1
      (arriving [newOrder "T1" "X" 10 TradeSide.Buy] (newOrder "T2" "X" 4 TradeSide.Sell)).2
      (by decide) (by decide) (by decide)).1.mp (by decide)⟩

/-- The premise on the opposing queue cannot be dropped from `matcher_true_iff_success`:
in `selfReferringState`, a state no run produces, the opposing leftover refers to the
incoming order itself, `matcher` returns `false`, and the order is Success after the
call. -/
theorem matcher_false_yet_success_when_self_referring :
    selfReferringState.orderBook[0]? =
      some { orderId := 0, trader := "T1", stock := "X", quantity := 5,
             side := TradeSide.Sell, status := OrderStatus.Open } ∧
    (matcher selfReferringState
      { orderId := 0, trader := "T1", stock := "X", quantity := 5,
        side := TradeSide.Sell, status := OrderStatus.Open }).1 = false ∧
    statusAt (matcher selfReferringState
      { orderId := 0, trader := "T1", stock := "X", quantity := 5,
        side := TradeSide.Sell, status := OrderStatus.Open }).2.orderBook 0 =
      some OrderStatus.Success := by
  decide


/-! ## Sums over the ledger -/

@[simp] theorem TradeSide.flip_flip (d : TradeSide) : d.flip.flip = d := by
  cases d <;> rfl

theorem TradeSide.flip_ne (d : TradeSide) : d.flip ≠ d := by
  cases d <;> simp [TradeSide.flip]

theorem TradeSide.eq_flip_of_ne {d e : TradeSide} (h : d ≠ e) : d = e.flip := by
  cases d <;> cases e <;> simp_all [TradeSide.flip]

theorem successQty_cons (o : Order) (os : List Order) (s : String) (d : TradeSide) :
    successQty (o :: os) s d =
      (if o.stock = s ∧ o.side = d ∧ o.status = OrderStatus.Success then o.quantity else 0) +
        successQty os s d := by
  simp [successQty]

theorem successQty_setSuccess (book : List Order) (i : Nat) (s : String) (d : TradeSide) :
    successQty (setSuccess book i) s d =
      successQty book s d +
        (match book[i]? with
         | some o =>
           if o.stock = s ∧ o.side = d ∧ o.status = OrderStatus.Open then o.quantity else 0
         | none => 0) := by
  induction book generalizing i with
  | nil => simp [setSuccess, successQty]
  | cons o os ih =>
    cases i with
    | zero =>
      simp only [setSuccess, successQty_cons, List.getElem?_cons_zero]
      cases hst : o.status <;> by_cases h1 : o.stock = s <;> by_cases h2 : o.side = d <;>
        first | (simp [h1, h2]; done) | (simp [h1, h2]; omega)
    | succ n =>
      simp only [setSuccess, successQty_cons, List.getElem?_cons_succ]
      rw [ih n]
      ring

theorem successQty_setSuccess_of_other (book : List Order) (i : Nat) (s : String)
    (d : TradeSide) (o : Order) (ho : book[i]? = some o) (h : o.stock ≠ s ∨ o.side ≠ d) :
    successQty (setSuccess book i) s d = successQty book s d := by
  rw [successQty_setSuccess, ho]
  rcases h with h | h <;> simp [h]

theorem successQty_setSuccess_le (book : List Order) (i : Nat) (s : String)
    (d : TradeSide) (o : Order) (ho : book[i]? = some o) (hq : 0 ≤ o.quantity) :
    successQty (setSuccess book i) s d ≤ successQty book s d + o.quantity := by
  rw [successQty_setSuccess, ho]
  simp only
  split <;> omega

theorem arrivedQty_setSuccess (book : List Order) (i : Nat) (s : String) (d : TradeSide) :
    arrivedQty (setSuccess book i) s d = arrivedQty book s d := by
  induction book generalizing i with
  | nil => rfl
  | cons o os ih =>
    cases i with
    | zero => simp [setSuccess, arrivedQty]
    | succ n =>
      have := ih n
      simp only [arrivedQty] at this
      simp [setSuccess, arrivedQty, this]

theorem qtyAt_setSuccess (book : List Order) (i j : Nat) :
    qtyAt (setSuccess book i) j = qtyAt book j := by
  unfold qtyAt
  rw [getElem?_setSuccess]
  split
  · cases book[j]? <;> rfl
  · rfl

theorem filledQty_setSuccess (book : List Order) (i : Nat) (es : List QuantityTrader) :
    filledQty (setSuccess book i) es = filledQty book es := by
  simp [filledQty, qtyAt_setSuccess]

@[simp] theorem filledQty_nil (book : List Order) : filledQty book [] = 0 := rfl

@[simp] theorem filledQty_cons (book : List Order) (e : QuantityTrader)
    (es : List QuantityTrader) :
    filledQty book (e :: es) = (qtyAt book e.orderId - e.quantity) + filledQty book es := by
  simp [filledQty]

theorem filledQty_append (book : List Order) (es fs : List QuantityTrader) :
    filledQty book (es ++ fs) = filledQty book es + filledQty book fs := by
  simp [filledQty]

theorem totalQty_append (es fs : List QuantityTrader) :
    totalQty (es ++ fs) = totalQty es + totalQty fs := by
  simp [totalQty]

theorem qtyAt_of_getElem? (book : List Order) (i : Nat) (o : Order) (h : book[i]? = some o) :
    qtyAt book i = o.quantity := by
  simp [qtyAt, h]

theorem getElem?_setSuccess_fields (book : List Order) (i j : Nat) (o : Order)
    (h : book[j]? = some o) :
    ∃ o1, (setSuccess book i)[j]? = some o1 ∧ o1.stock = o.stock ∧ o1.side = o.side ∧
      o1.quantity = o.quantity := by
  rw [getElem?_setSuccess, h]
  split
  · exact ⟨_, rfl, rfl, rfl, rfl⟩
  · exact ⟨o, rfl, rfl, rfl, rfl⟩

/-! ## Appending to the ledger -/

theorem successQty_append_open (book : List Order) (o : Order) (s : String) (d : TradeSide)
    (ho : o.status = OrderStatus.Open) :
    successQty (book ++ [o]) s d = successQty book s d := by
  simp [successQty, ho]

theorem arrivedQty_append (xs ys : List Order) (s : String) (d : TradeSide) :
    arrivedQty (xs ++ ys) s d = arrivedQty xs s d + arrivedQty ys s d := by
  simp [arrivedQty]

theorem arrivedQty_singleton (o : Order) (s : String) (d : TradeSide) :
    arrivedQty [o] s d = if o.stock = s ∧ o.side = d then o.quantity else 0 := by
  simp [arrivedQty]

theorem qtyAt_append_of_lt (book : List Order) (o : Order) (i : Nat) (h : i < book.length) :
    qtyAt (book ++ [o]) i = qtyAt book i := by
  simp [qtyAt, List.getElem?_append_left h]

theorem filledQty_append_ledger (book : List Order) (o : Order) (es : List QuantityTrader)
    (h : ∀ e ∈ es, e.orderId < book.length) :
    filledQty (book ++ [o]) es = filledQty book es := by
  induction es with
  | nil => rfl
  | cons e es ih =>
    rw [filledQty_cons, filledQty_cons, ih (fun x hx => h x (List.mem_cons_of_mem _ hx)),
      qtyAt_append_of_lt book o e.orderId (h e (List.mem_cons_self _ _))]

/-! ## Resting entries after a write -/

theorem oppQueue_eq_queueAt (σ : State) (ord : Order) :
    oppQueue σ ord = queueAt σ ord.stock ord.side.flip := by
  unfold oppQueue queueAt
  cases ord.side <;> simp [TradeSide.flip]

theorem ownQueue_eq_queueAt (σ : State) (ord : Order) :
    ownQueue σ ord = queueAt σ ord.stock ord.side := by
  unfold ownQueue queueAt
  cases ord.side <;> simp

theorem queueAt_markSuccess (σ : State) (i : Nat) (s : String) (d : TradeSide) :
    queueAt (markSuccess σ i) s d = queueAt σ s d := by
  cases d <;> rfl

theorem queueAt_setOppQueue (σ : State) (ord : Order) (q : ConcurrentStockQueue)
    (s : String) (d : TradeSide) :
    queueAt (setOppQueue σ ord q) s d =
      if s = ord.stock ∧ d = ord.side.flip then q else queueAt σ s d := by
  unfold setOppQueue queueAt
  cases hs : ord.side <;> cases d <;> by_cases h : s = ord.stock <;>
    simp [TradeSide.flip, h, Function.update]

theorem queueAt_setOwnQueue (σ : State) (ord : Order) (q : ConcurrentStockQueue)
    (s : String) (d : TradeSide) :
    queueAt (setOwnQueue σ ord q) s d =
      if s = ord.stock ∧ d = ord.side then q else queueAt σ s d := by
  unfold setOwnQueue queueAt
  cases hs : ord.side <;> cases d <;> by_cases h : s = ord.stock <;>
    simp [h, Function.update]

theorem restingAt_markSuccess (σ : State) (i : Nat) :
    restingAt (markSuccess σ i) = restingAt σ := by
  funext s d
  simp [restingAt, queueAt_markSuccess]

theorem restingAt_setOppQueue (σ : State) (ord : Order) (q : ConcurrentStockQueue) :
    restingAt (setOppQueue σ ord q) =
      setResting (restingAt σ) ord.stock ord.side.flip (resting q) := by
  funext s d
  simp only [restingAt, setResting, queueAt_setOppQueue]
  split <;> rfl

theorem restingAt_pushOwn (σ : State) (ord : Order) (qt : QuantityTrader) :
    restingAt (pushOwn σ ord qt) =
      setResting (restingAt σ) ord.stock ord.side (restingAt σ ord.stock ord.side ++ [qt]) := by
  funext s d
  simp only [restingAt, setResting, pushOwn, queueAt_setOwnQueue, ownQueue_eq_queueAt]
  split
  · simp [resting]
  · rfl


/-! ## The accounting, step by step -/

theorem setResting_same (rs : String → TradeSide → List QuantityTrader) (s0 : String)
    (d0 : TradeSide) (es : List QuantityTrader) : setResting rs s0 d0 es s0 d0 = es := by
  simp [setResting]

theorem setResting_of_ne_side (rs : String → TradeSide → List QuantityTrader) (s0 s : String)
    (d0 d : TradeSide) (es : List QuantityTrader) (h : d ≠ d0) :
    setResting rs s0 d0 es s d = rs s d := by
  simp [setResting, h]

theorem setResting_of_ne_stock (rs : String → TradeSide → List QuantityTrader) (s0 s : String)
    (d0 d : TradeSide) (es : List QuantityTrader) (h : s ≠ s0) :
    setResting rs s0 d0 es s d = rs s d := by
  simp [setResting, h]

theorem restingOk_setSuccess (book : List Order)
    (rs : String → TradeSide → List QuantityTrader) (i : Nat) (h : RestingOk book rs) :
    RestingOk (setSuccess book i) rs := by
  intro s d e he
  obtain ⟨o, ho, h1, h2, h3, h4⟩ := h s d e he
  obtain ⟨o1, ho1, g1, g2, g3⟩ := getElem?_setSuccess_fields book i e.orderId o ho
  exact ⟨o1, ho1, g1.trans h1, g2.trans h2, h3, by rw [g3]; exact h4⟩

theorem restingOk_setResting (book : List Order)
    (rs : String → TradeSide → List QuantityTrader) (s0 : String) (d0 : TradeSide)
    (es : List QuantityTrader) (h : RestingOk book rs)
    (hes : ∀ e ∈ es, ∃ o, book[e.orderId]? = some o ∧ o.stock = s0 ∧ o.side = d0 ∧
      0 < e.quantity ∧ e.quantity ≤ o.quantity) :
    RestingOk book (setResting rs s0 d0 es) := by
  intro s d e he
  unfold setResting at he
  split at he
  · rename_i hk
    rw [hk.1, hk.2]
    exact hes e he
  · exact h s d e he

theorem filledQty_nonneg (book : List Order)
    (rs : String → TradeSide → List QuantityTrader) (h : RestingOk book rs) (s : String)
    (d : TradeSide) : 0 ≤ filledQty book (rs s d) := by
  have key : ∀ es : List QuantityTrader, (∀ e ∈ es, e ∈ rs s d) → 0 ≤ filledQty book es := by
    intro es
    induction es with
    | nil => intro _; simp
    | cons e es ih =>
      intro hsub
      obtain ⟨o, ho, _, _, _, hle⟩ := h s d e (hsub e (List.mem_cons_self _ _))
      have := ih (fun x hx => hsub x (List.mem_cons_of_mem _ hx))
      rw [filledQty_cons, qtyAt_of_getElem? book _ o ho]
      omega
  exact key _ (fun _ he => he)

theorem totalQty_nonneg (book : List Order)
    (rs : String → TradeSide → List QuantityTrader) (h : RestingOk book rs) (s : String)
    (d : TradeSide) : 0 ≤ totalQty (rs s d) := by
  have key : ∀ es : List QuantityTrader, (∀ e ∈ es, e ∈ rs s d) → 0 ≤ totalQty es := by
    intro es
    induction es with
    | nil => intro _; simp
    | cons e es ih =>
      intro hsub
      obtain ⟨o, _, _, _, hpos, _⟩ := h s d e (hsub e (List.mem_cons_self _ _))
      have := ih (fun x hx => hsub x (List.mem_cons_of_mem _ hx))
      rw [totalQty_cons]
      omega
  exact key _ (fun _ he => he)

/-- The front entry `e` of the other side is consumed whole: its order is marked and
`e.quantity` moves from "still to fill" to "filled". -/
theorem covered_consume (book : List Order) (rs : String → TradeSide → List QuantityTrader)
    (s0 : String) (d0 : TradeSide) (q qty : Int) (e : QuantityTrader)
    (es : List QuantityTrader)
    (hwf : RestingOk book rs) (hrs : rs s0 d0.flip = e :: es)
    (hcov : Covered book rs (allowance s0 d0 q qty)) :
    Covered (setSuccess book e.orderId) (setResting rs s0 d0.flip es)
      (allowance s0 d0 q (qty - e.quantity)) := by
  obtain ⟨o, ho, hos, hod, hpos, hle⟩ :=
    hwf s0 d0.flip e (by rw [hrs]; exact List.mem_cons_self _ _)
  intro s d
  have h := hcov s d
  rw [arrivedQty_setSuccess, filledQty_setSuccess]
  by_cases hs : s = s0
  · subst hs
    by_cases hd : d = d0
    · subst hd
      have h1 : successQty (setSuccess book e.orderId) s d = successQty book s d :=
        successQty_setSuccess_of_other _ _ _ _ o ho
          (Or.inr (by rw [hod]; exact TradeSide.flip_ne d))
      rw [h1, setResting_of_ne_side _ _ _ _ _ _ (TradeSide.flip_ne d).symm, setResting_same]
      rw [hrs, totalQty_cons] at h
      simp only [allowance, if_true] at h ⊢
      omega
    · have hd1 : d = d0.flip := TradeSide.eq_flip_of_ne hd
      subst hd1
      have h1 := successQty_setSuccess_le book e.orderId s d0.flip o ho (by omega)
      rw [setResting_same, TradeSide.flip_flip,
        setResting_of_ne_side _ _ _ _ _ _ (TradeSide.flip_ne d0).symm]
      rw [hrs, filledQty_cons, qtyAt_of_getElem? book _ o ho, TradeSide.flip_flip] at h
      simp only [allowance, if_true, hd, if_false] at h ⊢
      omega
  · have h1 : successQty (setSuccess book e.orderId) s d = successQty book s d :=
      successQty_setSuccess_of_other _ _ _ _ o ho (Or.inl (by rw [hos]; exact Ne.symm hs))
    rw [h1, setResting_of_ne_stock _ _ _ _ _ _ hs, setResting_of_ne_stock _ _ _ _ _ _ hs]
    simp only [allowance, hs, if_false] at h ⊢
    exact h

theorem hasOrder_setSuccess (book : List Order) (i j : Nat) (s0 : String) (d0 : TradeSide)
    (q : Int) (h : HasOrder book i s0 d0 q) : HasOrder (setSuccess book j) i s0 d0 q := by
  obtain ⟨o, ho, h1, h2, h3⟩ := h
  obtain ⟨o1, ho1, g1, g2, g3⟩ := getElem?_setSuccess_fields book j i o ho
  exact ⟨o1, ho1, g1.trans h1, g2.trans h2, g3.trans h3⟩

theorem covered_mono (book : List Order) (rs : String → TradeSide → List QuantityTrader)
    (x y : String → TradeSide → Int) (h : Covered book rs x) (hxy : ∀ s d, y s d ≤ x s d) :
    Covered book rs y := by
  intro s d
  have h1 := h s d
  have h2 := hxy s d
  omega

theorem allowance_nonneg (s0 : String) (d0 : TradeSide) (q qty : Int) (h0 : 0 ≤ qty)
    (h1 : qty ≤ q) (s : String) (d : TradeSide) : 0 ≤ allowance s0 d0 q qty s d := by
  unfold allowance
  split
  · split <;> omega
  · exact le_refl 0

/-- The front entry `e` of the other side is larger than what is still to fill: the
incoming order is marked, and `e` stays with the difference. -/
theorem covered_reduce (book : List Order) (rs : String → TradeSide → List QuantityTrader)
    (i : Nat) (s0 : String) (d0 : TradeSide) (q qty : Int) (e : QuantityTrader)
    (es : List QuantityTrader)
    (hwf : RestingOk book rs) (hrs : rs s0 d0.flip = e :: es)
    (hord : HasOrder book i s0 d0 q) (hq0 : 0 ≤ qty) (hq1 : qty ≤ q)
    (hcov : Covered book rs (allowance s0 d0 q qty)) :
    Covered (setSuccess book i)
      (setResting rs s0 d0.flip ({ quantity := e.quantity - qty, orderId := e.orderId } :: es))
      (fun _ _ => 0) := by
  obtain ⟨o, ho, hos, hod, hpos, hle⟩ :=
    hwf s0 d0.flip e (by rw [hrs]; exact List.mem_cons_self _ _)
  obtain ⟨oi, hoi, his, hid, hiq⟩ := hord
  intro s d
  have h := hcov s d
  rw [arrivedQty_setSuccess, filledQty_setSuccess]
  by_cases hs : s = s0
  · subst hs
    by_cases hd : d = d0
    · subst hd
      have h1 := successQty_setSuccess_le book i s d oi hoi (by omega)
      rw [setResting_of_ne_side _ _ _ _ _ _ (TradeSide.flip_ne d).symm, setResting_same,
        totalQty_cons]
      rw [hrs, totalQty_cons] at h
      simp only [allowance, if_true] at h
      simp only
      omega
    · have hd1 : d = d0.flip := TradeSide.eq_flip_of_ne hd
      subst hd1
      have h1 : successQty (setSuccess book i) s d0.flip = successQty book s d0.flip :=
        successQty_setSuccess_of_other _ _ _ _ oi hoi
          (Or.inr (by rw [hid]; exact (TradeSide.flip_ne d0).symm))
      rw [h1, setResting_same, TradeSide.flip_flip,
        setResting_of_ne_side _ _ _ _ _ _ (TradeSide.flip_ne d0).symm, filledQty_cons]
      rw [hrs, filledQty_cons, TradeSide.flip_flip] at h
      simp only [allowance, if_true, hd, if_false] at h
      simp only
      omega
  · have h1 : successQty (setSuccess book i) s d = successQty book s d :=
      successQty_setSuccess_of_other _ _ _ _ oi hoi (Or.inl (by rw [his]; exact Ne.symm hs))
    rw [h1, setResting_of_ne_stock _ _ _ _ _ _ hs, setResting_of_ne_stock _ _ _ _ _ _ hs]
    simp only [allowance, hs, if_false] at h
    simpa using h

/-- Nothing is left to fill: the incoming order is marked. -/
theorem covered_finish (book : List Order) (rs : String → TradeSide → List QuantityTrader)
    (i : Nat) (s0 : String) (d0 : TradeSide) (q : Int)
    (hord : HasOrder book i s0 d0 q) (hq : 0 ≤ q)
    (hcov : Covered book rs (allowance s0 d0 q 0)) :
    Covered (setSuccess book i) rs (fun _ _ => 0) := by
  obtain ⟨oi, hoi, his, hid, hiq⟩ := hord
  intro s d
  have h := hcov s d
  rw [arrivedQty_setSuccess, filledQty_setSuccess]
  by_cases hs : s = s0
  · subst hs
    by_cases hd : d = d0
    · subst hd
      have h1 := successQty_setSuccess_le book i s d oi hoi (by omega)
      simp only [allowance, if_true] at h
      simp only
      omega
    · have h1 : successQty (setSuccess book i) s d = successQty book s d :=
        successQty_setSuccess_of_other _ _ _ _ oi hoi (Or.inr (by rw [hid]; exact Ne.symm hd))
      rw [h1]
      simp only [allowance, if_true, hd, if_false] at h
      simpa using h
  · have h1 : successQty (setSuccess book i) s d = successQty book s d :=
      successQty_setSuccess_of_other _ _ _ _ oi hoi (Or.inl (by rw [his]; exact Ne.symm hs))
    rw [h1]
    simp only [allowance, hs, if_false] at h
    simpa using h

/-- The other side has run out: what is still to fill rests on the own side. -/
theorem covered_rest (book : List Order) (rs : String → TradeSide → List QuantityTrader)
    (i : Nat) (s0 : String) (d0 : TradeSide) (q qty : Int)
    (hord : HasOrder book i s0 d0 q)
    (hcov : Covered book rs (allowance s0 d0 q qty)) :
    Covered book (setResting rs s0 d0 (rs s0 d0 ++ [{ quantity := qty, orderId := i }]))
      (fun _ _ => 0) := by
  obtain ⟨oi, hoi, his, hid, hiq⟩ := hord
  intro s d
  have h := hcov s d
  by_cases hs : s = s0
  · subst hs
    by_cases hd : d = d0
    · subst hd
      rw [setResting_same, setResting_of_ne_side _ _ _ _ _ _ (TradeSide.flip_ne d),
        filledQty_append, filledQty_cons, filledQty_nil, qtyAt_of_getElem? book i oi hoi]
      simp only [allowance, if_true] at h
      simp only
      omega
    · have hd1 : d = d0.flip := TradeSide.eq_flip_of_ne hd
      subst hd1
      rw [setResting_of_ne_side _ _ _ _ _ _ hd, TradeSide.flip_flip, setResting_same,
        totalQty_append, totalQty_cons, totalQty_nil]
      rw [TradeSide.flip_flip] at h
      simp only [allowance, if_true, hd, if_false] at h
      simp only
      omega
  · rw [setResting_of_ne_stock _ _ _ _ _ _ hs, setResting_of_ne_stock _ _ _ _ _ _ hs]
    simp only [allowance, hs, if_false] at h
    simpa using h


/-! ## `matcher` keeps the accounting -/

theorem resting_of_leftover (q : ConcurrentStockQueue) (h : q.isLeftOver = true) :
    resting q = q.leftOver :: q.stockQueue := by
  simp [resting, h]

theorem resting_of_no_leftover (q : ConcurrentStockQueue) (h : q.isLeftOver = false) :
    resting q = q.stockQueue := by
  simp [resting, h]

theorem resting_mk_true (fifo : List QuantityTrader) (lo : QuantityTrader) :
    resting { stockQueue := fifo, isLeftOver := true, leftOver := lo } = lo :: fifo := rfl

theorem resting_mk_false (fifo : List QuantityTrader) (lo : QuantityTrader) :
    resting { stockQueue := fifo, isLeftOver := false, leftOver := lo } = fifo := rfl

theorem restingAt_opp_of_no_leftover (σ : State) (ord : Order)
    (hlo : (oppQueue σ ord).isLeftOver = false) :
    restingAt σ ord.stock ord.side.flip = (oppQueue σ ord).stockQueue := by
  rw [restingAt, ← oppQueue_eq_queueAt]
  simp [resting, hlo]

theorem restingAt_opp_of_leftover (σ : State) (ord : Order)
    (hlo : (oppQueue σ ord).isLeftOver = true) :
    restingAt σ ord.stock ord.side.flip =
      (oppQueue σ ord).leftOver :: (oppQueue σ ord).stockQueue := by
  rw [restingAt, ← oppQueue_eq_queueAt]
  simp [resting, hlo]

theorem restingOk_tail (book : List Order) (rs : String → TradeSide → List QuantityTrader)
    (s0 : String) (d0 : TradeSide) (e : QuantityTrader) (es : List QuantityTrader)
    (h : RestingOk book rs) (hrs : rs s0 d0 = e :: es) :
    RestingOk book (setResting rs s0 d0 es) :=
  restingOk_setResting book rs s0 d0 es h
    (fun x hx => h s0 d0 x (by rw [hrs]; exact List.mem_cons_of_mem _ hx))

theorem restingOk_reduce (book : List Order) (rs : String → TradeSide → List QuantityTrader)
    (s0 : String) (d0 : TradeSide) (qty : Int) (e : QuantityTrader) (es : List QuantityTrader)
    (h : RestingOk book rs) (hrs : rs s0 d0 = e :: es) (h0 : 0 ≤ qty) (h1 : qty < e.quantity) :
    RestingOk book
      (setResting rs s0 d0 ({ quantity := e.quantity - qty, orderId := e.orderId } :: es)) := by
  refine restingOk_setResting book rs s0 d0 _ h ?_
  intro x hx
  rcases List.mem_cons.mp hx with hx | hx
  · obtain ⟨o, ho, g1, g2, g3, g4⟩ := h s0 d0 e (by rw [hrs]; exact List.mem_cons_self _ _)
    subst hx
    exact ⟨o, ho, g1, g2, by simp only; omega, by simp only; omega⟩
  · exact h s0 d0 x (by rw [hrs]; exact List.mem_cons_of_mem _ hx)

theorem restingOk_rest (book : List Order) (rs : String → TradeSide → List QuantityTrader)
    (i : Nat) (s0 : String) (d0 : TradeSide) (q qty : Int)
    (h : RestingOk book rs) (hord : HasOrder book i s0 d0 q) (h0 : 0 < qty) (h1 : qty ≤ q) :
    RestingOk book
      (setResting rs s0 d0 (rs s0 d0 ++ [{ quantity := qty, orderId := i }])) := by
  refine restingOk_setResting book rs s0 d0 _ h ?_
  intro x hx
  rcases List.mem_append.mp hx with hx | hx
  · exact h s0 d0 x hx
  · obtain ⟨o, ho, g1, g2, g3⟩ := hord
    simp only [List.mem_singleton] at hx
    subst hx
    exact ⟨o, ho, g1, g2, h0, by simp only; omega⟩

theorem matcherLoop_covered (ord : Order) :
    ∀ (fifo : List QuantityTrader) (qty : Int) (σ : State),
      (oppQueue σ ord).stockQueue = fifo →
      (oppQueue σ ord).isLeftOver = false →
      HasOrder σ.orderBook ord.orderId ord.stock ord.side ord.quantity →
      0 ≤ qty → qty ≤ ord.quantity →
      RestingOk σ.orderBook (restingAt σ) →
      Covered σ.orderBook (restingAt σ) (allowance ord.stock ord.side ord.quantity qty) →
      RestingOk (matcherLoop ord fifo qty σ).2.orderBook
          (restingAt (matcherLoop ord fifo qty σ).2) ∧
        Covered (matcherLoop ord fifo qty σ).2.orderBook
          (restingAt (matcherLoop ord fifo qty σ).2) (fun _ _ => 0) := by
  intro fifo
  induction fifo with
  | nil =>
    intro qty σ _ _ hord h0 h1 hwf hcov
    by_cases hq : 0 < qty
    · rw [matcherLoop_nil ord qty σ hq]
      simp only [orderBook_pushOwn, restingAt_pushOwn]
      exact ⟨restingOk_rest _ _ _ _ _ _ _ hwf hord hq h1, covered_rest _ _ _ _ _ _ _ hord hcov⟩
    · rw [matcherLoop_of_nonpos ord [] qty σ hq]
      exact ⟨hwf, covered_mono _ _ _ _ hcov (allowance_nonneg _ _ _ _ h0 h1)⟩
  | cons e rest ih =>
    intro qty σ hfifo hlo hord h0 h1 hwf hcov
    have hrs : restingAt σ ord.stock ord.side.flip = e :: rest := by
      rw [restingAt_opp_of_no_leftover σ ord hlo, hfifo]
    obtain ⟨oe, hoe, _, _, hepos, hele⟩ :=
      hwf ord.stock ord.side.flip e (by rw [hrs]; exact List.mem_cons_self _ _)
    by_cases hq : 0 < qty
    · rcases lt_trichotomy (qty - e.quantity) 0 with hlt | heq | hgt
      · rw [matcherLoop_cons_over ord e rest qty σ hq hlt]
        simp only [orderBook_setOppQueue, orderBook_markSuccess, restingAt_setOppQueue,
          restingAt_markSuccess]
        rw [resting_mk_true]
        exact ⟨restingOk_setSuccess _ _ _
            (restingOk_reduce _ _ _ _ qty e rest hwf hrs h0 (by omega)),
          covered_reduce _ _ _ _ _ _ _ e rest hwf hrs hord h0 h1 hcov⟩
      · rw [matcherLoop_cons_exact ord e rest qty σ hq heq]
        simp only [orderBook_setOppQueue, orderBook_markSuccess, restingAt_setOppQueue,
          restingAt_markSuccess]
        rw [resting_mk_false]
        have hc := covered_consume _ _ _ _ _ _ e rest hwf hrs hcov
        rw [heq] at hc
        exact ⟨restingOk_setSuccess _ _ _
            (restingOk_setSuccess _ _ _ (restingOk_tail _ _ _ _ e rest hwf hrs)),
          covered_finish _ _ _ _ _ _ (hasOrder_setSuccess _ _ _ _ _ _ hord) (by omega) hc⟩
      · rw [matcherLoop_cons_continue ord e rest qty σ hq hgt]
        refine ih (qty - e.quantity) _ (by simp) (by simp) ?_ (by omega) (by omega) ?_ ?_
        · simpa using hasOrder_setSuccess _ _ e.orderId _ _ _ hord
        · simp only [orderBook_setOppQueue, orderBook_markSuccess, restingAt_setOppQueue,
            restingAt_markSuccess, resting_mk_false]
          exact restingOk_setSuccess _ _ _ (restingOk_tail _ _ _ _ e rest hwf hrs)
        · simp only [orderBook_setOppQueue, orderBook_markSuccess, restingAt_setOppQueue,
            restingAt_markSuccess, resting_mk_false]
          exact covered_consume _ _ _ _ _ _ e rest hwf hrs hcov
    · rw [matcherLoop_of_nonpos ord (e :: rest) qty σ hq]
      exact ⟨hwf, covered_mono _ _ _ _ hcov (allowance_nonneg _ _ _ _ h0 h1)⟩

theorem matcher_covered (σ : State) (ord : Order)
    (hord : HasOrder σ.orderBook ord.orderId ord.stock ord.side ord.quantity)
    (hQ : 0 < ord.quantity)
    (hwf : RestingOk σ.orderBook (restingAt σ))
    (hcov : Covered σ.orderBook (restingAt σ)
      (allowance ord.stock ord.side ord.quantity ord.quantity)) :
    RestingOk (matcher σ ord).2.orderBook (restingAt (matcher σ ord).2) ∧
      Covered (matcher σ ord).2.orderBook (restingAt (matcher σ ord).2) (fun _ _ => 0) := by
  cases hlo : (oppQueue σ ord).isLeftOver with
  | false =>
    rw [matcher_of_no_leftover σ ord hQ hlo]
    exact matcherLoop_covered ord _ _ σ rfl hlo hord (le_of_lt hQ) (le_refl _) hwf hcov
  | true =>
    have hrs := restingAt_opp_of_leftover σ ord hlo
    obtain ⟨ol, hol, _, _, hlpos, hlle⟩ :=
      hwf ord.stock ord.side.flip (oppQueue σ ord).leftOver
        (by rw [hrs]; exact List.mem_cons_self _ _)
    rw [matcher_of_leftover σ ord hlo]
    by_cases h0 : 0 ≤ ord.quantity - (oppQueue σ ord).leftOver.quantity
    · have hc := covered_consume _ _ _ _ _ _ _ _ hwf hrs hcov
      have hw := restingOk_setSuccess _ _ (oppQueue σ ord).leftOver.orderId
        (restingOk_tail _ _ _ _ _ _ hwf hrs)
      by_cases h1 : ord.quantity - (oppQueue σ ord).leftOver.quantity = 0
      · simp only [h1, le_refl, if_true, orderBook_setOppQueue, orderBook_markSuccess,
          restingAt_setOppQueue, restingAt_markSuccess, resting_mk_false]
        rw [h1] at hc
        exact ⟨restingOk_setSuccess _ _ _ hw,
          covered_finish _ _ _ _ _ _ (hasOrder_setSuccess _ _ _ _ _ _ hord) (le_of_lt hQ) hc⟩
      · simp only [h0, h1, if_true, if_false, orderBook_setOppQueue, orderBook_markSuccess,
          restingAt_setOppQueue, restingAt_markSuccess, resting_mk_false]
        exact ⟨hw, covered_mono _ _ _ _ hc
          (allowance_nonneg _ _ _ _ h0 (by omega))⟩
    · simp only [h0, if_false, orderBook_setOppQueue, orderBook_markSuccess,
        restingAt_setOppQueue, restingAt_markSuccess]
      rw [resting_mk_true]
      have hneg : (ord.quantity - (oppQueue σ ord).leftOver.quantity) * (-1) =
          (oppQueue σ ord).leftOver.quantity - ord.quantity := by ring
      simp only [hneg]
      exact ⟨restingOk_setSuccess _ _ _
          (restingOk_reduce _ _ _ _ ord.quantity _ _ hwf hrs (le_of_lt hQ) (by omega)),
        covered_reduce _ _ _ _ _ _ _ _ _ hwf hrs hord (le_of_lt hQ) (le_refl _) hcov⟩


/-! ## What `matcher` never changes -/

theorem identities_setSuccess (book : List Order) (i : Nat) :
    identities (setSuccess book i) = identities book := by
  induction book generalizing i with
  | nil => rfl
  | cons o os ih =>
    cases i with
    | zero => simp [setSuccess, identities]
    | succ n =>
      have := ih n
      simp only [identities] at this
      simp [setSuccess, identities, this]

theorem matcherLoop_frame (ord : Order) :
    ∀ (fifo : List QuantityTrader) (qty : Int) (σ : State),
      (matcherLoop ord fifo qty σ).2.orderCount = σ.orderCount ∧
      identities (matcherLoop ord fifo qty σ).2.orderBook = identities σ.orderBook := by
  intro fifo
  induction fifo with
  | nil =>
    intro qty σ
    by_cases hq : 0 < qty
    · rw [matcherLoop_nil ord qty σ hq]; simp
    · rw [matcherLoop_of_nonpos ord [] qty σ hq]; simp
  | cons e rest ih =>
    intro qty σ
    by_cases hq : 0 < qty
    · rcases lt_trichotomy (qty - e.quantity) 0 with hlt | heq | hgt
      · rw [matcherLoop_cons_over ord e rest qty σ hq hlt]
        simp [identities_setSuccess]
      · rw [matcherLoop_cons_exact ord e rest qty σ hq heq]
        simp [identities_setSuccess]
      · rw [matcherLoop_cons_continue ord e rest qty σ hq hgt]
        obtain ⟨h1, h2⟩ := ih (qty - e.quantity)
          (setOppQueue (markSuccess σ e.orderId) ord
            { oppQueue σ ord with stockQueue := rest, isLeftOver := false })
        rw [h1, h2]
        simp [identities_setSuccess]
    · rw [matcherLoop_of_nonpos ord (e :: rest) qty σ hq]; simp

theorem matcher_frame (σ : State) (ord : Order) :
    (matcher σ ord).2.orderCount = σ.orderCount ∧
    identities (matcher σ ord).2.orderBook = identities σ.orderBook := by
  cases hlo : (oppQueue σ ord).isLeftOver with
  | false =>
    rw [matcher_of_no_leftover_general σ ord hlo]
    split
    · simp
    · exact matcherLoop_frame ord _ _ σ
  | true =>
    rw [matcher_of_leftover σ ord hlo]
    split
    · split <;> simp [identities_setSuccess]
    · simp [identities_setSuccess]

theorem length_of_identities_eq {a b : List Order} (h : identities a = identities b) :
    a.length = b.length := by
  have := congrArg List.length h
  simpa [identities] using this

theorem arrivedQty_identities (book : List Order) (s : String) (d : TradeSide) :
    arrivedQty (identities book) s d = arrivedQty book s d := by
  simp [arrivedQty, identities, Function.comp_def]

theorem arrivedQty_matcher (σ : State) (ord : Order) (s : String) (d : TradeSide) :
    arrivedQty (matcher σ ord).2.orderBook s d = arrivedQty σ.orderBook s d := by
  rw [← arrivedQty_identities, (matcher_frame σ ord).2, arrivedQty_identities]

/-! ## One order after the other -/

theorem processOrder_eq (σ : State) (ord : Order) :
    processOrder σ ord =
      (matcher (enterOrder σ ord).2 { ord with orderId := σ.orderCount }).2 := by
  simp [processOrder, enterOrder]

theorem restingAt_enterOrder (σ : State) (ord : Order) :
    restingAt (enterOrder σ ord).2 = restingAt σ := by
  funext s d
  cases d <;> rfl

theorem arrivedQty_processOrder (σ : State) (ord : Order) (s : String) (d : TradeSide) :
    arrivedQty (processOrder σ ord).orderBook s d =
      arrivedQty σ.orderBook s d + arrivedQty [ord] s d := by
  rw [processOrder_eq, arrivedQty_matcher]
  simp [enterOrder, arrivedQty]

theorem arrivedQty_processAll (ords : List Order) (σ : State) (s : String) (d : TradeSide) :
    arrivedQty (processAll σ ords).orderBook s d =
      arrivedQty σ.orderBook s d + arrivedQty ords s d := by
  induction ords generalizing σ with
  | nil => simp [processAll, arrivedQty]
  | cons o os ih =>
    have h := ih (processOrder σ o)
    simp only [processAll, List.foldl_cons] at h ⊢
    rw [h, arrivedQty_processOrder]
    have : arrivedQty (o :: os) s d = arrivedQty [o] s d + arrivedQty os s d :=
      arrivedQty_append [o] os s d
    rw [this]
    ring

theorem runInv_initState : RunInv initState := by
  refine ⟨rfl, ?_, ?_⟩
  · intro s d e he
    cases d <;> simp [restingAt, queueAt, initState, emptyQueue, resting] at he
  · intro s d
    cases d <;>
      simp [restingAt, queueAt, initState, emptyQueue, resting, successQty, arrivedQty,
        TradeSide.flip]

theorem runInv_processOrder (σ : State) (ord : Order) (hinv : RunInv σ)
    (hopen : ord.status = OrderStatus.Open) (hQ : 0 < ord.quantity) :
    RunInv (processOrder σ ord) := by
  obtain ⟨hcount, hwf, hcov⟩ := hinv
  rw [processOrder_eq]
  have hbook : (enterOrder σ ord).2.orderBook =
      σ.orderBook ++ [{ ord with orderId := σ.orderCount }] := rfl
  have hord : HasOrder (enterOrder σ ord).2.orderBook σ.orderCount ord.stock ord.side
      ord.quantity := by
    refine ⟨{ ord with orderId := σ.orderCount }, ?_, rfl, rfl, rfl⟩
    rw [hbook, hcount]
    simp
  have hin : ∀ s d, ∀ e ∈ restingAt σ s d, e.orderId < σ.orderBook.length := by
    intro s d e he
    obtain ⟨o, ho, _⟩ := hwf s d e he
    rcases Nat.lt_or_ge e.orderId σ.orderBook.length with h | h
    · exact h
    · rw [List.getElem?_eq_none h] at ho
      cases ho
  have hwf1 : RestingOk (enterOrder σ ord).2.orderBook (restingAt (enterOrder σ ord).2) := by
    rw [restingAt_enterOrder, hbook]
    intro s d e he
    obtain ⟨o, ho, rest⟩ := hwf s d e he
    exact ⟨o, by rw [List.getElem?_append_left (hin s d e he)]; exact ho, rest⟩
  have hcov1 : Covered (enterOrder σ ord).2.orderBook (restingAt (enterOrder σ ord).2)
      (allowance ord.stock ord.side ord.quantity ord.quantity) := by
    rw [restingAt_enterOrder, hbook]
    intro s d
    have h := hcov s d
    beta_reduce at h
    rw [successQty_append_open _ _ _ _ (by simp [hopen]),
      filledQty_append_ledger _ _ _ (hin s d), arrivedQty_append, arrivedQty_singleton]
    simp only [allowance]
    by_cases hs : s = ord.stock
    · subst hs
      by_cases hd : d = ord.side
      · subst hd
        simp only [if_true, sub_self]
        split <;> omega
      · have hd1 : d = ord.side.flip := TradeSide.eq_flip_of_ne hd
        subst hd1
        rw [TradeSide.flip_flip] at h
        simp only [if_true, hd, if_false, TradeSide.flip_flip, and_self]
        omega
    · have hs1 : ¬ ord.stock = s := fun h => hs h.symm
      simp only [hs, if_false, hs1, false_and]
      omega
  obtain ⟨hw, hc⟩ := matcher_covered (enterOrder σ ord).2 { ord with orderId := σ.orderCount }
    hord hQ hwf1 hcov1
  obtain ⟨f1, f2⟩ := matcher_frame (enterOrder σ ord).2 { ord with orderId := σ.orderCount }
  refine ⟨?_, hw, hc⟩
  rw [f1, length_of_identities_eq f2, hbook]
  simp [enterOrder, hcount]

theorem runInv_processAll (ords : List Order) (σ : State) (hinv : RunInv σ)
    (hopen : ∀ o ∈ ords, o.status = OrderStatus.Open)
    (hpos : ∀ o ∈ ords, 0 < o.quantity) : RunInv (processAll σ ords) := by
  induction ords generalizing σ with
  | nil => exact hinv
  | cons o os ih =>
    simp only [processAll, List.foldl_cons]
    exact ih (processOrder σ o)
      (runInv_processOrder σ o hinv (hopen o (List.mem_cons_self _ _))
        (hpos o (List.mem_cons_self _ _)))
      (fun x hx => hopen x (List.mem_cons_of_mem _ hx))
      (fun x hx => hpos x (List.mem_cons_of_mem _ hx))

/-- C3: no over-fill.  For every sequence of Open orders with positive quantities, appended
and matched in append order from the empty state, after every initial part of the
sequence, for every stock and side, the quantities of the orders of that side marked
Success sum to at most the quantities of the orders of the other side that have arrived. -/
theorem no_over_fill (ords : List Order)
    (hopen : ∀ o ∈ ords, o.status = OrderStatus.Open)
    (hpos : ∀ o ∈ ords, 0 < o.quantity)
    (k : Nat) (s : String) (d : TradeSide) :
    successQty (processAll initState (ords.take k)).orderBook s d ≤
      arrivedQty (ords.take k) s d.flip := by
  have hinv := runInv_processAll (ords.take k) initState runInv_initState
    (fun o ho => hopen o (List.mem_of_mem_take ho))
    (fun o ho => hpos o (List.mem_of_mem_take ho))
  obtain ⟨_, hwf, hcov⟩ := hinv
  have h := hcov s d
  beta_reduce at h
  have h1 := filledQty_nonneg _ _ hwf s d
  have h2 := totalQty_nonneg _ _ hwf s d.flip
  rw [arrivedQty_processAll] at h
  have h3 : arrivedQty initState.orderBook s d.flip = 0 := rfl
  omega

theorem no_over_fill_witness :
    successQty (processAll initState
        ([newOrder "T1" "X" 10 TradeSide.Buy, newOrder "T2" "X" 4 TradeSide.Sell,
          newOrder "T3" "X" 6 TradeSide.Sell].take 2)).orderBook "X" TradeSide.Sell = 4 ∧
    successQty (processAll initState
        ([newOrder "T1" "X" 10 TradeSide.Buy, newOrder "T2" "X" 4 TradeSide.Sell,
          newOrder "T3" "X" 6 TradeSide.Sell].take 2)).orderBook "X" TradeSide.Sell ≤
      arrivedQty ([newOrder "T1" "X" 10 TradeSide.Buy, newOrder "T2" "X" 4 TradeSide.Sell,
          newOrder "T3" "X" 6 TradeSide.Sell].take 2) "X" TradeSide.Sell.flip :=
  ⟨by decide,
   no_over_fill [newOrder "T1" "X" 10 TradeSide.Buy, newOrder "T2" "X" 4 TradeSide.Sell,
      newOrder "T3" "X" 6 TradeSide.Sell] (by decide) (by decide) 2 "X" TradeSide.Sell⟩


/-! ## The calls a run makes -/

theorem length_processOrder (σ : State) (ord : Order) :
    (processOrder σ ord).orderBook.length = σ.orderBook.length + 1 := by
  rw [processOrder_eq, length_of_identities_eq (matcher_frame _ _).2]
  simp [enterOrder]

theorem length_processAll (ords : List Order) (σ : State) :
    (processAll σ ords).orderBook.length = σ.orderBook.length + ords.length := by
  induction ords generalizing σ with
  | nil => rfl
  | cons o os ih =>
    have h := ih (processOrder σ o)
    simp only [processAll, List.foldl_cons] at h ⊢
    rw [h, length_processOrder]
    simp only [List.length_cons]
    omega

theorem arriving_snd (earlier : List Order) (last : Order) :
    (arriving earlier last).2 =
      { last with orderId := (processAll initState earlier).orderCount } := by
  have hlen := length_processAll earlier initState
  have h0 : initState.orderBook.length = 0 := rfl
  rw [h0, Nat.zero_add] at hlen
  simp [arriving, enterOrder, ← hlen]

/-- In a run of Open orders with positive quantities, the order passed to `matcher` is the
Open ledger entry at its own id, and every resting entry of its opposing queue refers to
an older order: the premises of `matcher_status` hold at every call. -/
theorem arriving_is_fresh (earlier : List Order) (last : Order)
    (hopen : ∀ o ∈ earlier, o.status = OrderStatus.Open)
    (hpos : ∀ o ∈ earlier, 0 < o.quantity) :
    (arriving earlier last).1.orderBook[(arriving earlier last).2.orderId]? =
      some (arriving earlier last).2 ∧
    ∀ e ∈ resting (oppQueue (arriving earlier last).1 (arriving earlier last).2),
      e.orderId < (arriving earlier last).2.orderId := by
  obtain ⟨hcount, hwf, _⟩ := runInv_processAll earlier initState runInv_initState hopen hpos
  rw [arriving_snd]
  constructor
  · simp [arriving, enterOrder, hcount]
  · intro e he
    rw [oppQueue_eq_queueAt] at he
    have he1 : e ∈ restingAt (processAll initState earlier) last.stock last.side.flip := by
      cases hs : last.side <;> rw [hs] at he <;> exact he
    obtain ⟨o, ho, _⟩ := hwf _ _ e he1
    show e.orderId < (processAll initState earlier).orderCount
    rw [hcount]
    rcases Nat.lt_or_ge e.orderId (processAll initState earlier).orderBook.length with h | h
    · exact h
    · rw [List.getElem?_eq_none h] at ho
      cases ho


/-! ## The ledger after a call is the ledger before it with the call's writes -/

@[simp] theorem markIds_nil (book : List Order) : markIds book [] = book := rfl

@[simp] theorem markIds_cons (book : List Order) (i : Nat) (is : List Nat) :
    markIds book (i :: is) = markIds (setSuccess book i) is := rfl

theorem markIds_append (book : List Order) (is js : List Nat) :
    markIds book (is ++ js) = markIds (markIds book is) js := by
  simp [markIds, List.foldl_append]

theorem markAll_eq_markIds (book : List Order) (es : List QuantityTrader) :
    markAll book es = markIds book (es.map (fun e => e.orderId)) := by
  induction es generalizing book with
  | nil => rfl
  | cons e es ih => simp [ih]

theorem orderBook_matcherLoop (ord : Order) :
    ∀ (fifo : List QuantityTrader) (qty : Int) (σ : State),
      (matcherLoop ord fifo qty σ).2.orderBook =
        markIds σ.orderBook (matcherLoopMarks ord fifo qty) := by
  intro fifo
  induction fifo with
  | nil =>
    intro qty σ
    by_cases hq : 0 < qty
    · rw [matcherLoop_nil ord qty σ hq]; simp [matcherLoopMarks]
    · rw [matcherLoop_of_nonpos ord [] qty σ hq]; simp [matcherLoopMarks]
  | cons e rest ih =>
    intro qty σ
    by_cases hq : 0 < qty
    · rcases lt_trichotomy (qty - e.quantity) 0 with hlt | heq | hgt
      · rw [matcherLoop_cons_over ord e rest qty σ hq hlt]
        have h2 : ¬ 0 ≤ qty - e.quantity := not_le.mpr hlt
        simp [matcherLoopMarks, hq, h2]
      · rw [matcherLoop_cons_exact ord e rest qty σ hq heq]
        simp [matcherLoopMarks, hq, heq]
      · rw [matcherLoop_cons_continue ord e rest qty σ hq hgt, ih]
        have h2 : 0 ≤ qty - e.quantity := le_of_lt hgt
        have h3 : ¬ qty - e.quantity = 0 := ne_of_gt hgt
        simp [matcherLoopMarks, hq, h2, h3]
    · rw [matcherLoop_of_nonpos ord (e :: rest) qty σ hq]
      simp [matcherLoopMarks, hq]

theorem matcherMarks_of_no_leftover (σ : State) (ord : Order)
    (hlo : (oppQueue σ ord).isLeftOver = false) :
    matcherMarks σ ord = matcherLoopMarks ord (oppQueue σ ord).stockQueue ord.quantity := by
  unfold matcherMarks
  cases hq : (oppQueue σ ord).stockQueue with
  | nil => simp [hlo, hq, matcherLoopMarks]
  | cons e rest => simp [hlo, hq]

theorem matcherMarks_of_leftover (σ : State) (ord : Order)
    (hlo : (oppQueue σ ord).isLeftOver = true) :
    matcherMarks σ ord =
      if 0 ≤ ord.quantity - (oppQueue σ ord).leftOver.quantity then
        if ord.quantity - (oppQueue σ ord).leftOver.quantity = 0 then
          [(oppQueue σ ord).leftOver.orderId, ord.orderId]
        else [(oppQueue σ ord).leftOver.orderId]
      else [ord.orderId] := by
  simp [matcherMarks, hlo]

theorem orderBook_matcher (σ : State) (ord : Order) :
    (matcher σ ord).2.orderBook = markIds σ.orderBook (matcherMarks σ ord) := by
  cases hlo : (oppQueue σ ord).isLeftOver with
  | false =>
    rw [matcher_of_no_leftover_general σ ord hlo, matcherMarks_of_no_leftover σ ord hlo]
    split
    · rename_i hq
      simp [hq, matcherLoopMarks]
    · exact orderBook_matcherLoop ord _ _ σ
  | true =>
    rw [matcher_of_leftover σ ord hlo, matcherMarks_of_leftover σ ord hlo]
    split
    · split <;> simp
    · simp

/-! ## What the writes do to a status -/

theorem setSuccess_of_success (book : List Order) (i : Nat)
    (h : statusAt book i = some OrderStatus.Success) : setSuccess book i = book := by
  induction book generalizing i with
  | nil => rfl
  | cons o os ih =>
    cases i with
    | zero =>
      have hs : o.status = OrderStatus.Success := by simpa [statusAt] using h
      cases o
      simp only at hs
      simp [setSuccess, hs]
    | succ n =>
      have hn : statusAt os n = some OrderStatus.Success := by simpa [statusAt] using h
      simp [setSuccess, ih n hn]

theorem setSuccess_idem (book : List Order) (i : Nat) :
    setSuccess (setSuccess book i) i = setSuccess book i := by
  induction book generalizing i with
  | nil => rfl
  | cons o os ih =>
    cases i with
    | zero => simp [setSuccess]
    | succ n => simp [setSuccess, ih n]

theorem statusAt_setSuccess_cases (book : List Order) (i j : Nat) :
    statusAt (setSuccess book i) j = statusAt book j ∨
      (statusAt book j = some OrderStatus.Open ∧
        statusAt (setSuccess book i) j = some OrderStatus.Success) := by
  rw [statusAt_setSuccess]
  by_cases h : j = i
  · simp only [h, if_true]
    cases hs : statusAt book i with
    | none => left; rfl
    | some st =>
      cases st with
      | Open => right; exact ⟨rfl, rfl⟩
      | Success => left; rfl
  · simp [h]

theorem statusAt_markIds_cases (ids : List Nat) (book : List Order) (j : Nat) :
    statusAt (markIds book ids) j = statusAt book j ∨
      (statusAt book j = some OrderStatus.Open ∧
        statusAt (markIds book ids) j = some OrderStatus.Success) := by
  induction ids generalizing book with
  | nil => left; rfl
  | cons i is ih =>
    rw [markIds_cons]
    rcases ih (setSuccess book i) with h | ⟨h1, h2⟩
    · rw [h]; exact statusAt_setSuccess_cases book i j
    · rcases statusAt_setSuccess_cases book i j with g | ⟨g1, g2⟩
      · right; exact ⟨g ▸ h1, h2⟩
      · rw [g2] at h1; cases h1

theorem statusAt_markIds_of_success (ids : List Nat) (book : List Order) (j : Nat)
    (h : statusAt book j = some OrderStatus.Success) :
    statusAt (markIds book ids) j = some OrderStatus.Success := by
  rcases statusAt_markIds_cases ids book j with g | ⟨g1, _⟩
  · rw [g]; exact h
  · rw [h] at g1; cases g1

theorem statusAt_markIds_of_not_mem (ids : List Nat) (book : List Order) (j : Nat)
    (h : j ∉ ids) : statusAt (markIds book ids) j = statusAt book j := by
  induction ids generalizing book with
  | nil => rfl
  | cons i is ih =>
    rw [markIds_cons, ih _ (fun hj => h (List.mem_cons_of_mem _ hj))]
    exact statusAt_setSuccess_of_ne book (fun hji => h (hji ▸ List.mem_cons_self _ _))

theorem statusAt_markIds_of_mem (ids : List Nat) (book : List Order) (j : Nat)
    (h : j ∈ ids) (hlt : j < book.length) :
    statusAt (markIds book ids) j = some OrderStatus.Success := by
  induction ids generalizing book with
  | nil => cases h
  | cons i is ih =>
    rw [markIds_cons]
    rcases List.mem_cons.mp h with h1 | h1
    · subst h1
      exact statusAt_markIds_of_success _ _ _ (statusAt_setSuccess_self _ _ hlt)
    · exact ih _ h1 (by simpa using hlt)

/-- C16: for every state and every call of `matcher`, the ledger keeps its length and every
entry keeps its orderId, trader, stock, quantity and side (`identities` resets the status
only); a status either stays or goes from Open to Success, so a Success order stays
Success; the write `status = Success` on a Success order changes nothing and writing
twice is writing once; and `enterOrder` changes no existing ledger entry. -/
theorem matcher_changes_status_only (σ : State) (ord : Order) :
    (matcher σ ord).2.orderBook.length = σ.orderBook.length ∧
    identities (matcher σ ord).2.orderBook = identities σ.orderBook ∧
    (∀ i, statusAt (matcher σ ord).2.orderBook i = statusAt σ.orderBook i ∨
      (statusAt σ.orderBook i = some OrderStatus.Open ∧
        statusAt (matcher σ ord).2.orderBook i = some OrderStatus.Success)) ∧
    (∀ i, statusAt σ.orderBook i = some OrderStatus.Success →
      statusAt (matcher σ ord).2.orderBook i = some OrderStatus.Success) ∧
    (∀ (book : List Order) (i : Nat), statusAt book i = some OrderStatus.Success →
      setSuccess book i = book) ∧
    (∀ (book : List Order) (i : Nat), setSuccess (setSuccess book i) i = setSuccess book i) ∧
    (∀ (o : Order) (i : Nat), i < σ.orderBook.length →
      (enterOrder σ o).2.orderBook[i]? = σ.orderBook[i]?) := by
  refine ⟨length_of_identities_eq (matcher_frame σ ord).2, (matcher_frame σ ord).2, ?_, ?_,
    setSuccess_of_success, setSuccess_idem, ?_⟩
  · intro i
    rw [orderBook_matcher]
    exact statusAt_markIds_cases _ _ i
  · intro i h
    rw [orderBook_matcher]
    exact statusAt_markIds_of_success _ _ i h
  · intro o i hi
    simp [enterOrder, List.getElem?_append_left hi]


/-! ## What a call leaves alone -/

theorem queueAt_pushOwn (σ : State) (ord : Order) (qt : QuantityTrader) (s : String)
    (d : TradeSide) :
    queueAt (pushOwn σ ord qt) s d =
      if s = ord.stock ∧ d = ord.side then
        { queueAt σ s d with stockQueue := (queueAt σ s d).stockQueue ++ [qt] }
      else queueAt σ s d := by
  simp only [pushOwn, queueAt_setOwnQueue, ownQueue_eq_queueAt]
  split
  · rename_i h
    rw [h.1, h.2]
  · rfl

theorem matcherLoop_queueAt_other_stock (ord : Order) :
    ∀ (fifo : List QuantityTrader) (qty : Int) (σ : State) (s : String) (d : TradeSide),
      s ≠ ord.stock → queueAt (matcherLoop ord fifo qty σ).2 s d = queueAt σ s d := by
  intro fifo
  induction fifo with
  | nil =>
    intro qty σ s d hs
    by_cases hq : 0 < qty
    · rw [matcherLoop_nil ord qty σ hq]; simp [queueAt_pushOwn, hs]
    · rw [matcherLoop_of_nonpos ord [] qty σ hq]
  | cons e rest ih =>
    intro qty σ s d hs
    by_cases hq : 0 < qty
    · rcases lt_trichotomy (qty - e.quantity) 0 with hlt | heq | hgt
      · rw [matcherLoop_cons_over ord e rest qty σ hq hlt]
        simp [queueAt_setOppQueue, queueAt_markSuccess, hs]
      · rw [matcherLoop_cons_exact ord e rest qty σ hq heq]
        simp [queueAt_setOppQueue, queueAt_markSuccess, hs]
      · rw [matcherLoop_cons_continue ord e rest qty σ hq hgt, ih _ _ s d hs]
        simp [queueAt_setOppQueue, queueAt_markSuccess, hs]
    · rw [matcherLoop_of_nonpos ord (e :: rest) qty σ hq]

theorem matcherLoop_own_slot (ord : Order) :
    ∀ (fifo : List QuantityTrader) (qty : Int) (σ : State),
      (ownQueue (matcherLoop ord fifo qty σ).2 ord).isLeftOver = (ownQueue σ ord).isLeftOver ∧
      (ownQueue (matcherLoop ord fifo qty σ).2 ord).leftOver = (ownQueue σ ord).leftOver := by
  intro fifo
  induction fifo with
  | nil =>
    intro qty σ
    by_cases hq : 0 < qty
    · rw [matcherLoop_nil ord qty σ hq]; simp
    · rw [matcherLoop_of_nonpos ord [] qty σ hq]; simp
  | cons e rest ih =>
    intro qty σ
    by_cases hq : 0 < qty
    · rcases lt_trichotomy (qty - e.quantity) 0 with hlt | heq | hgt
      · rw [matcherLoop_cons_over ord e rest qty σ hq hlt]; simp
      · rw [matcherLoop_cons_exact ord e rest qty σ hq heq]; simp
      · rw [matcherLoop_cons_continue ord e rest qty σ hq hgt]
        obtain ⟨h1, h2⟩ := ih (qty - e.quantity)
          (setOppQueue (markSuccess σ e.orderId) ord
            { oppQueue σ ord with stockQueue := rest, isLeftOver := false })
        rw [h1, h2]
        simp
    · rw [matcherLoop_of_nonpos ord (e :: rest) qty σ hq]; simp

theorem mem_matcherLoopMarks (ord : Order) :
    ∀ (fifo : List QuantityTrader) (qty : Int) (i : Nat),
      i ∈ matcherLoopMarks ord fifo qty → i = ord.orderId ∨ ∃ e ∈ fifo, e.orderId = i := by
  intro fifo
  induction fifo with
  | nil => intro qty i h; simp [matcherLoopMarks] at h
  | cons e rest ih =>
    intro qty i h
    unfold matcherLoopMarks at h
    split at h
    · split at h
      · split at h
        · simp only [List.mem_cons, List.mem_singleton, List.not_mem_nil, or_false] at h
          rcases h with h | h
          · exact Or.inr ⟨e, List.mem_cons_self _ _, h.symm⟩
          · exact Or.inl h
        · rcases List.mem_cons.mp h with h | h
          · exact Or.inr ⟨e, List.mem_cons_self _ _, h.symm⟩
          · rcases ih _ i h with g | ⟨x, hx, g⟩
            · exact Or.inl g
            · exact Or.inr ⟨x, List.mem_cons_of_mem _ hx, g⟩
      · exact Or.inl (by simpa using h)
    · cases h

theorem mem_matcherMarks (σ : State) (ord : Order) (i : Nat) (h : i ∈ matcherMarks σ ord) :
    i = ord.orderId ∨ ∃ e ∈ resting (oppQueue σ ord), e.orderId = i := by
  cases hlo : (oppQueue σ ord).isLeftOver with
  | false =>
    rw [matcherMarks_of_no_leftover σ ord hlo] at h
    rw [resting_of_no_leftover _ hlo]
    exact mem_matcherLoopMarks ord _ _ i h
  | true =>
    rw [matcherMarks_of_leftover σ ord hlo] at h
    rw [resting_of_leftover _ hlo]
    split at h
    · split at h
      · simp only [List.mem_cons, List.mem_singleton, List.not_mem_nil, or_false] at h
        rcases h with h | h
        · exact Or.inr ⟨_, List.mem_cons_self _ _, h.symm⟩
        · exact Or.inl h
      · exact Or.inr ⟨_, List.mem_cons_self _ _, (by simpa using h : i = _).symm⟩
    · exact Or.inl (by simpa using h)

theorem matcher_own_slot (σ : State) (ord : Order) :
    (ownQueue (matcher σ ord).2 ord).isLeftOver = (ownQueue σ ord).isLeftOver ∧
    (ownQueue (matcher σ ord).2 ord).leftOver = (ownQueue σ ord).leftOver := by
  cases hlo : (oppQueue σ ord).isLeftOver with
  | false =>
    rw [matcher_of_no_leftover_general σ ord hlo]
    split
    · simp
    · exact matcherLoop_own_slot ord _ _ σ
  | true =>
    rw [matcher_of_leftover σ ord hlo]
    split
    · split <;> simp
    · simp

theorem matcher_queueAt_other_stock (σ : State) (ord : Order) (s : String) (d : TradeSide)
    (hs : s ≠ ord.stock) : queueAt (matcher σ ord).2 s d = queueAt σ s d := by
  cases hlo : (oppQueue σ ord).isLeftOver with
  | false =>
    rw [matcher_of_no_leftover_general σ ord hlo]
    split
    · simp [queueAt_pushOwn, hs]
    · exact matcherLoop_queueAt_other_stock ord _ _ σ s d hs
  | true =>
    rw [matcher_of_leftover σ ord hlo]
    split
    · split <;> simp [queueAt_setOppQueue, queueAt_markSuccess, hs]
    · simp [queueAt_setOppQueue, queueAt_markSuccess, hs]

/-- C17: for every call of `matcher` on an order of stock `s`: every queue of every other
stock is unchanged (a queue never touched is the default, empty queue); the leftover slot
(flag and entry) of the incoming order's own-side queue is unchanged; and the status of
every order other than the incoming order and the orders the leftover (when present) or
the FIFO entries of the opposing queue refer to is unchanged. -/
theorem matcher_frame_effect (σ : State) (ord : Order) :
    (∀ s d, s ≠ ord.stock → queueAt (matcher σ ord).2 s d = queueAt σ s d) ∧
    (ownQueue (matcher σ ord).2 ord).isLeftOver = (ownQueue σ ord).isLeftOver ∧
    (ownQueue (matcher σ ord).2 ord).leftOver = (ownQueue σ ord).leftOver ∧
    (∀ i, i ≠ ord.orderId → (∀ e ∈ resting (oppQueue σ ord), e.orderId ≠ i) →
      statusAt (matcher σ ord).2.orderBook i = statusAt σ.orderBook i) := by
  refine ⟨fun s d hs => matcher_queueAt_other_stock σ ord s d hs, (matcher_own_slot σ ord).1,
    (matcher_own_slot σ ord).2, ?_⟩
  intro i hi hne
  rw [orderBook_matcher]
  apply statusAt_markIds_of_not_mem
  intro hmem
  rcases mem_matcherMarks σ ord i hmem with h | ⟨e, he, h⟩
  · exact hi h
  · exact hne e he h

/-- C12: a queue has one leftover slot, so at most one leftover rests ahead of its FIFO;
and in every call of `matcher` that finds a leftover on the opposing queue, no entry is
popped from that queue's FIFO (the FIFO after the call is the FIFO before it), whether the
leftover is still present afterwards or not; it is cleared only in a call that also marks
its order Success. -/
theorem matcher_leftover_first (σ : State) (ord : Order)
    (hlo : (oppQueue σ ord).isLeftOver = true) :
    (∀ q : ConcurrentStockQueue, (resting q).length ≤ q.stockQueue.length + 1) ∧
    (oppQueue (matcher σ ord).2 ord).stockQueue = (oppQueue σ ord).stockQueue ∧
    ((oppQueue (matcher σ ord).2 ord).isLeftOver = true →
      (oppQueue (matcher σ ord).2 ord).stockQueue = (oppQueue σ ord).stockQueue) ∧
    ((oppQueue (matcher σ ord).2 ord).isLeftOver = false →
      (oppQueue σ ord).leftOver.orderId ∈ matcherMarks σ ord ∧
      ((oppQueue σ ord).leftOver.orderId < σ.orderBook.length →
        statusAt (matcher σ ord).2.orderBook (oppQueue σ ord).leftOver.orderId =
          some OrderStatus.Success)) := by
  have hfifo : (oppQueue (matcher σ ord).2 ord).stockQueue = (oppQueue σ ord).stockQueue := by
    rw [matcher_of_leftover σ ord hlo]
    split
    · split <;> simp
    · simp
  refine ⟨?_, hfifo, fun _ => hfifo, ?_⟩
  · intro q
    unfold resting
    split <;> simp
  · intro hclear
    have hmem : (oppQueue σ ord).leftOver.orderId ∈ matcherMarks σ ord := by
      rw [matcherMarks_of_leftover σ ord hlo]
      rw [matcher_of_leftover σ ord hlo] at hclear
      split
      · split <;> simp
      · rename_i h0
        simp [h0] at hclear
    refine ⟨hmem, fun hlt => ?_⟩
    rw [orderBook_matcher]
    exact statusAt_markIds_of_mem _ _ _ hmem hlt

theorem matcher_leftover_first_witness :
    (oppQueue
        (arriving [newOrder "T1" "X" 10 TradeSide.Buy, newOrder "T2" "X" 5 TradeSide.Buy,
          newOrder "T3" "X" 4 TradeSide.Sell] (newOrder "T4" "X" 8 TradeSide.Sell)).1
        (arriving [newOrder "T1" "X" 10 TradeSide.Buy, newOrder "T2" "X" 5 TradeSide.Buy,
          newOrder "T3" "X" 4 TradeSide.Sell] (newOrder "T4" "X" 8 TradeSide.Sell)).2).stockQueue =
      [{ quantity := 5, orderId := 1 }] ∧
    (oppQueue (matcher
        (arriving [newOrder "T1" "X" 10 TradeSide.Buy, newOrder "T2" "X" 5 TradeSide.Buy,
          newOrder "T3" "X" 4 TradeSide.Sell] (newOrder "T4" "X" 8 TradeSide.Sell)).1
        (arriving [newOrder "T1" "X" 10 TradeSide.Buy, newOrder "T2" "X" 5 TradeSide.Buy,
          newOrder "T3" "X" 4 TradeSide.Sell] (newOrder "T4" "X" 8 TradeSide.Sell)).2).2
        (arriving [newOrder "T1" "X" 10 TradeSide.Buy, newOrder "T2" "X" 5 TradeSide.Buy,
          newOrder "T3" "X" 4 TradeSide.Sell] (newOrder "T4" "X" 8 TradeSide.Sell)).2).stockQueue =
      (oppQueue
        (arriving [newOrder "T1" "X" 10 TradeSide.Buy, newOrder "T2" "X" 5 TradeSide.Buy,
          newOrder "T3" "X" 4 TradeSide.Sell] (newOrder "T4" "X" 8 TradeSide.Sell)).1
        (arriving [newOrder "T1" "X" 10 TradeSide.Buy, newOrder "T2" "X" 5 TradeSide.Buy,
          newOrder "T3" "X" 4 TradeSide.Sell] (newOrder "T4" "X" 8 TradeSide.Sell)).2).stockQueue :=
  ⟨by decide,
   (matcher_leftover_first
      (arriving [newOrder "T1" "X" 10 TradeSide.Buy, newOrder "T2" "X" 5 TradeSide.Buy,
        newOrder "T3" "X" 4 TradeSide.Sell] (newOrder "T4" "X" 8 TradeSide.Sell)).1
      (arriving [newOrder "T1" "X" 10 TradeSide.Buy, newOrder "T2" "X" 5 TradeSide.Buy,
        newOrder "T3" "X" 4 TradeSide.Sell] (newOrder "T4" "X" 8 TradeSide.Sell)).2
      (by decide)).2.1⟩


/-! ## Order ids are ledger positions -/

theorem identities_append (xs ys : List Order) :
    identities (xs ++ ys) = identities xs ++ identities ys := by
  simp [identities]

@[simp] theorem length_identities (book : List Order) :
    (identities book).length = book.length := by
  simp [identities]

@[simp] theorem length_numberFrom (n : Nat) (os : List Order) :
    (numberFrom n os).length = os.length := by
  induction os generalizing n with
  | nil => rfl
  | cons o os ih => simp [numberFrom, ih]

theorem numberFrom_append (n : Nat) (xs ys : List Order) :
    numberFrom n (xs ++ ys) = numberFrom n xs ++ numberFrom (n + xs.length) ys := by
  induction xs generalizing n with
  | nil => simp [numberFrom]
  | cons x xs ih =>
    have h := ih (n + 1)
    rw [show n + 1 + xs.length = n + (xs.length + 1) by omega] at h
    show numberFrom n (x :: (xs ++ ys)) = numberFrom n (x :: xs) ++ _
    simp only [numberFrom, List.cons_append, List.length_cons, h]

theorem orderId_numberFrom (n : Nat) (os : List Order) (k : Nat) (o : Order)
    (h : (numberFrom n os)[k]? = some o) : o.orderId = n + k := by
  induction os generalizing n k with
  | nil => simp [numberFrom] at h
  | cons x xs ih =>
    cases k with
    | zero =>
      simp only [numberFrom, List.getElem?_cons_zero, Option.some.injEq] at h
      rw [← h]
      rfl
    | succ m =>
      simp only [numberFrom, List.getElem?_cons_succ] at h
      rw [ih (n + 1) m h]
      omega

theorem orderId_of_identities_eq {a b : List Order} (h : identities a = identities b)
    (k : Nat) (o : Order) (ho : a[k]? = some o) :
    ∃ o1, b[k]? = some o1 ∧ o1.orderId = o.orderId := by
  have h1 : (identities a)[k]? = some { o with status := OrderStatus.Open } := by
    simp [identities, ho]
  rw [h] at h1
  simp only [identities, List.getElem?_map, Option.map_eq_some'] at h1
  obtain ⟨o1, ho1, heq⟩ := h1
  refine ⟨o1, ho1, ?_⟩
  have := congrArg Order.orderId heq
  simpa using this

theorem applyCalls_numbered (cs : List Call) :
    ∀ (σ : State) (done : List Order),
      σ.orderCount = σ.orderBook.length →
      identities σ.orderBook = identities (numberFrom 0 done) →
      (applyCalls σ cs).orderCount = (applyCalls σ cs).orderBook.length ∧
      identities (applyCalls σ cs).orderBook =
        identities (numberFrom 0 (done ++ enteredOrders cs)) := by
  induction cs with
  | nil =>
    intro σ done h1 h2
    simpa [applyCalls, enteredOrders] using ⟨h1, h2⟩
  | cons c cs ih =>
    intro σ done h1 h2
    have hlen : σ.orderBook.length = done.length := by
      have := congrArg List.length h2
      simpa using this
    cases c with
    | enter ord =>
      have := ih (enterOrder σ ord).2 (done ++ [ord])
        (by simp [enterOrder, h1])
        (by
          simp only [enterOrder, identities_append, numberFrom_append, h2, h1, hlen]
          simp [numberFrom, identities])
      simpa [applyCalls, applyCall, enteredOrders] using this
    | matching ord =>
      obtain ⟨f1, f2⟩ := matcher_frame σ ord
      have := ih (matcher σ ord).2 done
        (by rw [f1, h1, length_of_identities_eq f2])
        (by rw [f2, h2])
      simpa [applyCalls, applyCall, enteredOrders] using this

/-- C13: after any sequence of `enterOrder` calls interleaved with calls of `matcher`,
starting from the empty ledger with the counter at 0: the counter equals the ledger
length; the ledger holds the orders handed to `enterOrder`, in call order, the `k`-th at
index `k` with `orderId` `k` and its trader, stock, quantity and side as handed in,
whatever `orderId` the caller had put in; so every ledger entry's `orderId` is its index. -/
theorem orderId_is_ledger_index (cs : List Call) :
    (applyCalls initState cs).orderCount = (applyCalls initState cs).orderBook.length ∧
    identities (applyCalls initState cs).orderBook =
      identities (numberFrom 0 (enteredOrders cs)) ∧
    (applyCalls initState cs).orderBook.length = (enteredOrders cs).length ∧
    ∀ (k : Nat) (o : Order),
      (applyCalls initState cs).orderBook[k]? = some o → o.orderId = k := by
  obtain ⟨h1, h2⟩ := applyCalls_numbered cs initState [] rfl rfl
  simp only [List.nil_append] at h2
  refine ⟨h1, h2, ?_, ?_⟩
  · have := congrArg List.length h2
    simpa using this
  · intro k o ho
    obtain ⟨o1, ho1, hid⟩ := orderId_of_identities_eq h2 k o ho
    rw [← hid, orderId_numberFrom 0 _ k o1 ho1]
    omega


/-! ## The cursor, the counter and the ledger in the interleaving -/

theorem exec_nil (s : Sys) : exec [] s = some s := rfl

theorem exec_cons_of_step (a : Action) (as : List Action) (s s1 : Sys)
    (h : step a s = some s1) : exec (a :: as) s = exec as s1 := by
  rw [exec, h]

theorem exec_cons_eq_some (a : Action) (as : List Action) (s t : Sys)
    (h : exec (a :: as) s = some t) : ∃ s1, step a s = some s1 ∧ exec as s1 = some t := by
  cases hs : step a s with
  | none => rw [exec, hs] at h; cases h
  | some s1 => rw [exec, hs] at h; exact ⟨s1, rfl, h⟩

theorem matchedIndices_cons_of_step (a : Action) (as : List Action) (s s1 : Sys)
    (h : step a s = some s1) :
    matchedIndices (a :: as) s = matchedAt a s ++ matchedIndices as s1 := by
  simp only [matchedIndices, h]

/-- What one step does to the cursor, the counter and the ledger length. -/
theorem step_counters (a : Action) (s s1 : Sys) (h : step a s = some s1)
    (hc : s.st.orderCount = s.st.orderBook.length) (hn : s.nextOrder ≤ s.st.orderCount) :
    s1.st.orderCount = s1.st.orderBook.length ∧ s1.nextOrder ≤ s1.st.orderCount ∧
    (a = Action.drainOne → s.nextOrder < s.st.orderCount ∧ s1.nextOrder = s.nextOrder + 1) ∧
    (a ≠ Action.drainOne → s1.nextOrder = s.nextOrder) := by
  cases a with
  | readRecord =>
    simp only [step] at h
    split at h
    · split at h
      · cases h
        refine ⟨?_, ?_, (fun ha => by cases ha), fun _ => rfl⟩
        · simp [enterOrder, hc]
        · show s.nextOrder ≤ s.st.orderCount + 1
          omega
      · cases h
        exact ⟨hc, hn, (fun ha => by cases ha), fun _ => rfl⟩
    · cases h
  | readerEnd =>
    simp only [step] at h
    split at h
    · cases h; exact ⟨hc, hn, (fun ha => by cases ha), fun _ => rfl⟩
    · cases h
  | wake =>
    simp only [step] at h
    split at h
    · cases h; exact ⟨hc, hn, (fun ha => by cases ha), fun _ => rfl⟩
    · cases h
  | drainOne =>
    simp only [step] at h
    split at h
    · rename_i hen
      split at h
      · cases h
        rename_i ord hord
        obtain ⟨f1, f2⟩ := matcher_frame s.st ord
        refine ⟨?_, ?_, fun _ => ⟨hen.2, rfl⟩, fun hne => absurd rfl hne⟩
        · show (matcher s.st ord).2.orderCount = (matcher s.st ord).2.orderBook.length
          rw [f1, length_of_identities_eq f2]
          exact hc
        · show s.nextOrder + 1 ≤ (matcher s.st ord).2.orderCount
          rw [f1]
          exact hen.2
      · cases h
    · cases h
  | drainEnd =>
    simp only [step] at h
    split at h
    · cases h; exact ⟨hc, hn, (fun ha => by cases ha), fun _ => rfl⟩
    · cases h
  | checkFlag =>
    simp only [step] at h
    split at h
    · cases h; exact ⟨hc, hn, (fun ha => by cases ha), fun _ => rfl⟩
    · cases h

theorem exec_counters (acts : List Action) :
    ∀ (s0 s : Sys), s0.st.orderCount = s0.st.orderBook.length →
      s0.nextOrder ≤ s0.st.orderCount → exec acts s0 = some s →
      s.st.orderCount = s.st.orderBook.length ∧ s.nextOrder ≤ s.st.orderCount ∧
      s0.nextOrder ≤ s.nextOrder ∧
      matchedIndices acts s0 = List.range' s0.nextOrder (s.nextOrder - s0.nextOrder) := by
  induction acts with
  | nil =>
    intro s0 s hc hn h
    cases h
    exact ⟨hc, hn, Nat.le_refl _, by simp [matchedIndices]⟩
  | cons a as ih =>
    intro s0 s hc hn h
    obtain ⟨s1, hs1, hrest⟩ := exec_cons_eq_some a as s0 s h
    obtain ⟨c1, c2, c3, c4⟩ := step_counters a s0 s1 hs1 hc hn
    obtain ⟨r1, r2, r3, r4⟩ := ih s1 s c1 c2 hrest
    rw [matchedIndices_cons_of_step a as s0 s1 hs1, r4]
    refine ⟨r1, r2, ?_, ?_⟩
    · by_cases ha : a = Action.drainOne
      · have := (c3 ha).2; omega
      · have := c4 ha; omega
    · by_cases ha : a = Action.drainOne
      · subst ha
        have h1 := (c3 rfl).2
        rw [h1]
        have h2 : s.nextOrder - s0.nextOrder = (s.nextOrder - (s0.nextOrder + 1)) + 1 := by
          omega
        rw [h2, List.range'_succ]
        rfl
      · have h1 := c4 ha
        rw [h1]
        cases a <;> first | rfl | exact absurd rfl ha


/-! ## What ingestion puts in the ledger -/

theorem stoi_range (t : String) (v : Int) (h : stoi t = some v) :
    -2147483648 ≤ v ∧ v ≤ 2147483647 := by
  unfold stoi at h
  simp only at h
  split_ifs at h with h1 h2 h3
  all_goals first
    | (cases h; done)
    | (injection h with h4; rw [← h4]; assumption)

theorem parseRecord_eq_some (gen : Nat) (r : Record) (ord : Order)
    (h : parseRecord gen r = some ord) :
    ∃ q, stoi r.quantity = some q ∧
      ord = { orderId := gen, trader := r.trader, stock := r.stock, quantity := q,
              side := if r.side.toList.head? = some 'B' then TradeSide.Buy else TradeSide.Sell,
              status := OrderStatus.Open } := by
  unfold parseRecord at h
  cases hq : stoi r.quantity with
  | none => simp [hq] at h
  | some q =>
    simp only [hq, Option.some.injEq] at h
    exact ⟨q, rfl, h.symm⟩

theorem parseRecord_eq_none (gen : Nat) (r : Record) :
    parseRecord gen r = none ↔ stoi r.quantity = none := by
  unfold parseRecord
  cases stoi r.quantity <;> simp

theorem parseRecord_zero_of_some (gen : Nat) (r : Record) (ord : Order)
    (h : parseRecord gen r = some ord) :
    parseRecord 0 r = some { ord with orderId := 0 } ∧ ord.status = OrderStatus.Open := by
  obtain ⟨q, hq, ho⟩ := parseRecord_eq_some gen r ord h
  subst ho
  simp [parseRecord, hq]

theorem parsedOrders_append (xs ys : List Record) :
    parsedOrders (xs ++ ys) = parsedOrders xs ++ parsedOrders ys := by
  simp [parsedOrders, List.filterMap_append]

theorem length_ingested (rs : List Record) : (ingested rs).length = (parsedOrders rs).length := by
  simp [ingested]

theorem ingested_snoc_of_none (done : List Record) (r : Record)
    (h : parseRecord 0 r = none) : ingested (done ++ [r]) = ingested done := by
  simp [ingested, parsedOrders_append, parsedOrders, h]

theorem ingested_snoc_of_some (done : List Record) (r : Record) (ord : Order)
    (h : parseRecord 0 r = some ord) :
    ingested (done ++ [r]) =
      ingested done ++ [{ ord with orderId := (ingested done).length }] := by
  have hp : parsedOrders [r] = [ord] := by simp [parsedOrders, h]
  rw [ingested, parsedOrders_append, hp, numberFrom_append, length_ingested]
  simp [ingested, numberFrom]

theorem status_of_mem_parsedOrders (rs : List Record) (o : Order) (h : o ∈ parsedOrders rs) :
    o.status = OrderStatus.Open ∧ ∃ r ∈ rs, stoi r.quantity = some o.quantity := by
  simp only [parsedOrders, List.mem_filterMap] at h
  obtain ⟨r, hr, hpr⟩ := h
  obtain ⟨q, hq, ho⟩ := parseRecord_eq_some 0 r o hpr
  subst ho
  exact ⟨rfl, r, hr, hq⟩

theorem mem_numberFrom (n : Nat) (os : List Order) (o : Order) (h : o ∈ numberFrom n os) :
    ∃ o1 ∈ os, o.status = o1.status ∧ o.quantity = o1.quantity ∧ o.stock = o1.stock ∧
      o.side = o1.side ∧ o.trader = o1.trader := by
  induction os generalizing n with
  | nil => simp [numberFrom] at h
  | cons x xs ih =>
    simp only [numberFrom, List.mem_cons] at h
    rcases h with h | h
    · subst h
      exact ⟨x, List.mem_cons_self _ _, rfl, rfl, rfl, rfl, rfl⟩
    · obtain ⟨o1, ho1, rest⟩ := ih (n + 1) h
      exact ⟨o1, List.mem_cons_of_mem _ ho1, rest⟩

theorem mem_ingested (rs : List Record) (o : Order) (h : o ∈ ingested rs) :
    o.status = OrderStatus.Open ∧ ∃ r ∈ rs, stoi r.quantity = some o.quantity := by
  obtain ⟨o1, ho1, h1, h2, _⟩ := mem_numberFrom 0 _ o h
  obtain ⟨g1, g2⟩ := status_of_mem_parsedOrders rs o1 ho1
  rw [h1, h2]
  exact ⟨g1, g2⟩

theorem identities_ingested (rs : List Record) : identities (ingested rs) = ingested rs := by
  have key : ∀ l : List Order, (∀ o ∈ l, o.status = OrderStatus.Open) → identities l = l := by
    intro l
    induction l with
    | nil => intro _; rfl
    | cons x xs ih =>
      intro hl
      have hx := hl x (List.mem_cons_self _ _)
      have := ih (fun o ho => hl o (List.mem_cons_of_mem _ ho))
      simp only [identities] at this
      cases x
      simp only at hx
      simp [identities, hx, this]
  exact key _ (fun o ho => (mem_ingested rs o ho).1)

/-- What one step does to the feed, the generator and the ledger. -/
theorem step_ledger (a : Action) (s s1 : Sys) (h : step a s = some s1) (done : List Record)
    (hc : s.st.orderCount = s.st.orderBook.length)
    (hid : identities s.st.orderBook = ingested done)
    (hgen : s.idGen = done.length)
    (hend : s.reader = ReaderPc.Ended → s.feed = []) :
    ∃ more, s.feed = more ++ s1.feed ∧
      identities s1.st.orderBook = ingested (done ++ more) ∧
      s1.idGen = (done ++ more).length ∧
      (s1.reader = ReaderPc.Ended → s1.feed = []) := by
  have hlen : s.st.orderBook.length = (ingested done).length := by
    have := congrArg List.length hid
    simpa using this
  cases a with
  | readRecord =>
    simp only [step] at h
    split at h
    · rename_i r rest hrd hfeed
      split at h
      · rename_i ord hp
        cases h
        obtain ⟨hp0, hst⟩ := parseRecord_zero_of_some _ r ord hp
        refine ⟨[r], by simp [hfeed], ?_, by simp [hgen], ?_⟩
        · show identities (enterOrder s.st ord).2.orderBook = _
          rw [ingested_snoc_of_some done r _ hp0]
          simp only [enterOrder, identities_append, hid, hc, hlen]
          simp [identities, hst]
        · intro he
          rw [hrd] at he
          cases he
      · rename_i hp
        cases h
        have hp0 : parseRecord 0 r = none :=
          (parseRecord_eq_none 0 r).mpr ((parseRecord_eq_none _ r).mp hp)
        refine ⟨[r], by simp [hfeed], ?_, by simp [hgen], ?_⟩
        · rw [ingested_snoc_of_none done r hp0]
          exact hid
        · intro he
          rw [hrd] at he
          cases he
    · cases h
  | readerEnd =>
    simp only [step] at h
    split at h
    · rename_i hrd hfeed
      cases h
      exact ⟨[], by simp, by simpa using hid, by simpa using hgen, fun _ => hfeed⟩
    · cases h
  | wake =>
    simp only [step] at h
    split at h
    · cases h
      exact ⟨[], by simp, by simpa using hid, by simpa using hgen, hend⟩
    · cases h
  | drainOne =>
    simp only [step] at h
    split at h
    · split at h
      · cases h
        rename_i ord hord
        refine ⟨[], by simp, ?_, by simpa using hgen, hend⟩
        show identities (matcher s.st ord).2.orderBook = _
        rw [(matcher_frame s.st ord).2]
        simpa using hid
      · cases h
    · cases h
  | drainEnd =>
    simp only [step] at h
    split at h
    · cases h
      exact ⟨[], by simp, by simpa using hid, by simpa using hgen, hend⟩
    · cases h
  | checkFlag =>
    simp only [step] at h
    split at h
    · cases h
      exact ⟨[], by simp, by simpa using hid, by simpa using hgen, hend⟩
    · cases h

theorem exec_ledger (acts : List Action) :
    ∀ (s0 s : Sys) (done : List Record),
      s0.st.orderCount = s0.st.orderBook.length → s0.nextOrder ≤ s0.st.orderCount →
      identities s0.st.orderBook = ingested done → s0.idGen = done.length →
      (s0.reader = ReaderPc.Ended → s0.feed = []) →
      exec acts s0 = some s →
      ∃ more, s0.feed = more ++ s.feed ∧
        identities s.st.orderBook = ingested (done ++ more) ∧
        s.idGen = (done ++ more).length ∧
        (s.reader = ReaderPc.Ended → s.feed = []) := by
  induction acts with
  | nil =>
    intro s0 s done _ _ hid hgen hend h
    cases h
    exact ⟨[], by simp, by simpa using hid, by simpa using hgen, hend⟩
  | cons a as ih =>
    intro s0 s done hc hn hid hgen hend h
    obtain ⟨s1, hs1, hrest⟩ := exec_cons_eq_some a as s0 s h
    obtain ⟨c1, c2, _, _⟩ := step_counters a s0 s1 hs1 hc hn
    obtain ⟨m1, f1, i1, g1, e1⟩ := step_ledger a s0 s1 hs1 done hc hid hgen hend
    obtain ⟨m2, f2, i2, g2, e2⟩ := ih s1 s (done ++ m1) c1 c2 i1 g1 e1 hrest
    refine ⟨m1 ++ m2, ?_, ?_, ?_, e2⟩
    · rw [f1, f2, List.append_assoc]
    · rw [← List.append_assoc]; exact i2
    · rw [← List.append_assoc]; exact g2

/-- Whatever the records are, the reader gets through them: from a state in which it is
reading, reading every remaining record and then ending is an enabled schedule. -/
theorem reader_runs_to_end (l : List Record) :
    ∀ s : Sys, s.reader = ReaderPc.Reading → s.feed = l →
      ∃ t, exec (List.replicate l.length Action.readRecord ++ [Action.readerEnd]) s = some t ∧
        t.reader = ReaderPc.Ended := by
  induction l with
  | nil =>
    intro s hr hf
    refine ⟨{ s with dataExausted := true, reader := ReaderPc.Ended }, ?_, rfl⟩
    have : step Action.readerEnd s =
        some { s with dataExausted := true, reader := ReaderPc.Ended } := by
      simp [step, hr, hf]
    simp [exec, this]
  | cons r rest ih =>
    intro s hr hf
    cases hp : parseRecord s.idGen r with
    | some ord =>
      have hstep : step Action.readRecord s =
          some { s with st := (enterOrder s.st ord).2, feed := rest, idGen := s.idGen + 1 } := by
        simp [step, hr, hf, hp]
      obtain ⟨t, ht, hte⟩ :=
        ih { s with st := (enterOrder s.st ord).2, feed := rest, idGen := s.idGen + 1 } hr rfl
      exact ⟨t, by
        simp only [List.length_cons, List.replicate_succ, List.cons_append]
        rw [exec_cons_of_step _ _ _ _ hstep]; exact ht, hte⟩
    | none =>
      have hstep : step Action.readRecord s =
          some { s with feed := rest, idGen := s.idGen + 1 } := by
        simp [step, hr, hf, hp]
      obtain ⟨t, ht, hte⟩ := ih { s with feed := rest, idGen := s.idGen + 1 } hr rfl
      exact ⟨t, by
        simp only [List.length_cons, List.replicate_succ, List.cons_append]
        rw [exec_cons_of_step _ _ _ _ hstep]; exact ht, hte⟩


/-! ## Ingestion: the claims -/

theorem initSys_ledger (feed : List Record) (acts : List Action) (s : Sys)
    (h : exec acts (initSys feed) = some s) :
    ∃ consumed, feed = consumed ++ s.feed ∧
      identities s.st.orderBook = ingested consumed ∧
      s.idGen = consumed.length ∧
      (s.reader = ReaderPc.Ended → s.feed = []) := by
  obtain ⟨more, h1, h2, h3, h4⟩ :=
    exec_ledger acts (initSys feed) s [] rfl (Nat.le_refl _) rfl rfl
      (fun he => by cases he) h
  exact ⟨more, h1, by simpa using h2, by simpa using h3, h4⟩

/-- C14 (as the code has it): in every state an interleaving reaches on a feed, the feed
splits into the records read so far and those still to read; the ledger holds, in feed
order and with orderIds `0, 1, 2, ..` equal to their positions, exactly the orders built
from the records read whose quantity text `stoi` converts, each Open when appended; the
reader's id generator counts every record read, skipped ones included.  A record `stoi`
rejects is skipped: the step leaves the ledger as it is and the reader goes on; an order
that is appended gets the ledger length as its id; and the reader always gets to the end of
the feed, where the records read are the whole feed. -/
theorem ingestion_skips_rejected_records (feed : List Record) (acts : List Action) (s : Sys)
    (h : exec acts (initSys feed) = some s) :
    ∃ consumed, feed = consumed ++ s.feed ∧ s.idGen = consumed.length ∧
      identities s.st.orderBook = ingested consumed ∧
      (∀ o ∈ ingested consumed, o.status = OrderStatus.Open) ∧
      (∀ (k : Nat) (o : Order), s.st.orderBook[k]? = some o → o.orderId = k) ∧
      (s.reader = ReaderPc.Ended → consumed = feed) ∧
      (∀ r rest, s.reader = ReaderPc.Reading → s.feed = r :: rest →
        stoi r.quantity = none →
        ∃ t, step Action.readRecord s = some t ∧ t.st.orderBook = s.st.orderBook ∧
          t.feed = rest ∧ t.reader = ReaderPc.Reading ∧ t.idGen = s.idGen + 1) ∧
      (∀ r rest ord, s.reader = ReaderPc.Reading → s.feed = r :: rest →
        parseRecord s.idGen r = some ord →
        ord.status = OrderStatus.Open ∧
        ∃ t, step Action.readRecord s = some t ∧
          t.st.orderBook = s.st.orderBook ++ [{ ord with orderId := s.st.orderBook.length }] ∧
          t.feed = rest ∧ t.idGen = s.idGen + 1) ∧
      (s.reader = ReaderPc.Reading →
        ∃ t, exec (List.replicate s.feed.length Action.readRecord ++ [Action.readerEnd]) s =
            some t ∧ t.reader = ReaderPc.Ended) := by
  obtain ⟨consumed, h1, h2, h3, h4⟩ := initSys_ledger feed acts s h
  obtain ⟨c1, _, _, _⟩ := exec_counters acts (initSys feed) s rfl (Nat.le_refl _) h
  refine ⟨consumed, h1, h3, h2, fun o ho => (mem_ingested consumed o ho).1, ?_, ?_, ?_, ?_, ?_⟩
  · intro k o ho
    have h2i : identities s.st.orderBook = identities (ingested consumed) := by
      rw [identities_ingested]; exact h2
    obtain ⟨o1, ho1, hid⟩ := orderId_of_identities_eq h2i k o ho
    rw [← hid, orderId_numberFrom 0 _ k o1 ho1]
    omega
  · intro he
    rw [h1, h4 he, List.append_nil]
  · intro r rest hr hf hq
    have hp : parseRecord s.idGen r = none := (parseRecord_eq_none _ r).mpr hq
    exact ⟨{ s with feed := rest, idGen := s.idGen + 1 }, by simp [step, hr, hf, hp], rfl, rfl,
      hr, rfl⟩
  · intro r rest ord hr hf hp
    refine ⟨(parseRecord_zero_of_some _ r ord hp).2,
      { s with st := (enterOrder s.st ord).2, feed := rest, idGen := s.idGen + 1 },
      by simp [step, hr, hf, hp], ?_, rfl, rfl⟩
    show (enterOrder s.st ord).2.orderBook = _
    simp [enterOrder, c1]
  · intro hr
    exact reader_runs_to_end s.feed s hr rfl

theorem ingestion_skips_rejected_records_witness :
    ∃ s, exec [Action.readRecord, Action.readRecord, Action.readRecord, Action.readerEnd]
        (initSys feedWithBadRecord) = some s ∧
      s.st.orderBook.map (fun o => (o.orderId, o.trader, o.quantity)) =
        [(0, "T1", 10), (1, "T3", 4)] ∧
      ∃ consumed, feedWithBadRecord = consumed ++ s.feed ∧ s.idGen = consumed.length ∧
        identities s.st.orderBook = ingested consumed :=
  ⟨_, rfl, by decide,
    (ingestion_skips_rejected_records feedWithBadRecord
      [Action.readRecord, Action.readRecord, Action.readRecord, Action.readerEnd] _ rfl).imp
      (fun _ hc => ⟨hc.1, hc.2.1, hc.2.2.1⟩)⟩

/-- C14 as stated fails: the quantity text `12abc` is not numeric, yet `stoi` reads the
number in front of the letters and the record is appended with quantity 12. -/
theorem ingestion_accepts_number_followed_by_text :
    ("12abc".toList.all Char.isDigit = false) ∧
    (exec [Action.readRecord, Action.readerEnd] (initSys trailingTextFeed)).map
        (fun s => s.st.orderBook) =
      some [{ orderId := 0, trader := "T1", stock := "X", quantity := 12,
              side := TradeSide.Buy, status := OrderStatus.Open }] := by
  decide

/-- C18 (as the code has it): in every state an interleaving reaches, every order in the
ledger has a quantity that `stoi` converted from the quantity text of a record of the feed,
so a quantity in the range of `int`, from `-2147483648` to `2147483647`; and reading a
record appends one order when `stoi` converts its quantity text, whatever the sign, and
none when `stoi` rejects it. -/
theorem ledger_quantities_are_stoi_values (feed : List Record) (acts : List Action) (s : Sys)
    (h : exec acts (initSys feed) = some s) :
    (∀ o ∈ s.st.orderBook,
      -2147483648 ≤ o.quantity ∧ o.quantity ≤ 2147483647 ∧
      ∃ r ∈ feed, stoi r.quantity = some o.quantity) ∧
    (∀ r rest, s.reader = ReaderPc.Reading → s.feed = r :: rest →
      ∃ t, step Action.readRecord s = some t ∧
        t.st.orderBook.length =
          s.st.orderBook.length + (if (stoi r.quantity).isSome then 1 else 0)) := by
  obtain ⟨consumed, h1, h2, _, _⟩ := initSys_ledger feed acts s h
  constructor
  · intro o ho
    have hmem : { o with status := OrderStatus.Open } ∈ ingested consumed := by
      rw [← h2]
      exact List.mem_map.mpr ⟨o, ho, rfl⟩
    obtain ⟨_, r, hr, hq⟩ := mem_ingested consumed _ hmem
    have hq1 : stoi r.quantity = some o.quantity := hq
    obtain ⟨g1, g2⟩ := stoi_range _ _ hq1
    exact ⟨g1, g2, r, by rw [h1]; exact List.mem_append_left _ hr, hq1⟩
  · intro r rest hr hf
    cases hp : parseRecord s.idGen r with
    | none =>
      have hq : stoi r.quantity = none := (parseRecord_eq_none _ r).mp hp
      exact ⟨{ s with feed := rest, idGen := s.idGen + 1 }, by simp [step, hr, hf, hp],
        by simp [hq]⟩
    | some ord =>
      obtain ⟨q, hq, _⟩ := parseRecord_eq_some _ r ord hp
      exact ⟨{ s with st := (enterOrder s.st ord).2, feed := rest, idGen := s.idGen + 1 },
        by simp [step, hr, hf, hp], by simp [hq, enterOrder]⟩

theorem ledger_quantities_are_stoi_values_witness :
    ∃ s, exec [Action.readRecord, Action.readerEnd] (initSys negativeFeed) = some s ∧
      ∀ o ∈ s.st.orderBook, -2147483648 ≤ o.quantity ∧ o.quantity ≤ 2147483647 ∧
        ∃ r ∈ negativeFeed, stoi r.quantity = some o.quantity :=
  ⟨_, rfl,
    (ledger_quantities_are_stoi_values negativeFeed [Action.readRecord, Action.readerEnd] _
      rfl).1⟩

/-- C18 as stated fails: the quantity text `-3` parses to a negative number; the record is
not dropped, and the ledger holds an order with quantity `-3`. -/
theorem ingestion_accepts_negative_quantity :
    stoi "-3" = some (-3) ∧
    (exec [Action.readRecord, Action.readerEnd] (initSys negativeFeed)).map
        (fun s => s.st.orderBook) =
      some [{ orderId := 0, trader := "T1", stock := "X", quantity := -3,
              side := TradeSide.Sell, status := OrderStatus.Open }] := by
  decide


/-! ## The effect of a call on the resting entries -/

theorem setResting_setResting (rs : String → TradeSide → List QuantityTrader) (s0 : String)
    (d0 : TradeSide) (a b : List QuantityTrader) :
    setResting (setResting rs s0 d0 a) s0 d0 b = setResting rs s0 d0 b := by
  funext s d
  simp only [setResting]
  split <;> rfl

theorem setResting_eq_self (rs : String → TradeSide → List QuantityTrader) (s0 : String)
    (d0 : TradeSide) (a : List QuantityTrader) (h : rs s0 d0 = a) :
    setResting rs s0 d0 a = rs := by
  funext s d
  simp only [setResting]
  split
  · rename_i hk
    rw [hk.1, hk.2, h]
  · rfl

theorem setResting_own_nil (rs : String → TradeSide → List QuantityTrader) (s0 : String)
    (d0 : TradeSide) (k : List QuantityTrader) :
    setResting (setResting rs s0 d0.flip k) s0 d0 (rs s0 d0 ++ []) =
      setResting rs s0 d0.flip k := by
  apply setResting_eq_self
  rw [setResting_of_ne_side _ _ _ _ _ _ (TradeSide.flip_ne d0).symm, List.append_nil]

@[simp] theorem entryIds_nil : entryIds [] = [] := rfl

@[simp] theorem entryIds_cons (e : QuantityTrader) (es : List QuantityTrader) :
    entryIds (e :: es) = e.orderId :: entryIds es := rfl

theorem entryIds_append (es fs : List QuantityTrader) :
    entryIds (es ++ fs) = entryIds es ++ entryIds fs := by
  simp [entryIds]

theorem mem_entryIds {es : List QuantityTrader} {i : Nat} :
    i ∈ entryIds es ↔ ∃ e ∈ es, e.orderId = i := by
  simp [entryIds]

theorem matcherLoop_effect (ord : Order) :
    ∀ (fifo : List QuantityTrader) (qty : Int) (σ : State),
      (oppQueue σ ord).stockQueue = fifo →
      (oppQueue σ ord).isLeftOver = false →
      0 < qty →
      CallEffect (restingAt σ) (restingAt (matcherLoop ord fifo qty σ).2) ord.stock ord.side
        ord.orderId (matcherLoop ord fifo qty σ).1 (matcherLoopMarks ord fifo qty) := by
  intro fifo
  induction fifo with
  | nil =>
    intro qty σ hfifo hlo hq
    have hrs : restingAt σ ord.stock ord.side.flip = [] := by
      rw [restingAt_opp_of_no_leftover σ ord hlo, hfifo]
    rw [matcherLoop_nil ord qty σ hq]
    refine ⟨[], [], [], [{ quantity := qty, orderId := ord.orderId }], by simp [hrs], rfl, ?_,
      by simp [matcherLoopMarks], Or.inr ⟨rfl, rfl, rfl⟩⟩
    rw [restingAt_pushOwn, setResting_eq_self _ _ _ _ hrs]
  | cons e rest ih =>
    intro qty σ hfifo hlo hq
    have hrs : restingAt σ ord.stock ord.side.flip = e :: rest := by
      rw [restingAt_opp_of_no_leftover σ ord hlo, hfifo]
    have hne : restingAt σ ord.stock ord.side.flip ≠ [] := by rw [hrs]; simp
    rcases lt_trichotomy (qty - e.quantity) 0 with hlt | heq | hgt
    · rw [matcherLoop_cons_over ord e rest qty σ hq hlt]
      have h2 : ¬ 0 ≤ qty - e.quantity := not_le.mpr hlt
      refine ⟨[], e :: rest, { quantity := e.quantity - qty, orderId := e.orderId } :: rest, [],
        by simp [hrs], rfl, ?_, by simp [matcherLoopMarks, hq, h2], Or.inl ⟨rfl, hne⟩⟩
      rw [restingAt_setOppQueue, restingAt_markSuccess, resting_mk_true, setResting_own_nil]
    · rw [matcherLoop_cons_exact ord e rest qty σ hq heq]
      refine ⟨[e], rest, rest, [], by simp [hrs], rfl, ?_,
        by simp [matcherLoopMarks, hq, heq], Or.inl ⟨rfl, hne⟩⟩
      rw [restingAt_setOppQueue, restingAt_markSuccess, restingAt_markSuccess,
        resting_mk_false, setResting_own_nil]
    · rw [matcherLoop_cons_continue ord e rest qty σ hq hgt]
      have h2 : 0 ≤ qty - e.quantity := le_of_lt hgt
      have h3 : ¬ qty - e.quantity = 0 := ne_of_gt hgt
      obtain ⟨consumed, keep, keep1, pushed, g1, g2, g3, g4, g5⟩ :=
        ih (qty - e.quantity)
          (setOppQueue (markSuccess σ e.orderId) ord
            { oppQueue σ ord with stockQueue := rest, isLeftOver := false })
          (by simp) (by simp) hgt
      rw [restingAt_setOppQueue, restingAt_markSuccess, resting_mk_false] at g1 g3 g5
      rw [setResting_same] at g1 g5
      rw [setResting_setResting,
        setResting_of_ne_side _ _ _ _ _ _ (TradeSide.flip_ne ord.side).symm] at g3
      refine ⟨e :: consumed, keep, keep1, pushed, by rw [hrs, g1]; rfl, g2, g3, ?_, ?_⟩
      · simp only [matcherLoopMarks, hq, h2, h3, if_true, if_false, g4, entryIds_cons,
          List.cons_append]
      · rcases g5 with ⟨p1, _⟩ | p
        · exact Or.inl ⟨p1, hne⟩
        · exact Or.inr p

theorem matcher_effect (σ : State) (ord : Order) (hQ : 0 < ord.quantity) :
    CallEffect (restingAt σ) (restingAt (matcher σ ord).2) ord.stock ord.side ord.orderId
      (matcher σ ord).1 (matcherMarks σ ord) := by
  cases hlo : (oppQueue σ ord).isLeftOver with
  | false =>
    rw [matcherMarks_of_no_leftover σ ord hlo, matcher_of_no_leftover σ ord hQ hlo]
    exact matcherLoop_effect ord _ _ σ rfl hlo hQ
  | true =>
    have hrs := restingAt_opp_of_leftover σ ord hlo
    have hne : restingAt σ ord.stock ord.side.flip ≠ [] := by rw [hrs]; simp
    rw [matcherMarks_of_leftover σ ord hlo, matcher_of_leftover σ ord hlo]
    by_cases h0 : 0 ≤ ord.quantity - (oppQueue σ ord).leftOver.quantity
    · by_cases h1 : ord.quantity - (oppQueue σ ord).leftOver.quantity = 0
      · simp only [h1, le_refl, if_true]
        refine ⟨[(oppQueue σ ord).leftOver], (oppQueue σ ord).stockQueue,
          (oppQueue σ ord).stockQueue, [], by simp [hrs], rfl, ?_, by simp, Or.inl ⟨rfl, hne⟩⟩
        rw [restingAt_markSuccess, restingAt_setOppQueue, restingAt_markSuccess,
          resting_mk_false, setResting_own_nil]
      · simp only [h0, h1, if_true, if_false]
        refine ⟨[(oppQueue σ ord).leftOver], (oppQueue σ ord).stockQueue,
          (oppQueue σ ord).stockQueue, [], by simp [hrs], rfl, ?_, by simp, Or.inl ⟨rfl, hne⟩⟩
        rw [restingAt_setOppQueue, restingAt_markSuccess, resting_mk_false, setResting_own_nil]
    · simp only [h0, if_false]
      refine ⟨[], (oppQueue σ ord).leftOver :: (oppQueue σ ord).stockQueue,
        { quantity := (ord.quantity - (oppQueue σ ord).leftOver.quantity) * (-1),
          orderId := (oppQueue σ ord).leftOver.orderId } :: (oppQueue σ ord).stockQueue, [],
        by simp [hrs], rfl, ?_, by simp, Or.inl ⟨rfl, hne⟩⟩
      rw [restingAt_setOppQueue, restingAt_markSuccess, resting_mk_true, setResting_own_nil]


/-! ## The invariants of a run under the effect of a call -/

theorem uncrossed_side (rs : String → TradeSide → List QuantityTrader) (h : Uncrossed rs)
    (s : String) (d : TradeSide) : rs s d = [] ∨ rs s d.flip = [] := by
  cases d with
  | Buy => exact h s
  | Sell => exact (h s).symm

theorem uncrossed_of_side (rs : String → TradeSide → List QuantityTrader) (s : String)
    (d : TradeSide) (h : rs s d = [] ∨ rs s d.flip = []) :
    rs s TradeSide.Buy = [] ∨ rs s TradeSide.Sell = [] := by
  cases d with
  | Buy => exact h
  | Sell => exact h.symm

theorem entryIds_eq_nil {es : List QuantityTrader} (h : entryIds es = []) : es = [] := by
  cases es with
  | nil => rfl
  | cons e es => simp at h

theorem effect_own (rs rs1 : String → TradeSide → List QuantityTrader) (s0 : String)
    (d0 : TradeSide) (k p : List QuantityTrader)
    (h : rs1 = setResting (setResting rs s0 d0.flip k) s0 d0 (rs s0 d0 ++ p)) :
    rs1 s0 d0 = rs s0 d0 ++ p ∧ rs1 s0 d0.flip = k ∧
    (∀ s d, ¬ (s = s0 ∧ d = d0) → ¬ (s = s0 ∧ d = d0.flip) → rs1 s d = rs s d) := by
  subst h
  refine ⟨setResting_same _ _ _ _, ?_, ?_⟩
  · rw [setResting_of_ne_side _ _ _ _ _ _ (TradeSide.flip_ne d0), setResting_same]
  · intro s d h1 h2
    simp [setResting, h1, h2]

theorem effect_other_stock (rs rs1 : String → TradeSide → List QuantityTrader) (s0 : String)
    (d0 : TradeSide) (k p : List QuantityTrader)
    (h : rs1 = setResting (setResting rs s0 d0.flip k) s0 d0 (rs s0 d0 ++ p))
    (s : String) (d : TradeSide) (hs : s ≠ s0) : rs1 s d = rs s d :=
  (effect_own rs rs1 s0 d0 k p h).2.2 s d (fun hk => hs hk.1) (fun hk => hs hk.1)

theorem uncrossed_of_effect (rs rs1 : String → TradeSide → List QuantityTrader) (s0 : String)
    (d0 : TradeSide) (i : Nat) (res : Bool) (marks : List Nat)
    (hu : Uncrossed rs) (he : CallEffect rs rs1 s0 d0 i res marks) : Uncrossed rs1 := by
  obtain ⟨consumed, keep, keep1, pushed, g1, g2, g3, _, g5⟩ := he
  obtain ⟨e1, e2, _⟩ := effect_own rs rs1 s0 d0 keep1 pushed g3
  intro s
  by_cases hs : s = s0
  · subst hs
    apply uncrossed_of_side rs1 s d0
    rcases g5 with ⟨p1, p2⟩ | ⟨_, p2, _⟩
    · left
      rcases uncrossed_side rs hu s d0 with h | h
      · rw [e1, h, p1]; rfl
      · exact absurd h p2
    · right
      rw [e2]
      apply entryIds_eq_nil
      rw [g2, p2]
      rfl
  · rw [effect_other_stock rs rs1 s0 d0 keep1 pushed g3 s _ hs,
      effect_other_stock rs rs1 s0 d0 keep1 pushed g3 s _ hs]
    exact hu s

theorem same_queue_of_same_id (book : List Order)
    (rs : String → TradeSide → List QuantityTrader) (hok : RestingOk book rs)
    {s s1 : String} {d d1 : TradeSide} {e e1 : QuantityTrader}
    (he : e ∈ rs s d) (he1 : e1 ∈ rs s1 d1) (hid : e.orderId = e1.orderId) :
    s = s1 ∧ d = d1 := by
  obtain ⟨o, ho, h1, h2, _⟩ := hok s d e he
  obtain ⟨o1, ho1, g1, g2, _⟩ := hok s1 d1 e1 he1
  rw [hid, ho1] at ho
  cases ho
  exact ⟨h1.symm.trans g1, h2.symm.trans g2⟩

/-- The ids written by a call are those of Open orders, each written once. -/
theorem marks_open_of_effect (book : List Order)
    (rs rs1 : String → TradeSide → List QuantityTrader) (s0 : String) (d0 : TradeSide)
    (i : Nat) (res : Bool) (marks : List Nat)
    (hopen : RestingOpen book rs) (hdis : RestingDistinct rs)
    (hfresh : ∀ s d, ∀ e ∈ rs s d, e.orderId ≠ i)
    (hi : statusAt book i = some OrderStatus.Open)
    (he : CallEffect rs rs1 s0 d0 i res marks) :
    marks.Nodup ∧ ∀ m ∈ marks, statusAt book m = some OrderStatus.Open := by
  obtain ⟨consumed, keep, keep1, pushed, g1, _, _, g4, _⟩ := he
  have hsub : ∀ c ∈ consumed, c ∈ rs s0 d0.flip := by
    intro c hc; rw [g1]; exact List.mem_append_left _ hc
  have hnd : (entryIds consumed).Nodup := by
    have := hdis s0 d0.flip
    rw [g1, entryIds_append] at this
    exact (List.nodup_append.mp this).1
  have hni : i ∉ entryIds consumed := by
    intro hmem
    obtain ⟨c, hc, hid⟩ := mem_entryIds.mp hmem
    exact hfresh _ _ c (hsub c hc) hid
  subst g4
  constructor
  · cases res with
    | false => simpa using hnd
    | true =>
      simp only [if_true]
      rw [List.nodup_append]
      refine ⟨hnd, List.nodup_singleton i, ?_⟩
      intro a ha hb
      rw [List.mem_singleton] at hb
      exact hni (hb ▸ ha)
  · intro m hm
    rcases List.mem_append.mp hm with hm | hm
    · obtain ⟨c, hc, hid⟩ := mem_entryIds.mp hm
      rw [← hid]
      exact hopen _ _ c (hsub c hc)
    · cases res with
      | false => simp at hm
      | true =>
        simp only [if_true, List.mem_singleton] at hm
        rw [hm]; exact hi

theorem restingOpen_of_effect (book : List Order)
    (rs rs1 : String → TradeSide → List QuantityTrader) (s0 : String) (d0 : TradeSide)
    (i : Nat) (res : Bool) (marks : List Nat)
    (hok : RestingOk book rs) (hopen : RestingOpen book rs) (hdis : RestingDistinct rs)
    (hfresh : ∀ s d, ∀ e ∈ rs s d, e.orderId ≠ i)
    (hi : statusAt book i = some OrderStatus.Open)
    (he : CallEffect rs rs1 s0 d0 i res marks) :
    RestingOpen (markIds book marks) rs1 ∧ RestingDistinct rs1 := by
  obtain ⟨consumed, keep, keep1, pushed, g1, g2, g3, g4, g5⟩ := he
  obtain ⟨e1, e2, e3⟩ := effect_own rs rs1 s0 d0 keep1 pushed g3
  have hsub : ∀ c ∈ consumed, c ∈ rs s0 d0.flip := by
    intro c hc; rw [g1]; exact List.mem_append_left _ hc
  have hkeep : ∀ c ∈ keep, c ∈ rs s0 d0.flip := by
    intro c hc; rw [g1]; exact List.mem_append_right _ hc
  have hnd := hdis s0 d0.flip
  rw [g1, entryIds_append] at hnd
  have hni : i ∉ entryIds consumed := by
    intro hmem
    obtain ⟨c, hc, hid⟩ := mem_entryIds.mp hmem
    exact hfresh _ _ c (hsub c hc) hid
  -- an entry of the queues before the call that is not consumed is not written
  have hkept : ∀ s d, ∀ x ∈ rs s d, x.orderId ∉ entryIds consumed →
      statusAt (markIds book marks) x.orderId = some OrderStatus.Open := by
    intro s d x hx hnc
    rw [statusAt_markIds_of_not_mem]
    · exact hopen s d x hx
    · rw [g4]
      intro hmem
      rcases List.mem_append.mp hmem with hm | hm
      · exact hnc hm
      · cases res with
        | false => simp at hm
        | true =>
          simp only [if_true, List.mem_singleton] at hm
          exact hfresh s d x hx hm
  have hother : ∀ s d, ¬ (s = s0 ∧ d = d0.flip) → ∀ x ∈ rs s d,
      x.orderId ∉ entryIds consumed := by
    intro s d hk x hx hmem
    obtain ⟨c, hc, hid⟩ := mem_entryIds.mp hmem
    obtain ⟨q1, q2⟩ := same_queue_of_same_id book rs hok hx (hsub c hc) hid.symm
    exact hk ⟨q1, q2⟩
  constructor
  · intro s d x hx
    by_cases hk : s = s0 ∧ d = d0
    · obtain ⟨hs, hd⟩ := hk
      subst hs; subst hd
      rw [e1] at hx
      rcases List.mem_append.mp hx with hx | hx
      · exact hkept s d x hx
          (hother s d (fun hk => (TradeSide.flip_ne d) hk.2.symm) x hx)
      · rcases g5 with ⟨p1, _⟩ | ⟨p1, _, p3⟩
        · rw [p1] at hx; cases hx
        · have hxi : x.orderId = i := by
            have : x.orderId ∈ entryIds pushed := mem_entryIds.mpr ⟨x, hx, rfl⟩
            rw [p1] at this
            simpa using this
          rw [hxi, statusAt_markIds_of_not_mem]
          · exact hi
          · rw [g4, p3]
            simpa using hni
    · by_cases hk2 : s = s0 ∧ d = d0.flip
      · obtain ⟨hs, hd⟩ := hk2
        subst hs; subst hd
        rw [e2] at hx
        have hxm : x.orderId ∈ entryIds keep := by
          rw [← g2]; exact mem_entryIds.mpr ⟨x, hx, rfl⟩
        obtain ⟨c, hc, hid⟩ := mem_entryIds.mp hxm
        rw [← hid]
        apply hkept s d0.flip c (hkeep c hc)
        intro hmem
        exact (List.nodup_append.mp hnd).2.2 hmem (mem_entryIds.mpr ⟨c, hc, rfl⟩)
      · rw [e3 s d hk hk2] at hx
        exact hkept s d x hx (hother s d hk2 x hx)
  · intro s d
    by_cases hk : s = s0 ∧ d = d0
    · obtain ⟨hs, hd⟩ := hk
      subst hs; subst hd
      rw [e1, entryIds_append]
      rcases g5 with ⟨p1, _⟩ | ⟨p1, _, _⟩
      · rw [p1]; simpa using hdis s d
      · rw [p1, List.nodup_append]
        refine ⟨hdis s d, List.nodup_singleton i, ?_⟩
        intro a ha hb
        rw [List.mem_singleton] at hb
        obtain ⟨c, hc, hid⟩ := mem_entryIds.mp ha
        exact hfresh s d c hc (hid.trans hb)
    · by_cases hk2 : s = s0 ∧ d = d0.flip
      · obtain ⟨hs, hd⟩ := hk2
        subst hs; subst hd
        rw [e2, g2]
        exact (List.nodup_append.mp hnd).2.1
      · rw [e3 s d hk hk2]
        exact hdis s d


/-! ## The history of pushes -/

theorem history_of_effect (book : List Order)
    (rs rs1 : String → TradeSide → List QuantityTrader) (s0 : String) (d0 : TradeSide)
    (i : Nat) (res : Bool) (marks : List Nat) (hist : String → TradeSide → List Nat)
    (hok : RestingOk book rs) (hh : HistoryOk book rs hist)
    (he : CallEffect rs rs1 s0 d0 i res marks) :
    ∃ pushed, rs1 s0 d0 = rs s0 d0 ++ pushed ∧
      (pushed = [] ∨ entryIds pushed = [i]) ∧
      HistoryOk (markIds book marks) rs1
        (fun s d => hist s d ++ if s = s0 ∧ d = d0 then entryIds pushed else []) := by
  obtain ⟨consumed, keep, keep1, pushed, g1, g2, g3, g4, g5⟩ := he
  obtain ⟨e1, e2, e3⟩ := effect_own rs rs1 s0 d0 keep1 pushed g3
  refine ⟨pushed, e1, ?_, ?_⟩
  · rcases g5 with ⟨p1, _⟩ | ⟨p1, _, _⟩
    · exact Or.inl p1
    · exact Or.inr p1
  · intro s d
    obtain ⟨done, hd1, hd2⟩ := hh s d
    have hkeepS : ∀ x ∈ done, statusAt (markIds book marks) x = some OrderStatus.Success :=
      fun x hx => statusAt_markIds_of_success _ _ _ (hd2 x hx)
    by_cases hk : s = s0 ∧ d = d0
    · have hif : (if s = s0 ∧ d = d0 then entryIds pushed else []) = entryIds pushed :=
        if_pos hk
      obtain ⟨hs, hd⟩ := hk
      subst hs; subst hd
      refine ⟨done, ?_, hkeepS⟩
      show hist s d ++ (if s = s ∧ d = d then entryIds pushed else []) = _
      rw [hif, e1, entryIds_append, hd1, List.append_assoc]
    · have hif : (if s = s0 ∧ d = d0 then entryIds pushed else []) = [] := if_neg hk
      by_cases hk2 : s = s0 ∧ d = d0.flip
      · obtain ⟨hs, hd⟩ := hk2
        subst hs; subst hd
        refine ⟨done ++ entryIds consumed, ?_, ?_⟩
        · show hist s d0.flip ++ (if s = s ∧ d0.flip = d0 then entryIds pushed else []) = _
          rw [hif, List.append_nil, e2, g2, hd1, g1, entryIds_append, List.append_assoc]
        · intro x hx
          rcases List.mem_append.mp hx with hx | hx
          · exact hkeepS x hx
          · obtain ⟨c, hc, hid⟩ := mem_entryIds.mp hx
            obtain ⟨o, ho, _⟩ := hok s d0.flip c (by rw [g1]; exact List.mem_append_left _ hc)
            have hlt : x < book.length := by
              rcases Nat.lt_or_ge x book.length with h | h
              · exact h
              · rw [hid, List.getElem?_eq_none h] at ho
                cases ho
            apply statusAt_markIds_of_mem _ _ _ _ hlt
            rw [g4]
            exact List.mem_append_left _ hx
      · refine ⟨done, ?_, hkeepS⟩
        show hist s d ++ (if s = s0 ∧ d = d0 then entryIds pushed else []) = _
        rw [hif, List.append_nil, e3 s d hk hk2, hd1]

theorem length_resting (q : ConcurrentStockQueue) :
    (resting q).length = q.stockQueue.length + (if q.isLeftOver then 1 else 0) := by
  unfold resting
  split <;> simp

/-- Whether a round pushed the order, read off the resting entries of its own queue. -/
theorem restedNow_eq (σ : State) (ord : Order) (s : String) (d : TradeSide)
    (pushed : List QuantityTrader)
    (hp : restingAt (processOrder σ ord) ord.stock ord.side =
      restingAt (enterOrder σ ord).2 ord.stock ord.side ++ pushed)
    (hpush : pushed = [] ∨ entryIds pushed = [σ.orderCount]) :
    restedNow σ ord s d = if s = ord.stock ∧ d = ord.side then entryIds pushed else [] := by
  unfold restedNow
  by_cases hk : s = ord.stock ∧ d = ord.side
  · obtain ⟨hs, hd⟩ := hk
    subst hs; subst hd
    simp only [true_and, and_self, if_true]
    have hlen := congrArg List.length hp
    simp only [restingAt, length_resting, List.length_append] at hlen
    have hslot : (queueAt (processOrder σ ord) ord.stock ord.side).isLeftOver =
        (queueAt (enterOrder σ ord).2 ord.stock ord.side).isLeftOver := by
      rw [processOrder_eq]
      have := (matcher_own_slot (enterOrder σ ord).2 { ord with orderId := σ.orderCount }).1
      rw [ownQueue_eq_queueAt, ownQueue_eq_queueAt] at this
      exact this
    rw [hslot] at hlen
    rcases hpush with h | h
    · rw [h] at hlen ⊢
      simp only [List.length_nil] at hlen
      have : ¬ (queueAt (enterOrder σ ord).2 ord.stock ord.side).stockQueue.length <
          (queueAt (processOrder σ ord) ord.stock ord.side).stockQueue.length := by omega
      simp [this]
    · have hl : pushed.length = 1 := by
        have := congrArg List.length h
        simpa [entryIds] using this
      rw [hl] at hlen
      have : (queueAt (enterOrder σ ord).2 ord.stock ord.side).stockQueue.length <
          (queueAt (processOrder σ ord) ord.stock ord.side).stockQueue.length := by omega
      simp [this, h]
  · have hk1 : ¬ (ord.stock = s ∧ ord.side = d ∧
        (queueAt (enterOrder σ ord).2 s d).stockQueue.length <
          (queueAt (processOrder σ ord) s d).stockQueue.length) := by
      intro h
      exact hk ⟨h.1.symm, h.2.1.symm⟩
    simp [hk, hk1]

/-! ## One round keeps the invariants -/

theorem statusAt_append_of_lt (book : List Order) (o : Order) (i : Nat)
    (h : i < book.length) : statusAt (book ++ [o]) i = statusAt book i := by
  simp [statusAt, List.getElem?_append_left h]

theorem lt_length_of_statusAt {book : List Order} {i : Nat} {st : OrderStatus}
    (h : statusAt book i = some st) : i < book.length := by
  rcases Nat.lt_or_ge i book.length with hlt | hge
  · exact hlt
  · simp [statusAt, List.getElem?_eq_none hge] at h

theorem restInv_processOrder (σ : State) (ord : Order)
    (hist : String → TradeSide → List Nat) (hinv : RestInv σ)
    (hh : HistoryOk σ.orderBook (restingAt σ) hist)
    (hopen : ord.status = OrderStatus.Open) (hQ : 0 < ord.quantity) :
    RestInv (processOrder σ ord) ∧
    HistoryOk (processOrder σ ord).orderBook (restingAt (processOrder σ ord))
      (fun s d => hist s d ++ restedNow σ ord s d) ∧
    (matcherMarks (enterOrder σ ord).2 { ord with orderId := σ.orderCount }).Nodup ∧
    (∀ m ∈ matcherMarks (enterOrder σ ord).2 { ord with orderId := σ.orderCount },
      statusAt (enterOrder σ ord).2.orderBook m = some OrderStatus.Open) := by
  obtain ⟨hrun, hop, hdis, hun⟩ := hinv
  have hrun1 := runInv_processOrder σ ord hrun hopen hQ
  obtain ⟨hcount, hwf, _⟩ := hrun
  have hbook : (enterOrder σ ord).2.orderBook =
      σ.orderBook ++ [{ ord with orderId := σ.orderCount }] := rfl
  have hin : ∀ s d, ∀ e ∈ restingAt σ s d, e.orderId < σ.orderBook.length := by
    intro s d e he
    exact lt_length_of_statusAt (hop s d e he)
  have hwf1 : RestingOk (enterOrder σ ord).2.orderBook (restingAt σ) := by
    rw [hbook]
    intro s d e he
    obtain ⟨o, ho, rest⟩ := hwf s d e he
    exact ⟨o, by rw [List.getElem?_append_left (hin s d e he)]; exact ho, rest⟩
  have hop1 : RestingOpen (enterOrder σ ord).2.orderBook (restingAt σ) := by
    rw [hbook]
    intro s d e he
    rw [statusAt_append_of_lt _ _ _ (hin s d e he)]
    exact hop s d e he
  have hfresh : ∀ s d, ∀ e ∈ restingAt σ s d, e.orderId ≠ σ.orderCount := by
    intro s d e he
    have := hin s d e he
    omega
  have hi : statusAt (enterOrder σ ord).2.orderBook σ.orderCount =
      some OrderStatus.Open := by
    rw [hbook, hcount]
    simp [statusAt, hopen]
  have hh1 : HistoryOk (enterOrder σ ord).2.orderBook (restingAt σ) hist := by
    intro s d
    obtain ⟨done, h1, h2⟩ := hh s d
    refine ⟨done, h1, fun x hx => ?_⟩
    rw [hbook, statusAt_append_of_lt _ _ _ (lt_length_of_statusAt (h2 x hx))]
    exact h2 x hx
  have heff := matcher_effect (enterOrder σ ord).2 { ord with orderId := σ.orderCount } hQ
  rw [restingAt_enterOrder] at heff
  have hbk := orderBook_matcher (enterOrder σ ord).2 { ord with orderId := σ.orderCount }
  obtain ⟨m1, m2⟩ := marks_open_of_effect _ _ _ _ _ _ _ _ hop1 hdis hfresh hi heff
  obtain ⟨o1, o2⟩ := restingOpen_of_effect _ _ _ _ _ _ _ _ hwf1 hop1 hdis hfresh hi heff
  obtain ⟨pushed, p1, p2, p3⟩ := history_of_effect _ _ _ _ _ _ _ _ hist hwf1 hh1 heff
  rw [← hbk] at o1 p3
  rw [← processOrder_eq] at o1 o2 p1 p3
  refine ⟨⟨hrun1, o1, o2, ?_⟩, ?_, m1, m2⟩
  · have := uncrossed_of_effect _ _ _ _ _ _ _ hun heff
    rw [← processOrder_eq] at this
    exact this
  · have hre : ∀ s d, restedNow σ ord s d =
        if s = ord.stock ∧ d = ord.side then entryIds pushed else [] := by
      intro s d
      apply restedNow_eq σ ord s d pushed _ p2
      rw [restingAt_enterOrder]
      exact p1
    have hfun : (fun s d => hist s d ++ restedNow σ ord s d) =
        (fun s d => hist s d ++ if s = ord.stock ∧ d = ord.side then entryIds pushed else []) := by
      funext s d
      rw [hre s d]
    rw [hfun]
    exact p3

theorem restInv_initState : RestInv initState := by
  refine ⟨runInv_initState, ?_, ?_, ?_⟩
  · intro s d e he
    cases d <;> simp [restingAt, queueAt, initState, emptyQueue, resting] at he
  · intro s d
    cases d <;> simp [restingAt, queueAt, initState, emptyQueue, resting, entryIds]
  · intro s
    left
    rfl

theorem restInv_processAll (ords : List Order) :
    ∀ (σ : State) (hist : String → TradeSide → List Nat), RestInv σ →
      HistoryOk σ.orderBook (restingAt σ) hist →
      (∀ o ∈ ords, o.status = OrderStatus.Open) → (∀ o ∈ ords, 0 < o.quantity) →
      RestInv (processAll σ ords) ∧
      HistoryOk (processAll σ ords).orderBook (restingAt (processAll σ ords))
        (fun s d => hist s d ++ restedIds s d σ ords) := by
  induction ords with
  | nil =>
    intro σ hist hinv hh _ _
    refine ⟨hinv, ?_⟩
    simpa [processAll, restedIds] using hh
  | cons o os ih =>
    intro σ hist hinv hh hopen hpos
    obtain ⟨h1, h2, _, _⟩ := restInv_processOrder σ o hist hinv hh
      (hopen o (List.mem_cons_self _ _)) (hpos o (List.mem_cons_self _ _))
    obtain ⟨r1, r2⟩ := ih (processOrder σ o) _ h1 h2
      (fun x hx => hopen x (List.mem_cons_of_mem _ hx))
      (fun x hx => hpos x (List.mem_cons_of_mem _ hx))
    refine ⟨r1, ?_⟩
    have hfun : (fun s d => hist s d ++ restedIds s d σ (o :: os)) =
        (fun s d => (hist s d ++ restedNow σ o s d) ++ restedIds s d (processOrder σ o) os) := by
      funext s d
      simp [restedIds, List.append_assoc]
    rw [hfun]
    exact r2


/-! ## Runs of Open orders with positive quantities -/

theorem resting_eq_nil_iff (q : ConcurrentStockQueue) :
    resting q = [] ↔ q.stockQueue = [] ∧ q.isLeftOver = false := by
  unfold resting
  cases q.isLeftOver <;> simp

theorem restInv_run (ords : List Order)
    (hopen : ∀ o ∈ ords, o.status = OrderStatus.Open) (hpos : ∀ o ∈ ords, 0 < o.quantity) :
    RestInv (processAll initState ords) ∧
    HistoryOk (processAll initState ords).orderBook (restingAt (processAll initState ords))
      (fun s d => restedIds s d initState ords) := by
  have hh0 : HistoryOk initState.orderBook (restingAt initState) (fun _ _ => []) := by
    intro s d
    refine ⟨[], ?_, fun i hi => by cases hi⟩
    cases d <;> rfl
  obtain ⟨h1, h2⟩ := restInv_processAll ords initState (fun _ _ => []) restInv_initState hh0
    hopen hpos
  refine ⟨h1, ?_⟩
  simpa using h2

/-! ## `matcher` reads the ledger nowhere: queues and result depend on the queues only -/

theorem oppQueue_congr {a b : State} (ord : Order) (h1 : a.buyMap = b.buyMap)
    (h2 : a.sellMap = b.sellMap) : oppQueue a ord = oppQueue b ord := by
  unfold oppQueue
  rw [h1, h2]

theorem ownQueue_congr {a b : State} (ord : Order) (h1 : a.buyMap = b.buyMap)
    (h2 : a.sellMap = b.sellMap) : ownQueue a ord = ownQueue b ord := by
  unfold ownQueue
  rw [h1, h2]

theorem setOppQueue_maps {a b : State} (ord : Order) (q : ConcurrentStockQueue)
    (h1 : a.buyMap = b.buyMap) (h2 : a.sellMap = b.sellMap) :
    (setOppQueue a ord q).buyMap = (setOppQueue b ord q).buyMap ∧
    (setOppQueue a ord q).sellMap = (setOppQueue b ord q).sellMap := by
  unfold setOppQueue
  split <;> simp [h1, h2]

theorem pushOwn_maps {a b : State} (ord : Order) (qt : QuantityTrader)
    (h1 : a.buyMap = b.buyMap) (h2 : a.sellMap = b.sellMap) :
    (pushOwn a ord qt).buyMap = (pushOwn b ord qt).buyMap ∧
    (pushOwn a ord qt).sellMap = (pushOwn b ord qt).sellMap := by
  simp only [pushOwn, ownQueue_congr ord h1 h2]
  unfold setOwnQueue
  split <;> simp [h1, h2]

theorem matcherLoop_maps (ord : Order) :
    ∀ (fifo : List QuantityTrader) (qty : Int) (a b : State),
      a.buyMap = b.buyMap → a.sellMap = b.sellMap →
      (matcherLoop ord fifo qty a).1 = (matcherLoop ord fifo qty b).1 ∧
      (matcherLoop ord fifo qty a).2.buyMap = (matcherLoop ord fifo qty b).2.buyMap ∧
      (matcherLoop ord fifo qty a).2.sellMap = (matcherLoop ord fifo qty b).2.sellMap := by
  intro fifo
  induction fifo with
  | nil =>
    intro qty a b h1 h2
    by_cases hq : 0 < qty
    · rw [matcherLoop_nil ord qty a hq, matcherLoop_nil ord qty b hq]
      exact ⟨rfl, pushOwn_maps ord _ h1 h2⟩
    · rw [matcherLoop_of_nonpos ord [] qty a hq, matcherLoop_of_nonpos ord [] qty b hq]
      exact ⟨rfl, h1, h2⟩
  | cons e rest ih =>
    intro qty a b h1 h2
    have hc := oppQueue_congr ord h1 h2
    by_cases hq : 0 < qty
    · rcases lt_trichotomy (qty - e.quantity) 0 with hlt | heq | hgt
      · rw [matcherLoop_cons_over ord e rest qty a hq hlt,
          matcherLoop_cons_over ord e rest qty b hq hlt]
        exact ⟨rfl, setOppQueue_maps (a := markSuccess a ord.orderId)
          (b := markSuccess b ord.orderId) ord _ h1 h2⟩
      · rw [matcherLoop_cons_exact ord e rest qty a hq heq,
          matcherLoop_cons_exact ord e rest qty b hq heq, hc]
        exact ⟨rfl, setOppQueue_maps (a := markSuccess (markSuccess a e.orderId) ord.orderId)
          (b := markSuccess (markSuccess b e.orderId) ord.orderId) ord _ h1 h2⟩
      · rw [matcherLoop_cons_continue ord e rest qty a hq hgt,
          matcherLoop_cons_continue ord e rest qty b hq hgt, hc]
        have hm := setOppQueue_maps (a := markSuccess a e.orderId)
          (b := markSuccess b e.orderId) ord
          { oppQueue b ord with stockQueue := rest, isLeftOver := false } h1 h2
        exact ih _ _ _ hm.1 hm.2
    · rw [matcherLoop_of_nonpos ord _ qty a hq, matcherLoop_of_nonpos ord _ qty b hq]
      exact ⟨rfl, h1, h2⟩

theorem matcher_maps {a b : State} (ord : Order) (h1 : a.buyMap = b.buyMap)
    (h2 : a.sellMap = b.sellMap) :
    (matcher a ord).1 = (matcher b ord).1 ∧
    (matcher a ord).2.buyMap = (matcher b ord).2.buyMap ∧
    (matcher a ord).2.sellMap = (matcher b ord).2.sellMap := by
  have hc := oppQueue_congr ord h1 h2
  cases hlo : (oppQueue a ord).isLeftOver with
  | false =>
    have hlob : (oppQueue b ord).isLeftOver = false := by rw [← hc]; exact hlo
    rw [matcher_of_no_leftover_general a ord hlo, matcher_of_no_leftover_general b ord hlob,
      ← hc]
    by_cases hq : (oppQueue a ord).stockQueue = []
    · rw [if_pos hq, if_pos hq]
      exact ⟨rfl, pushOwn_maps ord _ h1 h2⟩
    · rw [if_neg hq, if_neg hq]
      exact matcherLoop_maps ord _ _ a b h1 h2
  | true =>
    have hlob : (oppQueue b ord).isLeftOver = true := by rw [← hc]; exact hlo
    rw [matcher_of_leftover a ord hlo, matcher_of_leftover b ord hlob, ← hc]
    by_cases h0 : 0 ≤ ord.quantity - (oppQueue a ord).leftOver.quantity
    · by_cases h3 : ord.quantity - (oppQueue a ord).leftOver.quantity = 0
      · rw [if_pos h0, if_pos h3, if_pos h0, if_pos h3]
        exact ⟨rfl, setOppQueue_maps
          (a := markSuccess a (oppQueue a ord).leftOver.orderId)
          (b := markSuccess b (oppQueue a ord).leftOver.orderId) ord _ h1 h2⟩
      · rw [if_pos h0, if_neg h3, if_pos h0, if_neg h3]
        exact ⟨rfl, setOppQueue_maps
          (a := markSuccess a (oppQueue a ord).leftOver.orderId)
          (b := markSuccess b (oppQueue a ord).leftOver.orderId) ord _ h1 h2⟩
    · rw [if_neg h0, if_neg h0]
      exact ⟨rfl, setOppQueue_maps (a := markSuccess a ord.orderId)
        (b := markSuccess b ord.orderId) ord _ h1 h2⟩

theorem matcherMarks_congr {a b : State} (ord : Order) (h1 : a.buyMap = b.buyMap)
    (h2 : a.sellMap = b.sellMap) : matcherMarks a ord = matcherMarks b ord := by
  unfold matcherMarks
  rw [oppQueue_congr ord h1 h2]

theorem setSuccess_append_of_lt (book extra : List Order) (i : Nat) (h : i < book.length) :
    setSuccess (book ++ extra) i = setSuccess book i ++ extra := by
  induction book generalizing i with
  | nil => simp at h
  | cons o os ih =>
    cases i with
    | zero => rfl
    | succ j =>
      have h3 := ih j (by simpa using h)
      show o :: setSuccess (os ++ extra) j = o :: (setSuccess os j ++ extra)
      rw [h3]

theorem markIds_append_of_lt (ids : List Nat) :
    ∀ (book extra : List Order), (∀ m ∈ ids, m < book.length) →
      markIds (book ++ extra) ids = markIds book ids ++ extra := by
  induction ids with
  | nil => intro book extra _; rfl
  | cons i is ih =>
    intro book extra h
    rw [markIds_cons, markIds_cons, setSuccess_append_of_lt book extra i
      (h i (List.mem_cons_self _ _))]
    exact ih _ _ (fun m hm => by
      rw [length_setSuccess]; exact h m (List.mem_cons_of_mem _ hm))

/-- A call of `matcher` on a state whose ledger has further entries behind those the call
writes: same result, same queues, and the further entries are left as they are. -/
theorem matcher_extend (a b : State) (ord : Order) (extra : List Order)
    (h1 : b.buyMap = a.buyMap) (h2 : b.sellMap = a.sellMap)
    (hbook : b.orderBook = a.orderBook ++ extra)
    (hm : ∀ m ∈ matcherMarks a ord, m < a.orderBook.length) :
    (matcher b ord).1 = (matcher a ord).1 ∧
    (matcher b ord).2.buyMap = (matcher a ord).2.buyMap ∧
    (matcher b ord).2.sellMap = (matcher a ord).2.sellMap ∧
    (matcher b ord).2.orderBook = (matcher a ord).2.orderBook ++ extra := by
  obtain ⟨g1, g2, g3⟩ := matcher_maps (a := b) (b := a) ord h1 h2
  refine ⟨g1, g2, g3, ?_⟩
  rw [orderBook_matcher, orderBook_matcher, matcherMarks_congr ord h1 h2, hbook]
  exact markIds_append_of_lt _ _ _ hm

/-! ## Every state of the interleaving is a state of the caught-up run, with a backlog -/

theorem getElem?_numberFrom (n : Nat) (os : List Order) (k : Nat) :
    (numberFrom n os)[k]? = (os[k]?).map (fun o => { o with orderId := n + k }) := by
  induction os generalizing n k with
  | nil => simp [numberFrom]
  | cons x xs ih =>
    cases k with
    | zero => simp [numberFrom]
    | succ m =>
      simp only [numberFrom, List.getElem?_cons_succ]
      rw [ih (n + 1) m]
      have h : n + 1 + m = n + (m + 1) := by omega
      rw [h]

theorem parsedOrders_open_pos (feed consumed rest : List Record)
    (hfeed : feed = consumed ++ rest) (hpos : PositiveFeed feed) :
    ∀ o ∈ parsedOrders consumed, o.status = OrderStatus.Open ∧ 0 < o.quantity := by
  intro o ho
  obtain ⟨h1, r, hr, hq⟩ := status_of_mem_parsedOrders consumed o ho
  exact ⟨h1, hpos r (by rw [hfeed]; exact List.mem_append_left _ hr) _ hq⟩

theorem caughtUp_inv (consumed : List Record) (n : Nat)
    (h : ∀ o ∈ parsedOrders consumed, o.status = OrderStatus.Open ∧ 0 < o.quantity) :
    RestInv (caughtUp consumed n) ∧
    HistoryOk (caughtUp consumed n).orderBook (restingAt (caughtUp consumed n))
      (fun s d => restedIds s d initState ((parsedOrders consumed).take n)) :=
  restInv_run _ (fun o ho => (h o (List.mem_of_mem_take ho)).1)
    (fun o ho => (h o (List.mem_of_mem_take ho)).2)

theorem caughtUp_length (consumed : List Record) (n : Nat)
    (hn : n ≤ (parsedOrders consumed).length) :
    (caughtUp consumed n).orderBook.length = n := by
  unfold caughtUp
  rw [length_processAll, List.length_take]
  have h0 : initState.orderBook.length = 0 := rfl
  rw [h0]
  omega

theorem caughtUp_succ (consumed : List Record) (n : Nat) (x : Order)
    (hx : (parsedOrders consumed)[n]? = some x) :
    caughtUp consumed (n + 1) = processOrder (caughtUp consumed n) x := by
  unfold caughtUp processAll
  rw [List.take_succ, hx, List.foldl_append]
  rfl

theorem caughtUp_snoc (consumed : List Record) (r : Record) (n : Nat)
    (hn : n ≤ (parsedOrders consumed).length) :
    caughtUp (consumed ++ [r]) n = caughtUp consumed n := by
  unfold caughtUp
  rw [parsedOrders_append, List.take_append_of_le_length hn]

theorem simulates_initSys (feed : List Record) : Simulates feed (initSys feed) [] :=
  ⟨rfl, Nat.le_refl _, rfl, rfl, rfl, rfl⟩

theorem step_simulates (feed : List Record) (hpos : PositiveFeed feed) (a : Action)
    (s s1 : Sys) (consumed : List Record) (h : step a s = some s1)
    (hsim : Simulates feed s consumed) : ∃ consumed1, Simulates feed s1 consumed1 := by
  obtain ⟨f1, f2, f3, f4, f5, f6⟩ := hsim
  have hle : s.nextOrder ≤ (parsedOrders consumed).length := by
    rw [← length_ingested, ← f3]; exact f2
  cases a with
  | readRecord =>
    simp only [step] at h
    split at h
    · rename_i r rest hrd hfeed
      split at h
      · rename_i ord hp
        cases h
        have hp0 := (parseRecord_zero_of_some _ r ord hp).1
        refine ⟨consumed ++ [r], ?_, ?_, ?_, ?_, ?_, ?_⟩
        · show feed = (consumed ++ [r]) ++ rest
          rw [f1, hfeed]; simp
        · show s.nextOrder ≤ s.st.orderCount + 1
          omega
        · show s.st.orderCount + 1 = (ingested (consumed ++ [r])).length
          rw [ingested_snoc_of_some consumed r _ hp0, f3]; simp
        · show s.st.buyMap = (caughtUp (consumed ++ [r]) s.nextOrder).buyMap
          rw [caughtUp_snoc consumed r _ hle]; exact f4
        · show s.st.sellMap = (caughtUp (consumed ++ [r]) s.nextOrder).sellMap
          rw [caughtUp_snoc consumed r _ hle]; exact f5
        · show s.st.orderBook ++ [{ ord with orderId := s.st.orderCount }] =
            (caughtUp (consumed ++ [r]) s.nextOrder).orderBook ++
              (ingested (consumed ++ [r])).drop s.nextOrder
          rw [caughtUp_snoc consumed r _ hle, ingested_snoc_of_some consumed r _ hp0,
            List.drop_append_of_le_length (by rw [length_ingested]; exact hle), f6, f3,
            List.append_assoc]
      · rename_i hp
        cases h
        have hq : stoi r.quantity = none := (parseRecord_eq_none _ r).mp hp
        have hp0 : parseRecord 0 r = none := (parseRecord_eq_none _ r).mpr hq
        refine ⟨consumed ++ [r], ?_, f2, ?_, ?_, ?_, ?_⟩
        · show feed = (consumed ++ [r]) ++ rest
          rw [f1, hfeed]; simp
        · show s.st.orderCount = (ingested (consumed ++ [r])).length
          rw [ingested_snoc_of_none consumed r hp0]; exact f3
        · show s.st.buyMap = (caughtUp (consumed ++ [r]) s.nextOrder).buyMap
          rw [caughtUp_snoc consumed r _ hle]; exact f4
        · show s.st.sellMap = (caughtUp (consumed ++ [r]) s.nextOrder).sellMap
          rw [caughtUp_snoc consumed r _ hle]; exact f5
        · show s.st.orderBook = (caughtUp (consumed ++ [r]) s.nextOrder).orderBook ++
              (ingested (consumed ++ [r])).drop s.nextOrder
          rw [caughtUp_snoc consumed r _ hle, ingested_snoc_of_none consumed r hp0]; exact f6
    · cases h
  | readerEnd =>
    simp only [step] at h
    split at h
    · cases h; exact ⟨consumed, f1, f2, f3, f4, f5, f6⟩
    · cases h
  | wake =>
    simp only [step] at h
    split at h
    · cases h; exact ⟨consumed, f1, f2, f3, f4, f5, f6⟩
    · cases h
  | drainEnd =>
    simp only [step] at h
    split at h
    · cases h; exact ⟨consumed, f1, f2, f3, f4, f5, f6⟩
    · cases h
  | checkFlag =>
    simp only [step] at h
    split at h
    · cases h; exact ⟨consumed, f1, f2, f3, f4, f5, f6⟩
    · cases h
  | drainOne =>
    simp only [step] at h
    split at h
    · rename_i hcond
      split at h
      · rename_i ord hord
        cases h
        have hn : s.nextOrder < (parsedOrders consumed).length := by
          rw [← length_ingested, ← f3]; exact hcond.2
        have hnI : s.nextOrder < (ingested consumed).length := by
          rw [length_ingested]; exact hn
        have hx : (parsedOrders consumed)[s.nextOrder]? =
            some ((parsedOrders consumed)[s.nextOrder]) := List.getElem?_eq_getElem hn
        generalize (parsedOrders consumed)[s.nextOrder] = x at hx
        have hop := parsedOrders_open_pos feed consumed s.feed f1 hpos x
          (List.getElem?_mem hx)
        have hI : (ingested consumed)[s.nextOrder]? =
            some { x with orderId := s.nextOrder } := by
          rw [ingested, getElem?_numberFrom, hx]; simp
        have hlenP := caughtUp_length consumed s.nextOrder hle
        have hdrop : (ingested consumed).drop s.nextOrder =
            { x with orderId := s.nextOrder } :: (ingested consumed).drop (s.nextOrder + 1) := by
          rw [List.drop_eq_getElem_cons hnI]
          have := List.getElem?_eq_getElem hnI
          rw [hI] at this
          rw [← Option.some.inj this]
        have hordeq : ord = { x with orderId := s.nextOrder } := by
          rw [f6, List.getElem?_append_right (by omega), hlenP, Nat.sub_self, hdrop] at hord
          simpa using hord.symm
        obtain ⟨hinv, hh⟩ := caughtUp_inv consumed s.nextOrder
          (parsedOrders_open_pos feed consumed s.feed f1 hpos)
        have hcountP : (caughtUp consumed s.nextOrder).orderCount = s.nextOrder :=
          hinv.1.1.trans hlenP
        obtain ⟨_, _, _, hmarks⟩ := restInv_processOrder _ x _ hinv hh hop.1 hop.2
        rw [hcountP] at hmarks
        have hext := matcher_extend (enterOrder (caughtUp consumed s.nextOrder) x).2 s.st
          { x with orderId := s.nextOrder } ((ingested consumed).drop (s.nextOrder + 1)) f4 f5
          (by rw [f6, hdrop]; simp [enterOrder, hcountP])
          (fun m hm => lt_length_of_statusAt (hmarks m hm))
        have hsucc : caughtUp consumed (s.nextOrder + 1) =
            (matcher (enterOrder (caughtUp consumed s.nextOrder) x).2
              { x with orderId := s.nextOrder }).2 := by
          rw [caughtUp_succ _ _ _ hx, processOrder_eq, hcountP]
        subst hordeq
        refine ⟨consumed, f1, ?_, ?_, ?_, ?_, ?_⟩
        · show s.nextOrder + 1 ≤ (matcher s.st _).2.orderCount
          rw [(matcher_frame _ _).1]; exact hcond.2
        · show (matcher s.st _).2.orderCount = _
          rw [(matcher_frame _ _).1]; exact f3
        · show (matcher s.st _).2.buyMap = (caughtUp consumed (s.nextOrder + 1)).buyMap
          rw [hsucc]; exact hext.2.1
        · show (matcher s.st _).2.sellMap = (caughtUp consumed (s.nextOrder + 1)).sellMap
          rw [hsucc]; exact hext.2.2.1
        · show (matcher s.st _).2.orderBook =
            (caughtUp consumed (s.nextOrder + 1)).orderBook ++
              (ingested consumed).drop (s.nextOrder + 1)
          rw [hsucc]; exact hext.2.2.2
      · cases h
    · cases h

theorem exec_simulates (feed : List Record) (hpos : PositiveFeed feed) (acts : List Action) :
    ∀ (s0 s : Sys) (c0 : List Record), Simulates feed s0 c0 → exec acts s0 = some s →
      ∃ consumed, Simulates feed s consumed := by
  induction acts with
  | nil =>
    intro s0 s c0 h0 h
    cases h
    exact ⟨c0, h0⟩
  | cons a as ih =>
    intro s0 s c0 h0 h
    obtain ⟨s1, hs1, hrest⟩ := exec_cons_eq_some a as s0 s h
    obtain ⟨c1, h1⟩ := step_simulates feed hpos a s0 s1 c0 hs1 h0
    exact ih s1 s c1 h1 hrest

/-- On a feed of positive quantities, every state the interleaving reaches has the queues
of the caught-up run at `nextOrder`, and its ledger is that run's ledger followed by the
orders appended but not yet matched. -/
theorem reachable_simulates (feed : List Record) (hpos : PositiveFeed feed)
    (acts : List Action) (s : Sys) (h : exec acts (initSys feed) = some s) :
    ∃ consumed, Simulates feed s consumed :=
  exec_simulates feed hpos acts (initSys feed) s [] (simulates_initSys feed) h


/-! ## The book in a run: the claims -/

theorem positiveFeed_of_check (feed : List Record) (h : positiveFeedCheck feed = true) :
    PositiveFeed feed := by
  intro r hr q hq
  have h1 := List.all_eq_true.mp h r hr
  rw [hq] at h1
  simpa using h1

theorem queueAt_of_maps {a b : State} (h1 : a.buyMap = b.buyMap) (h2 : a.sellMap = b.sellMap)
    (s : String) (d : TradeSide) : queueAt a s d = queueAt b s d := by
  cases d
  · show a.buyMap s = b.buyMap s
    rw [h1]
  · show a.sellMap s = b.sellMap s
    rw [h2]

theorem not_crossed_of_uncrossed (σ : State) (h : Uncrossed (restingAt σ)) (s : String) :
    ¬ Crossed σ s := by
  intro hboth
  rcases h s with h | h
  · obtain ⟨h1, h2⟩ := (resting_eq_nil_iff _).mp h
    rcases hboth.1 with g | g
    · exact g h1
    · rw [h2] at g; cases g
  · obtain ⟨h1, h2⟩ := (resting_eq_nil_iff _).mp h
    rcases hboth.2 with g | g
    · exact g h1
    · rw [h2] at g; cases g

theorem crossed_congr {a b : State} (h1 : a.buyMap = b.buyMap) (h2 : a.sellMap = b.sellMap)
    (s : String) : Crossed a s ↔ Crossed b s := by
  unfold Crossed
  rw [queueAt_of_maps h1 h2 s TradeSide.Buy, queueAt_of_maps h1 h2 s TradeSide.Sell]

/-- C20: the book is never crossed.  After every initial part of a sequence of Open orders
with positive quantities, appended and matched in append order from the empty state, no
stock has resting interest (a non-empty FIFO or a present leftover) on both its Buy queue
and its Sell queue; and the same holds in every state an interleaving of the reader and
the matching thread reaches on a feed of positive quantities, in which orders may have
been appended and not yet matched. -/
theorem book_never_crossed (ords : List Order)
    (hopen : ∀ o ∈ ords, o.status = OrderStatus.Open)
    (hpos : ∀ o ∈ ords, 0 < o.quantity) (k : Nat)
    (feed : List Record) (hfeed : PositiveFeed feed) (acts : List Action) (sys : Sys)
    (hexec : exec acts (initSys feed) = some sys) (s : String) :
    ¬ Crossed (processAll initState (ords.take k)) s ∧ ¬ Crossed sys.st s := by
  constructor
  · obtain ⟨⟨_, _, _, hun⟩, _⟩ := restInv_run (ords.take k)
      (fun o ho => hopen o (List.mem_of_mem_take ho))
      (fun o ho => hpos o (List.mem_of_mem_take ho))
    exact not_crossed_of_uncrossed _ hun s
  · obtain ⟨consumed, f1, _, _, f4, f5, _⟩ := reachable_simulates feed hfeed acts sys hexec
    obtain ⟨⟨_, _, _, hun⟩, _⟩ := caughtUp_inv consumed sys.nextOrder
      (parsedOrders_open_pos feed consumed sys.feed f1 hfeed)
    rw [crossed_congr f4 f5 s]
    exact not_crossed_of_uncrossed _ hun s

theorem book_never_crossed_witness :
    (queueAt (processAll initState
        ([newOrder "T1" "X" 10 TradeSide.Buy, newOrder "T2" "X" 4 TradeSide.Sell,
          newOrder "T3" "X" 6 TradeSide.Sell].take 2)) "X" TradeSide.Buy).isLeftOver = true ∧
    ¬ Crossed (processAll initState
        ([newOrder "T1" "X" 10 TradeSide.Buy, newOrder "T2" "X" 4 TradeSide.Sell,
          newOrder "T3" "X" 6 TradeSide.Sell].take 2)) "X" ∧
    ∃ sys, exec readerAheadSchedule (initSys feedWithBadRecord) = some sys ∧
      sys.nextOrder = 1 ∧ sys.st.orderBook.length = 2 ∧ ¬ Crossed sys.st "X" :=
  ⟨by decide,
   (book_never_crossed [newOrder "T1" "X" 10 TradeSide.Buy, newOrder "T2" "X" 4 TradeSide.Sell,
      newOrder "T3" "X" 6 TradeSide.Sell] (by decide) (by decide) 2 feedWithBadRecord
      (positiveFeed_of_check _ (by decide)) readerAheadSchedule _ rfl "X").1,
   _, rfl, by decide, by decide,
   (book_never_crossed [newOrder "T1" "X" 10 TradeSide.Buy, newOrder "T2" "X" 4 TradeSide.Sell,
      newOrder "T3" "X" 6 TradeSide.Sell] (by decide) (by decide) 2 feedWithBadRecord
      (positiveFeed_of_check _ (by decide)) readerAheadSchedule _ rfl "X").2⟩

/-! ## Resting entries -/

theorem entriesWellFormed_of_restInv (σ : State) (h : RestInv σ) : EntriesWellFormed σ := by
  obtain ⟨⟨_, hwf, _⟩, hop, hdis, _⟩ := h
  refine ⟨?_, hdis, ?_⟩
  · intro s d e he
    obtain ⟨o, ho, h1, h2, h3, h4⟩ := hwf s d e he
    have hst := hop s d e he
    refine ⟨lt_length_of_statusAt hst, o, ho, ?_, h1, h2, h3, h4⟩
    simpa [statusAt, ho] using hst
  · intro s d s1 d1 e he e1 he1 hid
    exact same_queue_of_same_id _ _ hwf he he1 hid

theorem restingAt_of_maps {a b : State} (h1 : a.buyMap = b.buyMap) (h2 : a.sellMap = b.sellMap) :
    restingAt a = restingAt b := by
  funext s d
  unfold restingAt
  rw [queueAt_of_maps h1 h2 s d]

theorem entriesWellFormed_extend (a b : State) (extra : List Order)
    (h1 : b.buyMap = a.buyMap) (h2 : b.sellMap = a.sellMap)
    (hbook : b.orderBook = a.orderBook ++ extra)
    (h : EntriesWellFormed a) : EntriesWellFormed b := by
  obtain ⟨g1, g2, g3⟩ := h
  unfold EntriesWellFormed
  rw [restingAt_of_maps h1 h2]
  refine ⟨?_, g2, g3⟩
  intro s d e he
  obtain ⟨hlt, o, ho, rest⟩ := g1 s d e he
  refine ⟨by rw [hbook, List.length_append]; omega, o, ?_, rest⟩
  rw [hbook, List.getElem?_append_left hlt]
  exact ho

theorem statusAt_append_left (book extra : List Order) (i : Nat) (h : i < book.length) :
    statusAt (book ++ extra) i = statusAt book i := by
  simp [statusAt, List.getElem?_append_left h]

/-- The call the matching thread makes next in a state of the interleaving is a call of the
caught-up run, on a ledger with a backlog behind the entries it writes. -/
theorem simulates_call (feed : List Record) (hpos : PositiveFeed feed) (s : Sys)
    (consumed : List Record) (hsim : Simulates feed s consumed) (ord : Order)
    (hord : s.st.orderBook[s.nextOrder]? = some ord) (hlt : s.nextOrder < s.st.orderCount) :
    CallWritesOpen s.st ord := by
  obtain ⟨f1, f2, f3, f4, f5, f6⟩ := hsim
  have hle : s.nextOrder ≤ (parsedOrders consumed).length := by
    rw [← length_ingested, ← f3]; exact f2
  have hn : s.nextOrder < (parsedOrders consumed).length := by
    rw [← length_ingested, ← f3]; exact hlt
  have hnI : s.nextOrder < (ingested consumed).length := by
    rw [length_ingested]; exact hn
  have hx : (parsedOrders consumed)[s.nextOrder]? =
      some ((parsedOrders consumed)[s.nextOrder]) := List.getElem?_eq_getElem hn
  generalize (parsedOrders consumed)[s.nextOrder] = x at hx
  have hop := parsedOrders_open_pos feed consumed s.feed f1 hpos x (List.getElem?_mem hx)
  have hI : (ingested consumed)[s.nextOrder]? = some { x with orderId := s.nextOrder } := by
    rw [ingested, getElem?_numberFrom, hx]; simp
  have hlenP := caughtUp_length consumed s.nextOrder hle
  have hdrop : (ingested consumed).drop s.nextOrder =
      { x with orderId := s.nextOrder } :: (ingested consumed).drop (s.nextOrder + 1) := by
    rw [List.drop_eq_getElem_cons hnI]
    have := List.getElem?_eq_getElem hnI
    rw [hI] at this
    rw [← Option.some.inj this]
  have hordeq : ord = { x with orderId := s.nextOrder } := by
    rw [f6, List.getElem?_append_right (by omega), hlenP, Nat.sub_self, hdrop] at hord
    simpa using hord.symm
  obtain ⟨hinv, hh⟩ := caughtUp_inv consumed s.nextOrder
    (parsedOrders_open_pos feed consumed s.feed f1 hpos)
  have hcountP : (caughtUp consumed s.nextOrder).orderCount = s.nextOrder :=
    hinv.1.1.trans hlenP
  obtain ⟨_, _, hnd, hmarks⟩ := restInv_processOrder _ x _ hinv hh hop.1 hop.2
  rw [hcountP] at hmarks hnd
  have hbook : s.st.orderBook = (enterOrder (caughtUp consumed s.nextOrder) x).2.orderBook ++
      (ingested consumed).drop (s.nextOrder + 1) := by
    rw [f6, hdrop]; simp [enterOrder, hcountP]
  have hmk : matcherMarks s.st ord =
      matcherMarks (enterOrder (caughtUp consumed s.nextOrder) x).2
        { x with orderId := s.nextOrder } := by
    rw [hordeq]
    exact matcherMarks_congr _ f4 f5
  refine ⟨orderBook_matcher _ _, ?_, ?_⟩
  · rw [hmk]; exact hnd
  · intro m hm
    rw [hmk] at hm
    have hlt1 := lt_length_of_statusAt (hmarks m hm)
    refine ⟨by rw [hbook, List.length_append]; omega, ?_⟩
    rw [hbook, statusAt_append_left _ _ _ hlt1]
    exact hmarks m hm

/-- C19: after any sequence of Open orders with positive quantities, appended and matched
in append order from the empty state, every resting entry (FIFO entry or present
leftover) of the queue `(s, d)` has an orderId below the ledger length, refers to an Open
order of stock `s` and side `d`, and rests a quantity `q` with `0 < q ≤` that order's
quantity; no two entries of a queue refer to the same order, and entries of different
queues refer to different orders.  Hence, in the call of `matcher` for the next such
order, the ledger indices written are in bounds, are those of orders Open at the time of
the call, and are written once each: no order already Success is marked.  The same holds
in every state an interleaving of the reader and the matching thread reaches on a feed of
positive quantities, for the call the matching thread makes there. -/
theorem resting_entries_well_formed (ords : List Order) (next : Order)
    (hopen : ∀ o ∈ ords, o.status = OrderStatus.Open)
    (hpos : ∀ o ∈ ords, 0 < o.quantity)
    (hnopen : next.status = OrderStatus.Open) (hnpos : 0 < next.quantity)
    (feed : List Record) (hfeed : PositiveFeed feed) (acts : List Action) (sys : Sys)
    (hexec : exec acts (initSys feed) = some sys) :
    EntriesWellFormed (processAll initState ords) ∧
    CallWritesOpen (arriving ords next).1 (arriving ords next).2 ∧
    EntriesWellFormed sys.st ∧
    (∀ ord, sys.st.orderBook[sys.nextOrder]? = some ord →
      sys.nextOrder < sys.st.orderCount → CallWritesOpen sys.st ord) := by
  obtain ⟨hinv, hh⟩ := restInv_run ords hopen hpos
  obtain ⟨_, _, m1, m2⟩ := restInv_processOrder _ next _ hinv hh hnopen hnpos
  obtain ⟨consumed, hsim⟩ := reachable_simulates feed hfeed acts sys hexec
  refine ⟨entriesWellFormed_of_restInv _ hinv, ⟨orderBook_matcher _ _, ?_, ?_⟩, ?_, ?_⟩
  · rw [arriving_snd]
    exact m1
  · rw [arriving_snd]
    intro m hm
    exact ⟨lt_length_of_statusAt (m2 m hm), m2 m hm⟩
  · obtain ⟨f1, _, _, f4, f5, f6⟩ := hsim
    exact entriesWellFormed_extend _ _ _ f4 f5 f6
      (entriesWellFormed_of_restInv _ (caughtUp_inv consumed sys.nextOrder
        (parsedOrders_open_pos feed consumed sys.feed f1 hfeed)).1)
  · intro ord hord hlt
    exact simulates_call feed hfeed sys consumed hsim ord hord hlt

theorem resting_entries_well_formed_witness :
    restingAt (processAll initState
        [newOrder "T1" "X" 10 TradeSide.Buy, newOrder "T2" "X" 4 TradeSide.Sell])
        "X" TradeSide.Buy = [{ quantity := 6, orderId := 0 }] ∧
    (matcherMarks
        (arriving [newOrder "T1" "X" 10 TradeSide.Buy, newOrder "T2" "X" 4 TradeSide.Sell]
          (newOrder "T3" "X" 6 TradeSide.Sell)).1
        (arriving [newOrder "T1" "X" 10 TradeSide.Buy, newOrder "T2" "X" 4 TradeSide.Sell]
          (newOrder "T3" "X" 6 TradeSide.Sell)).2 = [0, 2]) ∧
    CallWritesOpen
        (arriving [newOrder "T1" "X" 10 TradeSide.Buy, newOrder "T2" "X" 4 TradeSide.Sell]
          (newOrder "T3" "X" 6 TradeSide.Sell)).1
        (arriving [newOrder "T1" "X" 10 TradeSide.Buy, newOrder "T2" "X" 4 TradeSide.Sell]
          (newOrder "T3" "X" 6 TradeSide.Sell)).2 ∧
    ∃ sys, exec readerAheadSchedule (initSys feedWithBadRecord) = some sys ∧
      restingAt sys.st "X" TradeSide.Buy = [{ quantity := 10, orderId := 0 }] ∧
      EntriesWellFormed sys.st :=
  ⟨by decide, by decide,
   (resting_entries_well_formed
      [newOrder "T1" "X" 10 TradeSide.Buy, newOrder "T2" "X" 4 TradeSide.Sell]
      (newOrder "T3" "X" 6 TradeSide.Sell) (by decide) (by decide) (by decide) (by decide)
      feedWithBadRecord (positiveFeed_of_check _ (by decide)) readerAheadSchedule _ rfl).2.1,
   _, rfl, by decide,
   (resting_entries_well_formed
      [newOrder "T1" "X" 10 TradeSide.Buy, newOrder "T2" "X" 4 TradeSide.Sell]
      (newOrder "T3" "X" 6 TradeSide.Sell) (by decide) (by decide) (by decide) (by decide)
      feedWithBadRecord (positiveFeed_of_check _ (by decide)) readerAheadSchedule _ rfl).2.2.1⟩

/-! ## The FIFO within one call -/

theorem matcherLoop_fifo (ord : Order) :
    ∀ (fifo : List QuantityTrader) (qty : Int) (σ : State),
      (oppQueue σ ord).stockQueue = fifo →
      ∃ n m pushed, n ≤ fifo.length ∧ (m = n ∨ n = m + 1) ∧
        (oppQueue (matcherLoop ord fifo qty σ).2 ord).stockQueue = fifo.drop n ∧
        matcherLoopMarks ord fifo qty =
          entryIds (fifo.take m) ++
            (if (matcherLoop ord fifo qty σ).1 then [ord.orderId] else []) ∧
        (ownQueue (matcherLoop ord fifo qty σ).2 ord).stockQueue =
          (ownQueue σ ord).stockQueue ++ pushed ∧
        (pushed = [] ∨ ∃ q, pushed = [{ quantity := q, orderId := ord.orderId }]) := by
  intro fifo
  induction fifo with
  | nil =>
    intro qty σ hfifo
    by_cases hq : 0 < qty
    · rw [matcherLoop_nil ord qty σ hq]
      exact ⟨0, 0, [{ quantity := qty, orderId := ord.orderId }], Nat.le_refl _, Or.inl rfl,
        by simpa using hfifo, by simp [matcherLoopMarks], by simp, Or.inr ⟨qty, rfl⟩⟩
    · rw [matcherLoop_of_nonpos ord [] qty σ hq]
      exact ⟨0, 0, [], Nat.le_refl _, Or.inl rfl, by simpa using hfifo,
        by simp [matcherLoopMarks], by simp, Or.inl rfl⟩
  | cons e rest ih =>
    intro qty σ hfifo
    by_cases hq : 0 < qty
    · rcases lt_trichotomy (qty - e.quantity) 0 with hlt | heq | hgt
      · rw [matcherLoop_cons_over ord e rest qty σ hq hlt]
        have h2 : ¬ 0 ≤ qty - e.quantity := not_le.mpr hlt
        exact ⟨1, 0, [], by simp, Or.inr rfl, by simp,
          by simp [matcherLoopMarks, hq, h2], by simp, Or.inl rfl⟩
      · rw [matcherLoop_cons_exact ord e rest qty σ hq heq]
        exact ⟨1, 1, [], by simp, Or.inl rfl, by simp,
          by simp [matcherLoopMarks, hq, heq], by simp, Or.inl rfl⟩
      · rw [matcherLoop_cons_continue ord e rest qty σ hq hgt]
        have h2 : 0 ≤ qty - e.quantity := le_of_lt hgt
        have h3 : ¬ qty - e.quantity = 0 := ne_of_gt hgt
        obtain ⟨n, m, pushed, g1, g2, g3, g4, g5, g6⟩ := ih (qty - e.quantity)
          (setOppQueue (markSuccess σ e.orderId) ord
            { oppQueue σ ord with stockQueue := rest, isLeftOver := false }) (by simp)
        refine ⟨n + 1, m + 1, pushed, by simpa using g1, by omega, by simpa using g3, ?_,
          by simpa using g5, g6⟩
        simp only [matcherLoopMarks, hq, h2, h3, if_true, if_false, g4, List.take_succ_cons,
          entryIds_cons, List.cons_append]
    · rw [matcherLoop_of_nonpos ord (e :: rest) qty σ hq]
      exact ⟨0, 0, [], Nat.zero_le _, Or.inl rfl, by simpa using hfifo,
        by simp [matcherLoopMarks, hq], by simp, Or.inl rfl⟩

theorem matcher_fifo (σ : State) (ord : Order) (hlo : (oppQueue σ ord).isLeftOver = false) :
    ∃ n m pushed, n ≤ (oppQueue σ ord).stockQueue.length ∧ (m = n ∨ n = m + 1) ∧
      (oppQueue (matcher σ ord).2 ord).stockQueue = (oppQueue σ ord).stockQueue.drop n ∧
      matcherMarks σ ord =
        entryIds ((oppQueue σ ord).stockQueue.take m) ++
          (if (matcher σ ord).1 then [ord.orderId] else []) ∧
      (ownQueue (matcher σ ord).2 ord).stockQueue = (ownQueue σ ord).stockQueue ++ pushed ∧
      (pushed = [] ∨ ∃ q, pushed = [{ quantity := q, orderId := ord.orderId }]) := by
  rw [matcherMarks_of_no_leftover σ ord hlo, matcher_of_no_leftover_general σ ord hlo]
  by_cases hq : (oppQueue σ ord).stockQueue = []
  · simp only [hq, if_true]
    exact ⟨0, 0, [{ quantity := ord.quantity, orderId := ord.orderId }], Nat.le_refl _,
      Or.inl rfl, by simp [hq], by simp [matcherLoopMarks], by simp,
      Or.inr ⟨ord.quantity, rfl⟩⟩
  · simp only [hq, if_false]
    exact matcherLoop_fifo ord _ _ σ rfl

/-- C11: the FIFO property.  In a run of Open orders with positive quantities, appended
and matched in append order from the empty state, if the orders `i` and `j` were both
pushed on the FIFO of the same queue, `i` before `j`, then at every point of the run at
which both have been pushed, `j` is Success only if `i` is.  And in every call of `matcher`
that finds no leftover, the entries taken off the opposing FIFO are its first `n`, front to
back (what is left is the FIFO without them), the orders marked are those of its first `n`
or `n - 1` entries in this order (then the incoming order, when the call returns `true`),
and the own-side FIFO is the old one with at most one entry, for the incoming order, added
at the back. -/
theorem fifo_order (ords : List Order)
    (hopen : ∀ o ∈ ords, o.status = OrderStatus.Open)
    (hpos : ∀ o ∈ ords, 0 < o.quantity) :
    (∀ (k : Nat) (s : String) (d : TradeSide) (i j : Nat),
      [i, j].Sublist (restedIds s d initState (ords.take k)) →
      statusAt (processAll initState (ords.take k)).orderBook j = some OrderStatus.Success →
      statusAt (processAll initState (ords.take k)).orderBook i = some OrderStatus.Success) ∧
    (∀ (σ : State) (ord : Order), (oppQueue σ ord).isLeftOver = false →
      ∃ n m pushed, n ≤ (oppQueue σ ord).stockQueue.length ∧ (m = n ∨ n = m + 1) ∧
        (oppQueue (matcher σ ord).2 ord).stockQueue = (oppQueue σ ord).stockQueue.drop n ∧
        (matcher σ ord).2.orderBook = markIds σ.orderBook (matcherMarks σ ord) ∧
        matcherMarks σ ord =
          entryIds ((oppQueue σ ord).stockQueue.take m) ++
            (if (matcher σ ord).1 then [ord.orderId] else []) ∧
        (ownQueue (matcher σ ord).2 ord).stockQueue = (ownQueue σ ord).stockQueue ++ pushed ∧
        (pushed = [] ∨ ∃ q, pushed = [{ quantity := q, orderId := ord.orderId }])) := by
  constructor
  · intro k s d i j hij hj
    obtain ⟨⟨_, hop, _, _⟩, hh⟩ := restInv_run (ords.take k)
      (fun o ho => hopen o (List.mem_of_mem_take ho))
      (fun o ho => hpos o (List.mem_of_mem_take ho))
    obtain ⟨done, hd1, hd2⟩ := hh s d
    beta_reduce at hd1
    rw [hd1] at hij
    obtain ⟨a, b, hab, ha, hb⟩ := List.sublist_append_iff.mp hij
    have hnotrest : j ∉ entryIds (restingAt (processAll initState (ords.take k)) s d) := by
      intro hmem
      obtain ⟨e, he, hid⟩ := mem_entryIds.mp hmem
      have := hop s d e he
      rw [hid, hj] at this
      cases this
    have hjb : j ∉ b := fun h => hnotrest (hb.subset h)
    cases a with
    | nil =>
      simp only [List.nil_append] at hab
      exact absurd (by rw [← hab]; simp) hjb
    | cons x xs =>
      simp only [List.cons_append, List.cons.injEq] at hab
      obtain ⟨hx, hrest⟩ := hab
      subst hx
      exact hd2 i (ha.subset (List.mem_cons_self _ _))
  · intro σ ord hlo
    obtain ⟨n, m, pushed, g1, g2, g3, g4, g5, g6⟩ := matcher_fifo σ ord hlo
    exact ⟨n, m, pushed, g1, g2, g3, orderBook_matcher σ ord, g4, g5, g6⟩

theorem fifo_order_witness :
    restedIds "X" TradeSide.Buy initState
        ([newOrder "T1" "X" 10 TradeSide.Buy, newOrder "T2" "X" 5 TradeSide.Buy,
          newOrder "T3" "X" 10 TradeSide.Sell, newOrder "T4" "X" 5 TradeSide.Sell].take 4) =
      [0, 1] ∧
    statusAt (processAll initState
        ([newOrder "T1" "X" 10 TradeSide.Buy, newOrder "T2" "X" 5 TradeSide.Buy,
          newOrder "T3" "X" 10 TradeSide.Sell,
          newOrder "T4" "X" 5 TradeSide.Sell].take 4)).orderBook 0 =
      some OrderStatus.Success :=
  ⟨by decide,
   (fifo_order [newOrder "T1" "X" 10 TradeSide.Buy, newOrder "T2" "X" 5 TradeSide.Buy,
      newOrder "T3" "X" 10 TradeSide.Sell, newOrder "T4" "X" 5 TradeSide.Sell]
      (by decide) (by decide)).1 4 "X" TradeSide.Buy 0 1 (by decide) (by decide)⟩


/-! ## The effect of a call, whatever the sign of the quantity -/

theorem matcher_effect_any (σ : State) (ord : Order) :
    CallEffect (restingAt σ) (restingAt (matcher σ ord).2) ord.stock ord.side ord.orderId
      (matcher σ ord).1 (matcherMarks σ ord) := by
  by_cases hQ : 0 < ord.quantity
  · exact matcher_effect σ ord hQ
  · cases hlo : (oppQueue σ ord).isLeftOver with
    | false =>
      have hrs := restingAt_opp_of_no_leftover σ ord hlo
      rw [matcherMarks_of_no_leftover σ ord hlo, matcher_of_no_leftover_general σ ord hlo]
      by_cases hq : (oppQueue σ ord).stockQueue = []
      · rw [if_pos hq, hq]
        have hrs0 : restingAt σ ord.stock ord.side.flip = [] := by rw [hrs, hq]
        refine ⟨[], [], [], [{ quantity := ord.quantity, orderId := ord.orderId }],
          by simp [hrs0], rfl, ?_, by simp [matcherLoopMarks], Or.inr ⟨rfl, rfl, rfl⟩⟩
        rw [restingAt_pushOwn, setResting_eq_self _ _ _ _ hrs0]
      · rw [if_neg hq, matcherLoop_of_nonpos ord _ _ σ hQ]
        have hmarks : matcherLoopMarks ord (oppQueue σ ord).stockQueue ord.quantity = [] := by
          cases (oppQueue σ ord).stockQueue <;> simp [matcherLoopMarks, hQ]
        refine ⟨[], restingAt σ ord.stock ord.side.flip, restingAt σ ord.stock ord.side.flip, [],
          by simp, rfl, ?_, by simp [hmarks], Or.inl ⟨rfl, by rw [hrs]; exact hq⟩⟩
        rw [setResting_own_nil, setResting_eq_self _ _ _ _ rfl]
    | true =>
      have hrs := restingAt_opp_of_leftover σ ord hlo
      have hne : restingAt σ ord.stock ord.side.flip ≠ [] := by rw [hrs]; simp
      rw [matcherMarks_of_leftover σ ord hlo, matcher_of_leftover σ ord hlo]
      by_cases h0 : 0 ≤ ord.quantity - (oppQueue σ ord).leftOver.quantity
      · by_cases h1 : ord.quantity - (oppQueue σ ord).leftOver.quantity = 0
        · simp only [h1, le_refl, if_true]
          refine ⟨[(oppQueue σ ord).leftOver], (oppQueue σ ord).stockQueue,
            (oppQueue σ ord).stockQueue, [], by simp [hrs], rfl, ?_, by simp, Or.inl ⟨rfl, hne⟩⟩
          rw [restingAt_markSuccess, restingAt_setOppQueue, restingAt_markSuccess,
            resting_mk_false, setResting_own_nil]
        · simp only [h0, h1, if_true, if_false]
          refine ⟨[(oppQueue σ ord).leftOver], (oppQueue σ ord).stockQueue,
            (oppQueue σ ord).stockQueue, [], by simp [hrs], rfl, ?_, by simp, Or.inl ⟨rfl, hne⟩⟩
          rw [restingAt_setOppQueue, restingAt_markSuccess, resting_mk_false,
            setResting_own_nil]
      · simp only [h0, if_false]
        refine ⟨[], (oppQueue σ ord).leftOver :: (oppQueue σ ord).stockQueue,
          { quantity := (ord.quantity - (oppQueue σ ord).leftOver.quantity) * (-1),
            orderId := (oppQueue σ ord).leftOver.orderId } :: (oppQueue σ ord).stockQueue, [],
          by simp [hrs], rfl, ?_, by simp, Or.inl ⟨rfl, hne⟩⟩
        rw [restingAt_setOppQueue, restingAt_markSuccess, resting_mk_true, setResting_own_nil]

/-! ## What resting entries refer to -/

theorem getElem?_of_identities_eq {a b : List Order} (h : identities a = identities b)
    (k : Nat) (o : Order) (ho : a[k]? = some o) :
    ∃ o1, b[k]? = some o1 ∧ o1.orderId = o.orderId ∧ o1.stock = o.stock ∧ o1.side = o.side := by
  have h1 : (identities a)[k]? = some { o with status := OrderStatus.Open } := by
    simp [identities, ho]
  rw [h] at h1
  simp only [identities, List.getElem?_map, Option.map_eq_some'] at h1
  obtain ⟨o1, ho1, heq⟩ := h1
  refine ⟨o1, ho1, ?_, ?_, ?_⟩
  · have := congrArg Order.orderId heq
    exact this
  · have := congrArg Order.stock heq
    exact this
  · have := congrArg Order.side heq
    exact this

theorem refers_of_identities {a b : List Order}
    (rs : String → TradeSide → List QuantityTrader) (h : identities a = identities b)
    (hr : RestingRefers a rs) : RestingRefers b rs := by
  intro s d e he
  obtain ⟨o, ho, h1, h2⟩ := hr s d e he
  obtain ⟨o1, ho1, _, g1, g2⟩ := getElem?_of_identities_eq h _ o ho
  exact ⟨o1, ho1, g1.trans h1, g2.trans h2⟩

theorem numbered_of_identities {a b : List Order} (h : identities a = identities b)
    (hn : LedgerNumbered a) : LedgerNumbered b := by
  intro k o ho
  obtain ⟨o1, ho1, g, _, _⟩ := getElem?_of_identities_eq h.symm k o ho
  rw [← g]
  exact hn k o1 ho1

theorem refers_of_effect (book : List Order)
    (rs rs1 : String → TradeSide → List QuantityTrader) (s0 : String) (d0 : TradeSide)
    (i : Nat) (res : Bool) (marks : List Nat)
    (hr : RestingRefers book rs)
    (hi : ∃ o, book[i]? = some o ∧ o.stock = s0 ∧ o.side = d0)
    (he : CallEffect rs rs1 s0 d0 i res marks) : RestingRefers book rs1 := by
  obtain ⟨consumed, keep, keep1, pushed, g1, g2, g3, _, g5⟩ := he
  obtain ⟨e1, e2, e3⟩ := effect_own rs rs1 s0 d0 keep1 pushed g3
  intro s d x hx
  by_cases hk : s = s0 ∧ d = d0
  · obtain ⟨hs, hd⟩ := hk
    subst hs; subst hd
    rw [e1] at hx
    rcases List.mem_append.mp hx with hx | hx
    · exact hr s d x hx
    · rcases g5 with ⟨p1, _⟩ | ⟨p1, _, _⟩
      · rw [p1] at hx; cases hx
      · have hxi : x.orderId = i := by
          have : x.orderId ∈ entryIds pushed := mem_entryIds.mpr ⟨x, hx, rfl⟩
          rw [p1] at this
          simpa using this
        rw [hxi]
        exact hi
  · by_cases hk2 : s = s0 ∧ d = d0.flip
    · obtain ⟨hs, hd⟩ := hk2
      subst hs; subst hd
      rw [e2] at hx
      have hxm : x.orderId ∈ entryIds keep := by
        rw [← g2]; exact mem_entryIds.mpr ⟨x, hx, rfl⟩
      obtain ⟨c, hc, hid⟩ := mem_entryIds.mp hxm
      rw [← hid]
      exact hr s d0.flip c (by rw [g1]; exact List.mem_append_right _ hc)
    · rw [e3 s d hk hk2] at hx
      exact hr s d x hx

theorem refInv_initState : RefInv initState := by
  refine ⟨rfl, ?_, ?_⟩
  · intro k o ho
    simp [initState] at ho
  · intro s d e he
    cases d <;> cases he

theorem refInv_enterOrder (σ : State) (ord : Order) (h : RefInv σ) :
    RefInv (enterOrder σ ord).2 := by
  obtain ⟨hc, hn, hr⟩ := h
  refine ⟨by simp [enterOrder, hc], ?_, ?_⟩
  · intro k o ho
    have hbook : (enterOrder σ ord).2.orderBook =
        σ.orderBook ++ [{ ord with orderId := σ.orderCount }] := rfl
    rw [hbook] at ho
    rcases Nat.lt_or_ge k σ.orderBook.length with hlt | hge
    · rw [List.getElem?_append_left hlt] at ho
      exact hn k o ho
    · rw [List.getElem?_append_right hge] at ho
      have hk : k - σ.orderBook.length = 0 := by
        rcases Nat.eq_zero_or_pos (k - σ.orderBook.length) with h0 | h0
        · exact h0
        · rw [List.getElem?_eq_none (by
            show [({ ord with orderId := σ.orderCount } : Order)].length ≤ _
            exact h0)] at ho
          cases ho
      rw [hk] at ho
      simp only [List.getElem?_cons_zero, Option.some.injEq] at ho
      rw [← ho]
      show σ.orderCount = k
      omega
  · rw [restingAt_enterOrder]
    intro s d e he
    obtain ⟨o, ho, rest⟩ := hr s d e he
    have hlt : e.orderId < σ.orderBook.length := by
      rcases Nat.lt_or_ge e.orderId σ.orderBook.length with h | h
      · exact h
      · rw [List.getElem?_eq_none h] at ho
        cases ho
    exact ⟨o, by
      show (σ.orderBook ++ [{ ord with orderId := σ.orderCount }])[e.orderId]? = some o
      rw [List.getElem?_append_left hlt]; exact ho, rest⟩

theorem refInv_matcher (σ : State) (ord : Order)
    (hin : σ.orderBook[ord.orderId]? = some ord) (h : RefInv σ) :
    RefInv (matcher σ ord).2 := by
  obtain ⟨hc, hn, hr⟩ := h
  obtain ⟨f1, f2⟩ := matcher_frame σ ord
  refine ⟨by rw [f1, hc, length_of_identities_eq f2], numbered_of_identities f2.symm hn, ?_⟩
  apply refers_of_identities _ f2.symm
  exact refers_of_effect _ _ _ _ _ _ _ _ hr ⟨ord, hin, rfl, rfl⟩ (matcher_effect_any σ ord)

/-- In a state of a run, no resting entry of the opposing queue refers to an order that is
the ledger entry at its own id: such an entry would refer to an order of the other side. -/
theorem fresh_of_refInv (σ : State) (ord : Order) (h : RefInv σ)
    (hin : σ.orderBook[ord.orderId]? = some ord) :
    ∀ e ∈ resting (oppQueue σ ord), e.orderId ≠ ord.orderId := by
  intro e he hid
  rw [oppQueue_eq_queueAt] at he
  obtain ⟨o, ho, _, h2⟩ := h.2.2 ord.stock ord.side.flip e he
  rw [hid, hin] at ho
  cases ho
  exact TradeSide.flip_ne ord.side h2.symm

theorem resultIsFillStatus_of_refInv (σ : State) (ord : Order) (h : RefInv σ)
    (hin : σ.orderBook[ord.orderId]? = some ord) (hopen : ord.status = OrderStatus.Open) :
    ResultIsFillStatus σ ord :=
  matcher_true_iff_success σ ord hin hopen (fresh_of_refInv σ ord h hin)

theorem refInv_processOrder (σ : State) (ord : Order) (h : RefInv σ) :
    RefInv (processOrder σ ord) := by
  rw [processOrder_eq]
  apply refInv_matcher _ _ _ (refInv_enterOrder σ ord h)
  simp [enterOrder, h.1]

theorem refInv_processAll (ords : List Order) (σ : State) (h : RefInv σ) :
    RefInv (processAll σ ords) := by
  induction ords generalizing σ with
  | nil => exact h
  | cons o os ih =>
    simp only [processAll, List.foldl_cons]
    exact ih (processOrder σ o) (refInv_processOrder σ o h)

theorem step_refInv (a : Action) (s s1 : Sys) (h : step a s = some s1) (hinv : RefInv s.st) :
    RefInv s1.st := by
  cases a with
  | readRecord =>
    simp only [step] at h
    split at h
    · split at h
      · cases h; exact refInv_enterOrder _ _ hinv
      · cases h; exact hinv
    · cases h
  | readerEnd =>
    simp only [step] at h
    split at h
    · cases h; exact hinv
    · cases h
  | wake =>
    simp only [step] at h
    split at h
    · cases h; exact hinv
    · cases h
  | drainEnd =>
    simp only [step] at h
    split at h
    · cases h; exact hinv
    · cases h
  | checkFlag =>
    simp only [step] at h
    split at h
    · cases h; exact hinv
    · cases h
  | drainOne =>
    simp only [step] at h
    split at h
    · split at h
      · rename_i ord hord
        cases h
        have hid : ord.orderId = s.nextOrder := hinv.2.1 _ _ hord
        exact refInv_matcher _ _ (by rw [hid]; exact hord) hinv
      · cases h
    · cases h

theorem exec_refInv (acts : List Action) :
    ∀ (s0 s : Sys), RefInv s0.st → exec acts s0 = some s → RefInv s.st := by
  induction acts with
  | nil =>
    intro s0 s h0 h
    cases h
    exact h0
  | cons a as ih =>
    intro s0 s h0 h
    obtain ⟨s1, hs1, hrest⟩ := exec_cons_eq_some a as s0 s h
    exact ih s1 s (step_refInv a s0 s1 hs1 h0) hrest

theorem arriving_refInv (earlier : List Order) (last : Order) :
    RefInv (arriving earlier last).1 ∧
    (arriving earlier last).1.orderBook[(arriving earlier last).2.orderId]? =
      some (arriving earlier last).2 := by
  have hP := refInv_processAll earlier initState refInv_initState
  refine ⟨refInv_enterOrder _ last hP, ?_⟩
  rw [arriving_snd]
  simp [arriving, enterOrder, hP.1]

/-- C8: at every call of a run, `matcher` returns `true` if and only if the incoming
order's ledger status is Success after the call, and when it returns `false` the incoming
order is still Open.  This holds for the call on the order just appended after any sequence
of orders was appended and matched from the empty state (whatever their quantities and
statuses), the incoming order being Open; and in every state an interleaving of the reader
and the matching thread reaches on any feed, for every Open order that is the ledger entry
at its own orderId. -/
theorem matcher_result_is_fill_status (earlier : List Order) (last : Order)
    (hlast : last.status = OrderStatus.Open)
    (feed : List Record) (acts : List Action) (sys : Sys)
    (hexec : exec acts (initSys feed) = some sys) (ord : Order)
    (hin : sys.st.orderBook[ord.orderId]? = some ord)
    (hopen : ord.status = OrderStatus.Open) :
    ResultIsFillStatus (arriving earlier last).1 (arriving earlier last).2 ∧
    ResultIsFillStatus sys.st ord := by
  constructor
  · obtain ⟨h1, h2⟩ := arriving_refInv earlier last
    refine resultIsFillStatus_of_refInv _ _ h1 h2 ?_
    rw [arriving_snd]
    exact hlast
  · exact resultIsFillStatus_of_refInv _ _
      (exec_refInv acts (initSys feed) sys refInv_initState hexec) hin hopen

theorem matcher_result_is_fill_status_witness :
    (matcher (arriving [newOrder "T1" "X" (-3) TradeSide.Sell]
        (newOrder "T2" "X" 5 TradeSide.Buy)).1
      (arriving [newOrder "T1" "X" (-3) TradeSide.Sell]
        (newOrder "T2" "X" 5 TradeSide.Buy)).2).1 = false ∧
    ResultIsFillStatus
      (arriving [newOrder "T1" "X" (-3) TradeSide.Sell] (newOrder "T2" "X" 5 TradeSide.Buy)).1
      (arriving [newOrder "T1" "X" (-3) TradeSide.Sell] (newOrder "T2" "X" 5 TradeSide.Buy)).2 ∧
    ∃ sys, exec readerAheadSchedule (initSys threeRecords) = some sys ∧
      (matcher sys.st { orderId := 1, trader := "T2", stock := "X", quantity := 4,
                        side := TradeSide.Sell, status := OrderStatus.Open }).1 = true ∧
      ResultIsFillStatus sys.st
        { orderId := 1, trader := "T2", stock := "X", quantity := 4,
          side := TradeSide.Sell, status := OrderStatus.Open } :=
  ⟨by decide,
   (matcher_result_is_fill_status [newOrder "T1" "X" (-3) TradeSide.Sell]
      (newOrder "T2" "X" 5 TradeSide.Buy) (by decide) threeRecords readerAheadSchedule _ rfl
      { orderId := 1, trader := "T2", stock := "X", quantity := 4,
        side := TradeSide.Sell, status := OrderStatus.Open } (by decide) (by decide)).1,
   _, rfl, by decide,
   (matcher_result_is_fill_status [newOrder "T1" "X" (-3) TradeSide.Sell]
      (newOrder "T2" "X" 5 TradeSide.Buy) (by decide) threeRecords readerAheadSchedule _ rfl
      { orderId := 1, trader := "T2", stock := "X", quantity := 4,
        side := TradeSide.Sell, status := OrderStatus.Open } (by decide) (by decide)).2⟩


/-! ## The calls an interleaving makes -/

theorem matchedOrders_append (xs ys : List Call) :
    matchedOrders (xs ++ ys) = matchedOrders xs ++ matchedOrders ys := by
  induction xs with
  | nil => rfl
  | cons c cs ih =>
    cases c with
    | enter o => simpa [matchedOrders] using ih
    | matching o => simpa [matchedOrders] using ih

theorem applyCalls_append (σ : State) (xs ys : List Call) :
    applyCalls σ (xs ++ ys) = applyCalls (applyCalls σ xs) ys := by
  simp [applyCalls, List.foldl_append]

theorem callsOf_cons_of_step (a : Action) (as : List Action) (s s1 : Sys)
    (h : step a s = some s1) : callsOf (a :: as) s = callAt a s ++ callsOf as s1 := by
  rw [callsOf, h]

/-- What a step does to the shared state and to the cursor: `drainOne` is the call of
`matcher` on the ledger entry at the cursor, which it advances by one; every other step
leaves the cursor, and either leaves the shared state or is a call of `enterOrder`. -/
theorem step_calls (a : Action) (s s1 : Sys) (h : step a s = some s1) :
    s1.st = applyCalls s.st (callAt a s) ∧
    (a = Action.drainOne →
      s.matcherPc = MatcherPc.Draining ∧ s.nextOrder < s.st.orderCount ∧
      ∃ ord, s.st.orderBook[s.nextOrder]? = some ord ∧ callAt a s = [Call.matching ord] ∧
        s1 = { s with st := (matcher s.st ord).2, nextOrder := s.nextOrder + 1 }) ∧
    (a ≠ Action.drainOne →
      matchedOrders (callAt a s) = [] ∧ s1.nextOrder = s.nextOrder ∧
      (s1.st = s.st ∨ ∃ ord, s1.st = (enterOrder s.st ord).2)) := by
  cases a with
  | readRecord =>
    simp only [step] at h
    split at h
    · rename_i r rest hrd hfeed
      split at h
      · rename_i ord hp
        cases h
        refine ⟨by simp [callAt, hrd, hfeed, hp, applyCalls, applyCall],
          (fun ha => by cases ha), fun _ => ⟨by simp [callAt, hrd, hfeed, hp, matchedOrders],
            rfl, Or.inr ⟨ord, rfl⟩⟩⟩
      · rename_i hp
        cases h
        refine ⟨by simp [callAt, hrd, hfeed, hp, applyCalls],
          (fun ha => by cases ha), fun _ => ⟨by simp [callAt, hrd, hfeed, hp, matchedOrders],
            rfl, Or.inl rfl⟩⟩
    · cases h
  | readerEnd =>
    simp only [step] at h
    split at h
    · cases h
      exact ⟨by simp [callAt, applyCalls], (fun ha => by cases ha),
        fun _ => ⟨by simp [callAt, matchedOrders], rfl, Or.inl rfl⟩⟩
    · cases h
  | wake =>
    simp only [step] at h
    split at h
    · cases h
      exact ⟨by simp [callAt, applyCalls], (fun ha => by cases ha),
        fun _ => ⟨by simp [callAt, matchedOrders], rfl, Or.inl rfl⟩⟩
    · cases h
  | drainEnd =>
    simp only [step] at h
    split at h
    · cases h
      exact ⟨by simp [callAt, applyCalls], (fun ha => by cases ha),
        fun _ => ⟨by simp [callAt, matchedOrders], rfl, Or.inl rfl⟩⟩
    · cases h
  | checkFlag =>
    simp only [step] at h
    split at h
    · cases h
      exact ⟨by simp [callAt, applyCalls], (fun ha => by cases ha),
        fun _ => ⟨by simp [callAt, matchedOrders], rfl, Or.inl rfl⟩⟩
    · cases h
  | drainOne =>
    simp only [step] at h
    split at h
    · rename_i hcond
      split at h
      · rename_i ord hord
        cases h
        have hcall : callAt Action.drainOne s = [Call.matching ord] := by
          simp [callAt, hcond, hord]
        exact ⟨by rw [hcall]; simp [applyCalls, applyCall],
          fun _ => ⟨hcond.1, hcond.2, ord, hord, hcall, rfl⟩, fun ha => absurd rfl ha⟩
      · cases h
    · cases h

theorem exec_calls (acts : List Action) :
    ∀ (s0 s : Sys), exec acts s0 = some s → s.st = applyCalls s0.st (callsOf acts s0) := by
  induction acts with
  | nil =>
    intro s0 s h
    cases h
    rfl
  | cons a as ih =>
    intro s0 s h
    obtain ⟨s1, hs1, hrest⟩ := exec_cons_eq_some a as s0 s h
    rw [callsOf_cons_of_step a as s0 s1 hs1, applyCalls_append, ← (step_calls a s0 s1 hs1).1]
    exact ih s1 s hrest

/-- Along a run the ledger only grows at the back, identities kept. -/
theorem step_book_grows (a : Action) (s s1 : Sys) (h : step a s = some s1) :
    ∃ extra, identities s1.st.orderBook = identities s.st.orderBook ++ extra := by
  obtain ⟨_, h2, h3⟩ := step_calls a s s1 h
  by_cases ha : a = Action.drainOne
  · obtain ⟨_, _, ord, _, _, hs1⟩ := h2 ha
    rw [hs1]
    exact ⟨[], by simp [(matcher_frame s.st ord).2]⟩
  · rcases (h3 ha).2.2 with hst | ⟨ord, hst⟩
    · exact ⟨[], by rw [hst]; simp⟩
    · rw [hst]
      exact ⟨identities [{ ord with orderId := s.st.orderCount }], by
        simp [enterOrder, identities]⟩

theorem exec_book_grows (acts : List Action) :
    ∀ (s0 s : Sys), exec acts s0 = some s →
      ∃ extra, identities s.st.orderBook = identities s0.st.orderBook ++ extra := by
  induction acts with
  | nil =>
    intro s0 s h
    cases h
    exact ⟨[], by simp⟩
  | cons a as ih =>
    intro s0 s h
    obtain ⟨s1, hs1, hrest⟩ := exec_cons_eq_some a as s0 s h
    obtain ⟨e1, h1⟩ := step_book_grows a s0 s1 hs1
    obtain ⟨e2, h2⟩ := ih s1 s hrest
    exact ⟨e1 ++ e2, by rw [h2, h1, List.append_assoc]⟩

/-- The orders handed to `matcher` along a run are the ledger entries from the cursor at
the start to the cursor at the end, in ledger order. -/
theorem exec_matched (acts : List Action) :
    ∀ (s0 s : Sys), s0.st.orderCount = s0.st.orderBook.length →
      s0.nextOrder ≤ s0.st.orderCount → exec acts s0 = some s →
      identities (matchedOrders (callsOf acts s0)) =
        ((identities s.st.orderBook).take s.nextOrder).drop s0.nextOrder := by
  induction acts with
  | nil =>
    intro s0 s _ _ h
    cases h
    simp [callsOf, matchedOrders, identities]
  | cons a as ih =>
    intro s0 s hc hn h
    obtain ⟨s1, hs1, hrest⟩ := exec_cons_eq_some a as s0 s h
    obtain ⟨c1, c2, _, _⟩ := step_counters a s0 s1 hs1 hc hn
    obtain ⟨r1, r2, r3, _⟩ := exec_counters as s1 s c1 c2 hrest
    have hih := ih s1 s c1 c2 hrest
    obtain ⟨_, h2, h3⟩ := step_calls a s0 s1 hs1
    rw [callsOf_cons_of_step a as s0 s1 hs1, matchedOrders_append, identities_append, hih]
    by_cases ha : a = Action.drainOne
    · obtain ⟨_, hlt, ord, hord, hcall, hs1eq⟩ := h2 ha
      have hn1 : s1.nextOrder = s0.nextOrder + 1 := by rw [hs1eq]
      have hid1 : identities s1.st.orderBook = identities s0.st.orderBook := by
        rw [hs1eq]; exact (matcher_frame s0.st ord).2
      obtain ⟨extra, hext⟩ := exec_book_grows as s1 s hrest
      rw [hcall, hn1]
      have hlen : s0.nextOrder < ((identities s.st.orderBook).take s.nextOrder).length := by
        rw [List.length_take, length_identities]
        omega
      rw [List.drop_eq_getElem_cons hlen]
      have hget : ((identities s.st.orderBook).take s.nextOrder)[s0.nextOrder]? =
          some { ord with status := OrderStatus.Open } := by
        rw [List.getElem?_take_of_lt (by omega), hext, hid1,
          List.getElem?_append_left (by rw [length_identities]; omega)]
        simp [identities, hord]
      have hget1 := List.getElem?_eq_getElem hlen
      rw [hget] at hget1
      rw [← Option.some.inj hget1]
      rfl
    · obtain ⟨g1, g2, _⟩ := h3 ha
      rw [g1, g2]
      rfl

theorem map_orderId_identities (os : List Order) :
    (identities os).map (fun o => o.orderId) = os.map (fun o => o.orderId) := by
  simp [identities, Function.comp_def]

theorem map_orderId_take_of_numbered (book : List Order) (hnum : LedgerNumbered book) (n : Nat)
    (hn : n ≤ book.length) : (book.take n).map (fun o => o.orderId) = List.range n := by
  apply List.ext_getElem
  · simp [List.length_take]; omega
  · intro k h1 h2
    have hk : k < n := by simpa using h2
    have hkb : k < book.length := by omega
    simp only [List.getElem_map, List.getElem_take, List.getElem_range]
    exact hnum k _ (List.getElem?_eq_getElem hkb)

/-- C15: in every state an interleaving reaches, `nextOrder ≤ orderCount ≤` ledger length
(the counter is the ledger length).  The shared state is the result of the calls of
`enterOrder` and `matcher` the steps made, in the order they were made; the orders handed
to `matcher` are the ledger entries at the indices `0, 1, .., nextOrder - 1`, in this order:
increasing, each once, none skipped.  A `drainOne` step is enabled exactly when the
matching thread is in its inner loop with `nextOrder < orderCount`; it then is the call of
`matcher` on the ledger entry at index `nextOrder`, whose `orderId` is `nextOrder`, and
advances the cursor by one; no other step calls `matcher` or moves the cursor. -/
theorem matching_follows_append_order (feed : List Record) (acts : List Action) (s : Sys)
    (h : exec acts (initSys feed) = some s) :
    s.nextOrder ≤ s.st.orderCount ∧ s.st.orderCount ≤ s.st.orderBook.length ∧
    matchedIndices acts (initSys feed) = List.range s.nextOrder ∧
    s.st = applyCalls initState (callsOf acts (initSys feed)) ∧
    identities (matchedOrders (callsOf acts (initSys feed))) =
      (identities s.st.orderBook).take s.nextOrder ∧
    (matchedOrders (callsOf acts (initSys feed))).map (fun o => o.orderId) =
      List.range s.nextOrder ∧
    (s.matcherPc = MatcherPc.Draining → s.nextOrder < s.st.orderCount →
      ∃ ord, s.st.orderBook[s.nextOrder]? = some ord ∧ ord.orderId = s.nextOrder ∧
        callAt Action.drainOne s = [Call.matching ord] ∧
        step Action.drainOne s =
          some { s with st := (matcher s.st ord).2, nextOrder := s.nextOrder + 1 }) ∧
    (¬ (s.matcherPc = MatcherPc.Draining ∧ s.nextOrder < s.st.orderCount) →
      step Action.drainOne s = none) ∧
    (∀ a t, a ≠ Action.drainOne → step a s = some t →
      matchedOrders (callAt a s) = [] ∧ t.nextOrder = s.nextOrder ∧
      (t.st = s.st ∨ ∃ ord, t.st = (enterOrder s.st ord).2)) := by
  obtain ⟨c1, c2, _, c4⟩ := exec_counters acts (initSys feed) s rfl (Nat.le_refl _) h
  have hinv := exec_refInv acts (initSys feed) s refInv_initState h
  have hm := exec_matched acts (initSys feed) s rfl (Nat.le_refl _) h
  have hm1 : identities (matchedOrders (callsOf acts (initSys feed))) =
      (identities s.st.orderBook).take s.nextOrder := by
    rw [hm]; rfl
  refine ⟨c2, by omega, ?_, exec_calls acts (initSys feed) s h, hm1, ?_, ?_, ?_, ?_⟩
  · rw [c4]
    show List.range' 0 (s.nextOrder - 0) = List.range s.nextOrder
    rw [Nat.sub_zero, List.range_eq_range']
  · rw [← map_orderId_identities, hm1]
    have hnum : LedgerNumbered (identities s.st.orderBook) :=
      numbered_of_identities (by simp [identities, Function.comp_def]) hinv.2.1
    exact map_orderId_take_of_numbered _ hnum _ (by rw [length_identities]; omega)
  · intro hpc hlt
    have hin : s.nextOrder < s.st.orderBook.length := by omega
    have hord := List.getElem?_eq_getElem hin
    refine ⟨s.st.orderBook[s.nextOrder], hord, hinv.2.1 _ _ hord, ?_, ?_⟩
    · simp [callAt, hpc, hlt, hord]
    · simp [step, hpc, hlt, hord]
  · intro hno
    simp [step, hno]
  · intro a t ha ht
    exact (step_calls a s t ht).2.2 ha

theorem matching_follows_append_order_witness :
    (exec earlyExitSchedule (initSys threeRecords)).map Sys.view =
      some { reader := ReaderPc.Reading, matcherPc := MatcherPc.Terminated,
             dataExausted := true, nextOrder := 2, orderCount := 2, ledgerLength := 2 } ∧
    matchedOrders (callsOf earlyExitSchedule (initSys threeRecords)) =
      [{ orderId := 0, trader := "T1", stock := "X", quantity := 10, side := TradeSide.Buy,
         status := OrderStatus.Open },
       { orderId := 1, trader := "T2", stock := "X", quantity := 4, side := TradeSide.Sell,
         status := OrderStatus.Open }] ∧
    ∃ s, exec earlyExitSchedule (initSys threeRecords) = some s ∧
      s.st.orderBook.map (fun o => o.status) = [OrderStatus.Open, OrderStatus.Success] ∧
      s.st = applyCalls initState (callsOf earlyExitSchedule (initSys threeRecords)) ∧
      (matchedOrders (callsOf earlyExitSchedule (initSys threeRecords))).map
        (fun o => o.orderId) = List.range s.nextOrder :=
  ⟨by decide, by decide, _, rfl, by decide,
   (matching_follows_append_order threeRecords earlyExitSchedule _ rfl).2.2.2.1,
   (matching_follows_append_order threeRecords earlyExitSchedule _ rfl).2.2.2.2.2.1⟩

end OrderMatching
